import Mathlib

/-!
Verification of the rooted-tree Hopf-algebra engine (`rootedtrees/trees.py`).

The Python data model is embedded shallowly:

* a `Tree` value is `LTree := Option PTree`, where `none` is the void tree ∅
  (`Tree(None)`) and `some (PTree.node cs)` is the tree whose nested-tuple
  representation has the children `cs`;
* a `Forest` value is the list of its trees (`tree_list`);
* a `ForestSum` value is the list of its `(forest, coefficient)` terms
  (the parallel tuples `forest_list` / `coeff_list`, zipped; construction
  guarantees the two tuples have equal length).

Scalars (Python ints / floats) are modelled by `ℚ`, which is exact for every
integer computation appearing in the claims.

The helper module `rootedtrees/utils.py` (`_nodes`, `_factorial`, `_sigma`,
`_sorted_list_repr`) is not part of the sources; those four functions are
modelled from the specification text, as marked in their doc comments.
-/

set_option maxHeartbeats 1600000

/-- A planar rooted tree with at least one node: a root together with the
ordered list of its child subtrees.  This is the nested-tuple representation
`Tree.list_repr` of a non-void Python tree. -/
inductive PTree where
  | node : List PTree → PTree

/-- A Python `Tree` value: `none` is the void tree `Tree(None)`, and
`some p` is a real tree. -/
abbrev LTree := Option PTree

mutual

/-- Boolean structural equality of planar trees (raw representation, no
sorting); used only to derive decidable equality of the representation. -/
def PTree.beq : PTree → PTree → Bool
  | .node cs, .node ds => beqL cs ds

def beqL : List PTree → List PTree → Bool
  | [], [] => true
  | [], _ :: _ => false
  | _ :: _, [] => false
  | c :: cs, d :: ds => PTree.beq c d && beqL cs ds

end

mutual

theorem PTree.beq_iff : ∀ {t u : PTree}, t.beq u = true ↔ t = u
  | .node cs, .node ds => by
    rw [PTree.beq, beqL_iff]
    exact ⟨by rintro rfl; rfl, by rintro ⟨rfl⟩; rfl⟩

theorem beqL_iff : ∀ {cs ds : List PTree}, beqL cs ds = true ↔ cs = ds
  | [], [] => by simp [beqL]
  | [], _ :: _ => by simp [beqL]
  | _ :: _, [] => by simp [beqL]
  | c :: cs, d :: ds => by
    rw [beqL, Bool.and_eq_true, PTree.beq_iff, beqL_iff]
    exact ⟨by rintro ⟨rfl, rfl⟩; rfl, by rintro ⟨rfl⟩; exact ⟨rfl, rfl⟩⟩

end

instance : DecidableEq PTree := fun _ _ => decidable_of_iff _ PTree.beq_iff

/-- Structural induction for `PTree` with a membership hypothesis for the
children, convenient for the nested `List` recursion. -/
theorem PTree.ind (P : PTree → Prop)
    (h : ∀ cs : List PTree, (∀ c ∈ cs, P c) → P (.node cs)) : ∀ t, P t
  | .node cs => by
    refine h cs (fun c hc => ?_)
    have : sizeOf c < sizeOf (PTree.node cs) := by
      have := List.sizeOf_lt_of_mem hc
      simp only [PTree.node.sizeOf_spec]
      omega
    exact PTree.ind P h c
termination_by t => sizeOf t

mutual

/-- Modelled from the spec: `nodes(t)` is `0` for ∅ and otherwise
`1 + Σ nodes(child)` (utils function `_nodes`, restricted here to the
non-void case; the void case is handled by `treeNodes`). -/
def PTree.nodes : PTree → Nat
  | .node cs => 1 + nodesL cs

def nodesL : List PTree → Nat
  | [] => 0
  | c :: cs => PTree.nodes c + nodesL cs

end

/-- Modelled from the spec: node count of a possibly-void tree
(`Tree.nodes`, via the missing utils function `_nodes`). -/
def treeNodes : LTree → Nat
  | none => 0
  | some p => p.nodes

theorem PTree.nodes_pos (p : PTree) : 0 < p.nodes := by
  cases p with
  | node cs => rw [PTree.nodes]; omega

theorem nodesL_append (cs ds : List PTree) :
    nodesL (cs ++ ds) = nodesL cs + nodesL ds := by
  induction cs with
  | nil => simp [nodesL]
  | cons c cs ih => simp [nodesL, ih]; omega

theorem nodesL_eq_sum (cs : List PTree) : nodesL cs = (cs.map PTree.nodes).sum := by
  induction cs with
  | nil => rfl
  | cons c cs ih => simp [nodesL, ih]

mutual

/-- Total comparison on planar trees: heavier trees (more nodes) first, ties
broken lexicographically on the children lists.  This realizes the fixed
total order that the spec requires for `canonical_order`. -/
def PTree.cmp : PTree → PTree → Ordering
  | .node cs, .node ds =>
    if nodesL ds < nodesL cs then .lt
    else if nodesL cs < nodesL ds then .gt
    else cmpL cs ds

def cmpL : List PTree → List PTree → Ordering
  | [], [] => .eq
  | [], _ :: _ => .lt
  | _ :: _, [] => .gt
  | c :: cs, d :: ds =>
    match PTree.cmp c d with
    | .eq => cmpL cs ds
    | o => o

end

mutual

theorem PTree.cmp_self : ∀ t : PTree, t.cmp t = .eq
  | .node cs => by rw [PTree.cmp, if_neg (lt_irrefl _), if_neg (lt_irrefl _), cmpL_self]

theorem cmpL_self : ∀ cs : List PTree, cmpL cs cs = .eq
  | [] => rfl
  | c :: cs => by rw [cmpL, PTree.cmp_self, cmpL_self]

end

mutual

theorem PTree.cmp_eq_iff : ∀ {t u : PTree}, t.cmp u = .eq ↔ t = u
  | .node cs, .node ds => by
    constructor
    · intro h
      rw [PTree.cmp] at h
      split_ifs at h
      rw [cmpL_eq_iff.mp h]
    · intro h
      cases h
      exact PTree.cmp_self _

theorem cmpL_eq_iff : ∀ {cs ds : List PTree}, cmpL cs ds = .eq ↔ cs = ds
  | [], [] => by simp [cmpL]
  | [], _ :: _ => by simp [cmpL]
  | _ :: _, [] => by simp [cmpL]
  | c :: cs, d :: ds => by
    constructor
    · intro h
      rw [cmpL] at h
      rcases hcd : PTree.cmp c d with h1 | h1 | h1 <;> rw [hcd] at h
      · exact absurd h (by simp)
      · rw [PTree.cmp_eq_iff.mp hcd, cmpL_eq_iff.mp h]
      · exact absurd h (by simp)
    · intro h
      cases h
      exact cmpL_self _

end

mutual

theorem PTree.cmp_swap : ∀ t u : PTree, u.cmp t = (t.cmp u).swap
  | .node cs, .node ds => by
    rw [PTree.cmp, PTree.cmp]
    rcases Nat.lt_trichotomy (nodesL cs) (nodesL ds) with h | h | h
    · simp only [if_pos h, if_neg (show ¬nodesL ds < nodesL cs by omega)]; rfl
    · simp only [if_neg (show ¬nodesL ds < nodesL cs by omega),
        if_neg (show ¬nodesL cs < nodesL ds by omega)]
      exact cmpL_swap cs ds
    · simp only [if_pos h, if_neg (show ¬nodesL cs < nodesL ds by omega)]; rfl

theorem cmpL_swap : ∀ cs ds : List PTree, cmpL ds cs = (cmpL cs ds).swap
  | [], [] => rfl
  | [], _ :: _ => rfl
  | _ :: _, [] => rfl
  | c :: cs, d :: ds => by
    rw [cmpL, cmpL, PTree.cmp_swap c d]
    rcases PTree.cmp c d with _ | _ | _
    · rfl
    · exact cmpL_swap cs ds
    · rfl

end

mutual

theorem PTree.cmp_lt_trans : ∀ {a b c : PTree},
    a.cmp b = .lt → b.cmp c = .lt → a.cmp c = .lt
  | .node as, .node bs, .node cs => by
    intro hab hbc
    rw [PTree.cmp] at hab hbc ⊢
    by_cases h1 : nodesL bs < nodesL as
    · by_cases h2 : nodesL cs < nodesL bs
      · rw [if_pos (by omega)]
      · rw [if_neg h2] at hbc
        by_cases h3 : nodesL bs < nodesL cs
        · rw [if_pos h3] at hbc; exact absurd hbc (by simp)
        · rw [if_pos (by omega)]
    · rw [if_neg h1] at hab
      by_cases h1' : nodesL as < nodesL bs
      · rw [if_pos h1'] at hab; exact absurd hab (by simp)
      · rw [if_neg h1'] at hab
        by_cases h2 : nodesL cs < nodesL bs
        · rw [if_pos (by omega)]
        · rw [if_neg h2] at hbc
          by_cases h3 : nodesL bs < nodesL cs
          · rw [if_pos h3] at hbc; exact absurd hbc (by simp)
          · rw [if_neg h3] at hbc
            rw [if_neg (by omega), if_neg (by omega)]
            exact cmpL_lt_trans hab hbc

theorem cmpL_lt_trans : ∀ {as bs cs : List PTree},
    cmpL as bs = .lt → cmpL bs cs = .lt → cmpL as cs = .lt
  | [], [], [] => by intro h _; exact absurd h (by simp [cmpL])
  | [], [], _ :: _ => by intros; rfl
  | [], _ :: _, [] => by intro _ h; exact absurd h (by simp [cmpL])
  | [], _ :: _, _ :: _ => by intros; rfl
  | _ :: _, [], [] => by intro h _; exact absurd h (by simp [cmpL])
  | _ :: _, [], _ :: _ => by intro h _; exact absurd h (by simp [cmpL])
  | _ :: _, _ :: _, [] => by intro _ h; exact absurd h (by simp [cmpL])
  | a :: as, b :: bs, c :: cs => by
    intro hab hbc
    rw [cmpL] at hab hbc ⊢
    rcases h1 : PTree.cmp a b with _ | _ | _ <;> simp only [h1] at hab
    · rcases h2 : PTree.cmp b c with _ | _ | _ <;> simp only [h2] at hbc
      · rw [PTree.cmp_lt_trans h1 h2]
      · obtain rfl : b = c := PTree.cmp_eq_iff.mp h2
        rw [h1]
      · exact absurd hbc (by decide)
    · obtain rfl : a = b := PTree.cmp_eq_iff.mp h1
      rcases h2 : PTree.cmp a c with _ | _ | _ <;> simp only [h2] at hbc
      · rfl
      · exact cmpL_lt_trans hab hbc
      · exact absurd hbc (by decide)
    · exact absurd hab (by decide)

end

/-- The (pre)order used to sort children: `a` comes no later than `b`. -/
def ptLE (a b : PTree) : Prop := a.cmp b ≠ Ordering.gt

instance : DecidableRel ptLE := fun a b => by unfold ptLE; infer_instance

instance : IsTotal PTree ptLE :=
  ⟨fun a b => by
    unfold ptLE
    rw [PTree.cmp_swap a b]
    rcases a.cmp b with _ | _ | _ <;> decide⟩

instance : IsTrans PTree ptLE :=
  ⟨fun a b c hab hbc => by
    unfold ptLE at *
    rcases h1 : a.cmp b with h | h | h
    · rcases h2 : b.cmp c with h' | h' | h'
      · simp [PTree.cmp_lt_trans h1 h2]
      · rw [PTree.cmp_eq_iff.mp h2] at h1; simp [h1]
      · exact absurd h2 hbc
    · rw [PTree.cmp_eq_iff.mp h1]; exact hbc
    · exact absurd h1 hab⟩

instance : IsAntisymm PTree ptLE :=
  ⟨fun a b hab hba => by
    unfold ptLE at *
    rw [PTree.cmp_swap a b] at hba
    rcases h : a.cmp b with h1 | h1 | h1
    · rw [h] at hba; exact absurd rfl hba
    · exact PTree.cmp_eq_iff.mp h
    · rw [h] at hab; exact absurd rfl hab⟩

mutual

/-- Modelled from the spec: `canonical_order` / `_sorted_list_repr`
recursively sorts the children so that heavier canonical subtrees come
first, ties broken by the fixed total order `ptLE`; the result is the
normal form used as the equality/hash oracle. -/
def PTree.canon : PTree → PTree
  | .node cs => .node (List.insertionSort ptLE (canonL cs))

def canonL : List PTree → List PTree
  | [] => []
  | c :: cs => PTree.canon c :: canonL cs

end

theorem canonL_eq_map (cs : List PTree) : canonL cs = cs.map PTree.canon := by
  induction cs with
  | nil => rfl
  | cons c cs ih => rw [canonL, ih]; rfl

/-- Modelled from the spec: `Tree.sorted_list_repr`, the sorted canonical
representation of a possibly-void tree. -/
def sortedListRepr : LTree → LTree
  | none => none
  | some p => some p.canon

theorem sortedListRepr_nodes_aux :
    ∀ p : PTree, PTree.nodes (PTree.canon p) = PTree.nodes p := by
  intro p
  induction p using PTree.ind with
  | h cs ih =>
    rw [PTree.canon, PTree.nodes, PTree.nodes]
    congr 1
    rw [nodesL_eq_sum, nodesL_eq_sum]
    have hperm : (List.insertionSort ptLE (canonL cs)).Perm (canonL cs) :=
      List.perm_insertionSort _ _
    rw [(hperm.map PTree.nodes).sum_eq]
    rw [canonL_eq_map, List.map_map]
    congr 1
    exact List.map_congr_left (fun c hc => ih c hc)

theorem canon_nodes (p : PTree) : p.canon.nodes = p.nodes :=
  sortedListRepr_nodes_aux p

/-- Canonicalization is idempotent: sorting a canonical tree changes
nothing. -/
theorem canon_idem : ∀ p : PTree, p.canon.canon = p.canon := by
  intro p
  induction p using PTree.ind with
  | h cs ih =>
    rw [PTree.canon, PTree.canon]
    congr 1
    have h1 : canonL (List.insertionSort ptLE (canonL cs))
        = List.insertionSort ptLE (canonL cs) := by
      rw [canonL_eq_map]
      have : ∀ c ∈ List.insertionSort ptLE (canonL cs), PTree.canon c = c := by
        intro c hc
        have hc2 : c ∈ canonL cs := (List.perm_insertionSort ptLE _).mem_iff.mp hc
        rw [canonL_eq_map] at hc2
        obtain ⟨d, hd, rfl⟩ := List.mem_map.mp hc2
        exact ih d hd
      calc (List.insertionSort ptLE (canonL cs)).map PTree.canon
          = (List.insertionSort ptLE (canonL cs)).map id :=
            List.map_congr_left this
        _ = _ := List.map_id _
    rw [h1]
    exact List.eq_of_perm_of_sorted (List.perm_insertionSort ptLE _)
      (List.sorted_insertionSort ptLE _) (List.sorted_insertionSort ptLE _)

/-! ### Constants of `trees.py` -/

def EMPTY_TREE : LTree := none

def SINGLETON_TREE : LTree := some (.node [])

def EMPTY_FOREST : List LTree := [none]

def SINGLETON_FOREST : List LTree := [some (.node [])]

/-- A Python `Forest` is the tuple `tree_list` of its trees. -/
abbrev Forest := List LTree

/-- A Python `ForestSum` is its parallel tuples `forest_list` / `coeff_list`,
zipped into one list of `(forest, coefficient)` terms; `__post_init__`
guarantees the two tuples have equal length. -/
abbrev ForestSum := List (Forest × ℚ)

def EMPTY_FOREST_SUM : ForestSum := [([none], 1)]

def ZERO_FOREST_SUM : ForestSum := [([none], 0)]

def SINGLETON_FOREST_SUM : ForestSum := [([some (.node [])], 1)]

/-! ### Equality oracles and reduction -/

/-- Embeds `Tree._equals`: equality of the sorted canonical representations. -/
def eqT (t u : LTree) : Bool := decide (sortedListRepr t = sortedListRepr u)

/-- Embeds `Forest.reduce`: drop void trees, keeping a single void tree if
nothing else remains; a forest of at most one tree is returned unchanged. -/
def reduceF (f : Forest) : Forest :=
  if f.length ≤ 1 then f
  else
    let filtered := f.filter Option.isSome
    if filtered = [] then [none]
    else if filtered.length = f.length then f
    else filtered

/-- The canonical key by which Python's `Counter`/`hash` machinery identifies
a `Forest`: the multiset of sorted representations of its reduced tree list
(`Counter(self.reduce().tree_list)` with trees compared by `_equals`). -/
def fkey (f : Forest) : Multiset LTree := ((reduceF f).map sortedListRepr : List LTree)

/-- Embeds `Forest._equals`: multiset equality of the canonicalized reduced
tree lists (`Counter(self.reduce().tree_list) == Counter(other.reduce().tree_list)`). -/
def eqF (f g : Forest) : Bool := decide (fkey f = fkey g)

/-- The merge step inside `ForestSum.reduce`: add the coefficient to the
first accumulated term whose forest compares `_equals`-equal, else append a
new term (the linear scan over `new_forest_list`). -/
def insertMerge (acc : ForestSum) (fr : Forest) (c : ℚ) : ForestSum :=
  match acc with
  | [] => [(fr, c)]
  | (g, d) :: rest => if eqF fr g then (g, d + c) :: rest else (g, d) :: insertMerge rest fr c

/-- Embeds `ForestSum.reduce`: reduce each forest, merge `_equals`-equal
terms, drop zero-coefficient terms, and fall back to the canonical zero when
no term remains. -/
def reduceFS (s : ForestSum) : ForestSum :=
  let merged := s.foldl (fun acc fc => insertMerge acc (reduceF fc.1) fc.2) []
  let result := merged.filter (fun fc => decide (fc.2 ≠ 0))
  if result = [] then ZERO_FOREST_SUM else result

/-- The canonical key identifying a `ForestSum`: the multiset of
`(forest key, coefficient)` pairs of its reduced form
(`Counter(zip(reduced.forest_list, reduced.coeff_list))`). -/
def skey (s : ForestSum) : Multiset (Multiset LTree × ℚ) :=
  (((reduceFS s).map (fun fc => (fkey fc.1, fc.2))) : List (Multiset LTree × ℚ))

/-- Embeds `ForestSum._equals`: multiset equality of the reduced
`(forest, coefficient)` terms, forests compared canonically. -/
def eqFS (s₁ s₂ : ForestSum) : Bool := decide (skey s₁ = skey s₂)

/-! ### Promotions -/

/-- Embeds `Tree.as_forest`. -/
def asForest (t : LTree) : Forest := [t]

/-- Embeds `Tree.as_forest_sum`. -/
def asForestSum (t : LTree) : ForestSum := [([t], 1)]

/-- Embeds `Forest.as_forest_sum`. -/
def forestAsForestSum (f : Forest) : ForestSum := [(f, 1)]

/-- Embeds `_counit`: the coefficient-1 empty forest sum on the void tree and
the zero forest sum otherwise. -/
def counit (t : LTree) : ForestSum :=
  match t with
  | none => EMPTY_FOREST_SUM
  | some _ => ZERO_FOREST_SUM

/-! ### The coproduct `Tree.split` -/

/-- The combination order of `itertools.product`: the leftmost factor varies
slowest. -/
def pyProduct : List (List α) → List (List α)
  | [] => [[]]
  | l :: ls => l.flatMap (fun x => (pyProduct ls).map (fun c => x :: c))

theorem mem_pyProduct {ls : List (List α)} {c : List α} :
    c ∈ pyProduct ls ↔ List.Forall₂ (fun x l => x ∈ l) c ls := by
  induction ls generalizing c with
  | nil =>
    simp only [pyProduct, List.mem_singleton]
    constructor
    · rintro rfl; exact List.Forall₂.nil
    · rintro ⟨⟩; rfl
  | cons l ls ih =>
    simp only [pyProduct, List.mem_flatMap, List.mem_map]
    constructor
    · rintro ⟨x, hx, c', hc', rfl⟩
      exact List.Forall₂.cons hx (ih.mp hc')
    · intro h
      cases h with
      | cons hx hrest => exact ⟨_, hx, _, ih.mpr hrest, rfl⟩

theorem length_pyProduct (ls : List (List α)) :
    (pyProduct ls).length = (ls.map List.length).prod := by
  induction ls with
  | nil => rfl
  | cons l ls ih =>
    simp only [pyProduct, List.length_flatMap]
    calc (l.map fun x => ((pyProduct ls).map (fun c => x :: c)).length).sum
        = (l.map fun _ => (pyProduct ls).length).sum :=
          congrArg List.sum (List.map_congr_left (fun x _ => List.length_map _ _))
      _ = l.length * (pyProduct ls).length := by
          rw [List.map_const', List.sum_replicate, smul_eq_mul]
      _ = _ := by rw [ih, List.map_cons, List.prod_cons]

mutual

/-- Embeds `Tree.split` on a non-void tree.  The unit tree gets the explicit
two pairs of the source; otherwise the children are split recursively, the
full-cut pair `(∅, Forest((self,)))` is prepended, and the Cartesian product
of the per-child pairs is enumerated in `itertools.product` order: the kept
tree is rebuilt from the non-void kept parts and the removed forest is the
concatenation of the removed parts.  The first component lists the kept
subtrees `R_c`, the second the removed branch forests `P_c`. -/
def PTree.split : PTree → List LTree × List Forest
  | .node [] => ([some (.node []), none], [[none], [some (.node [])]])
  | .node (c :: cs) =>
    let child := splitChildren (c :: cs)
    (none :: (pyProduct child.1).map (fun p => some (.node (p.filterMap id))),
     [some (.node (c :: cs))] :: (pyProduct child.2).map List.flatten)

/-- The loop `for rep in self.list_repr: s, b = Tree(rep).split()` collecting
the per-child kept lists and removed lists. -/
def splitChildren : List PTree → List (List LTree) × List (List Forest)
  | [] => ([], [])
  | c :: cs =>
    let sb := PTree.split c
    let rest := splitChildren cs
    (sb.1 :: rest.1, sb.2 :: rest.2)

end

/-- Embeds `Tree.split` on an arbitrary tree (the void case returns the
single pair `(∅, EMPTY_FOREST)`). -/
def treeSplit : LTree → List LTree × List Forest
  | none => ([none], [[none]])
  | some p => p.split

/-- The zipped list of `(kept, removed)` cut pairs of a tree; the source
iterates the two parallel lists by a common index. -/
def splitPairs (t : LTree) : List (LTree × Forest) :=
  (treeSplit t).1.zip (treeSplit t).2

theorem splitChildren_fst (l : List PTree) :
    (splitChildren l).1 = l.map (fun c => (PTree.split c).1) := by
  induction l with
  | nil => rfl
  | cons c cs ih => rw [splitChildren]; simp [ih]

theorem splitChildren_snd (l : List PTree) :
    (splitChildren l).2 = l.map (fun c => (PTree.split c).2) := by
  induction l with
  | nil => rfl
  | cons c cs ih => rw [splitChildren]; simp [ih]

theorem nodesL_mem_le {c : PTree} {cs : List PTree} (h : c ∈ cs) :
    c.nodes ≤ nodesL cs := by
  induction cs with
  | nil => cases h
  | cons d ds ih =>
    rw [nodesL]
    rcases List.mem_cons.mp h with rfl | h2
    · omega
    · have := ih h2; omega

theorem forall₂_mem_left {R : α → β → Prop} {l₁ : List α} {l₂ : List β}
    (h : List.Forall₂ R l₁ l₂) : ∀ x ∈ l₁, ∃ y ∈ l₂, R x y := by
  induction h with
  | nil => intro x hx; cases hx
  | cons hR _ ih =>
    intro x hx
    rcases List.mem_cons.mp hx with rfl | hx2
    · exact ⟨_, List.mem_cons_self _ _, hR⟩
    · obtain ⟨y, hy, hxy⟩ := ih x hx2
      exact ⟨y, List.mem_cons_of_mem _ hy, hxy⟩

/-- Every tree occurring in a removed forest of `split(p)` has at most as
many nodes as `p`. -/
theorem split_removed_le :
    ∀ p : PTree, ∀ fr ∈ (PTree.split p).2, ∀ s ∈ fr, treeNodes s ≤ p.nodes := by
  intro p
  induction p using PTree.ind with
  | h cs ih =>
    intro fr hfr s hs
    cases cs with
    | nil =>
      rw [PTree.split] at hfr
      rcases List.mem_cons.mp hfr with rfl | hfr2
      · rcases List.mem_singleton.mp hs with rfl
        simp [treeNodes, PTree.nodes, nodesL]
      · rcases List.mem_singleton.mp hfr2 with rfl
        rcases List.mem_singleton.mp hs with rfl
        simp [treeNodes, PTree.nodes, nodesL]
    | cons c cs' =>
      rw [PTree.split] at hfr
      rcases List.mem_cons.mp hfr with rfl | hfr2
      · rcases List.mem_singleton.mp hs with rfl
        exact le_refl _
      · obtain ⟨combo, hcombo, rfl⟩ := List.mem_map.mp hfr2
        obtain ⟨comp, hcomp, hscomp⟩ := List.mem_flatten.mp hs
        have hff := mem_pyProduct.mp hcombo
        rw [splitChildren_snd] at hff
        obtain ⟨ll, hll, hcompll⟩ := forall₂_mem_left hff comp hcomp
        obtain ⟨child, hchild, rfl⟩ := List.mem_map.mp hll
        have h1 := ih child hchild comp hcompll s hscomp
        have h2 := nodesL_mem_le hchild
        rw [PTree.nodes]
        omega

/-- Every tree in the removed forest of a cut pair other than the full cut
(`kept = ∅`) has strictly fewer nodes than the tree being cut; this is the
termination measure of the antipode recursion. -/
theorem splitPairs_tail_bound {cs : List PTree} {p : LTree × Forest}
    (hp : p ∈ splitPairs (some (.node cs)))
    (hne : ¬ eqT p.1 none = true) : ∀ s ∈ p.2, treeNodes s < (PTree.node cs).nodes := by
  obtain ⟨p1, p2⟩ := p
  intro s hs
  simp only at hs hne
  cases cs with
  | nil =>
    replace hp : (p1, p2) ∈
        [((some (PTree.node []) : LTree), ([none] : Forest)), (none, [some (PTree.node [])])] :=
      hp
    rcases List.mem_cons.mp hp with h | h
    · obtain ⟨rfl, rfl⟩ := Prod.mk.injEq .. ▸ h
      rcases List.mem_singleton.mp hs with rfl
      simp [treeNodes, PTree.nodes, nodesL]
    · rcases List.mem_singleton.mp h with h2
      obtain ⟨rfl, rfl⟩ := Prod.mk.injEq .. ▸ h2
      simp [eqT, sortedListRepr] at hne
  | cons c cs' =>
    rw [splitPairs, treeSplit, PTree.split] at hp
    rw [List.zip_cons_cons] at hp
    rcases List.mem_cons.mp hp with h | h
    · obtain ⟨rfl, rfl⟩ := Prod.mk.injEq .. ▸ h
      simp [eqT, sortedListRepr] at hne
    · have h2 := (List.of_mem_zip h).2
      obtain ⟨combo, hcombo, hflat⟩ := List.mem_map.mp h2
      rw [← hflat] at hs
      obtain ⟨comp, hcomp, hscomp⟩ := List.mem_flatten.mp hs
      have hff := mem_pyProduct.mp hcombo
      rw [splitChildren_snd] at hff
      obtain ⟨ll, hll, hcompll⟩ := forall₂_mem_left hff comp hcomp
      obtain ⟨child, hchild, hce⟩ := List.mem_map.mp hll
      rw [← hce] at hcompll
      have h1 := split_removed_le child comp hcompll s hscomp
      have h3 := nodesL_mem_le hchild
      rw [PTree.nodes]
      omega

/-! ### Arithmetic operators

Each definition mirrors one dispatch branch of `__mul__` / `__add__` /
`__neg__` / `__sub__` of `Tree`, `Forest` and `ForestSum`, including the
exact placement of the `apply_reduction` flag and of the default-`True`
reductions performed by nested operator calls. -/

/-- Embeds `Tree.__mul__` with a scalar operand. -/
def treeMulScalar (t : LTree) (q : ℚ) (red : Bool) : ForestSum :=
  let out : ForestSum := [([t], q)]
  if red then reduceFS out else out

/-- Embeds `Tree.__mul__` with a `Tree` operand (result `Forest((self, other))`). -/
def treeMulTree (t u : LTree) (red : Bool) : Forest :=
  if red then reduceF [t, u] else [t, u]

/-- Embeds `Tree.__mul__` with a `Forest` operand. -/
def treeMulForest (t : LTree) (f : Forest) (red : Bool) : Forest :=
  if red then reduceF (t :: f) else t :: f

/-- Embeds `Tree.__mul__` with a `ForestSum` operand; the comprehension
`tuple(self * x for x in other.forest_list)` reduces each product with the
default flag. -/
def treeMulFS (t : LTree) (s : ForestSum) (red : Bool) : ForestSum :=
  let out := s.map (fun fc => (treeMulForest t fc.1 true, fc.2))
  if red then reduceFS out else out

/-- Embeds `Forest.__mul__` with a scalar operand. -/
def forestMulScalar (f : Forest) (q : ℚ) (red : Bool) : ForestSum :=
  let out : ForestSum := [(f, q)]
  if red then reduceFS out else out

/-- Embeds `Forest.__mul__` with a `Tree` operand. -/
def forestMulTree (f : Forest) (t : LTree) (red : Bool) : Forest :=
  if red then reduceF (f ++ [t]) else f ++ [t]

/-- Embeds `Forest.__mul__` with a `Forest` operand. -/
def forestMulForest (f g : Forest) (red : Bool) : Forest :=
  if red then reduceF (f ++ g) else f ++ g

/-- Embeds `Forest.__mul__` with a `ForestSum` operand; the comprehension
`[self.__mul__(x, False) for x in f]` passes `False` explicitly. -/
def forestMulFS (f : Forest) (s : ForestSum) (red : Bool) : ForestSum :=
  let out := s.map (fun fc => (forestMulForest f fc.1 false, fc.2))
  if red then reduceFS out else out

/-- Embeds `ForestSum.__mul__` with a scalar operand. -/
def fsMulScalar (s : ForestSum) (q : ℚ) (red : Bool) : ForestSum :=
  let out := s.map (fun fc => (fc.1, fc.2 * q))
  if red then reduceFS out else out

/-- Embeds `ForestSum.__mul__` with a `Tree` operand; the inner products
`x * other` use the default reduction flag. -/
def fsMulTree (s : ForestSum) (t : LTree) (red : Bool) : ForestSum :=
  let out := s.map (fun fc => (forestMulTree fc.1 t true, fc.2))
  if red then reduceFS out else out

/-- Embeds `ForestSum.__mul__` with a `Forest` operand. -/
def fsMulForest (s : ForestSum) (g : Forest) (red : Bool) : ForestSum :=
  let out := s.map (fun fc => (forestMulForest fc.1 g true, fc.2))
  if red then reduceFS out else out

/-- Embeds `ForestSum.__mul__` with a `ForestSum` operand: the double
comprehension over both term lists, forests multiplied with the default
reduction flag. -/
def fsMulFS (s₁ s₂ : ForestSum) (red : Bool) : ForestSum :=
  let out := s₁.flatMap (fun fc => s₂.map (fun gd => (forestMulForest fc.1 gd.1 true, fc.2 * gd.2)))
  if red then reduceFS out else out

/-- Embeds `Tree.__neg__` (`self.__mul__(-1, False)`). -/
def treeNeg (t : LTree) : ForestSum := treeMulScalar t (-1) false

/-- Embeds `Forest.__neg__`. -/
def forestNeg (f : Forest) : ForestSum := forestMulScalar f (-1) false

/-- Embeds `ForestSum.__neg__`. -/
def fsNeg (s : ForestSum) : ForestSum := fsMulScalar s (-1) false

/-- Embeds `Tree.__add__` with a scalar operand. -/
def treeAddScalar (t : LTree) (q : ℚ) (red : Bool) : ForestSum :=
  let out : ForestSum := [([t], 1), ([none], q)]
  if red then reduceFS out else out

/-- Embeds `Tree.__add__` with a `Tree` operand. -/
def treeAddTree (t u : LTree) (red : Bool) : ForestSum :=
  let out : ForestSum := [([t], 1), ([u], 1)]
  if red then reduceFS out else out

/-- Embeds `Tree.__add__` with a `Forest` operand. -/
def treeAddForest (t : LTree) (f : Forest) (red : Bool) : ForestSum :=
  let out : ForestSum := [([t], 1), (f, 1)]
  if red then reduceFS out else out

/-- Embeds `Tree.__add__` with a `ForestSum` operand. -/
def treeAddFS (t : LTree) (s : ForestSum) (red : Bool) : ForestSum :=
  let out : ForestSum := ([t], 1) :: s
  if red then reduceFS out else out

/-- Embeds `Forest.__add__` with a scalar operand.  The source builds the
unreduced sum, evaluates `out.reduce()` but discards the result, and returns
the unreduced sum; the `apply_reduction` flag therefore has no effect. -/
def forestAddScalar (f : Forest) (q : ℚ) (_red : Bool) : ForestSum :=
  [(f, 1), ([none], q)]

/-- Embeds `Forest.__add__` with a `Tree` operand (reduction result
discarded, as in `forestAddScalar`). -/
def forestAddTree (f : Forest) (t : LTree) (_red : Bool) : ForestSum :=
  [(f, 1), ([t], 1)]

/-- Embeds `Forest.__add__` with a `Forest` operand (reduction result
discarded, as in `forestAddScalar`). -/
def forestAddForest (f g : Forest) (_red : Bool) : ForestSum :=
  [(f, 1), (g, 1)]

/-- Embeds `Forest.__add__` with a `ForestSum` operand (reduction result
discarded, as in `forestAddScalar`). -/
def forestAddFS (f : Forest) (s : ForestSum) (_red : Bool) : ForestSum :=
  (f, 1) :: s

/-- Embeds `ForestSum.__add__` with a scalar operand. -/
def fsAddScalar (s : ForestSum) (q : ℚ) (red : Bool) : ForestSum :=
  let out := s ++ [([none], q)]
  if red then reduceFS out else out

/-- Embeds `ForestSum.__add__` with a `Tree` operand. -/
def fsAddTree (s : ForestSum) (t : LTree) (red : Bool) : ForestSum :=
  let out := s ++ [([t], 1)]
  if red then reduceFS out else out

/-- Embeds `ForestSum.__add__` with a `Forest` operand. -/
def fsAddForest (s : ForestSum) (g : Forest) (red : Bool) : ForestSum :=
  let out := s ++ [(g, 1)]
  if red then reduceFS out else out

/-- Embeds `ForestSum.__add__` with a `ForestSum` operand. -/
def fsAddFS (s₁ s₂ : ForestSum) (red : Bool) : ForestSum :=
  let out := s₁ ++ s₂
  if red then reduceFS out else out

/-- Embeds `ForestSum.__sub__`: `return self + (- other)` for a `ForestSum`
operand.  The source ignores its `applyReduction` parameter and performs the
addition with the default (reducing) flag. -/
def fsSub (s other : ForestSum) (_red : Bool) : ForestSum :=
  fsAddFS s (fsNeg other) true

/-! ### The duck-typed value universe -/

/-- A value of the Python algebra: a scalar, a `Tree`, a `Forest` or a
`ForestSum`.  Host-supplied tree functions may return any of the four. -/
inductive Val where
  | s (q : ℚ)
  | t (t : LTree)
  | f (f : Forest)
  | fs (x : ForestSum)
deriving DecidableEq

def Val.isScalar : Val → Bool
  | .s _ => true
  | _ => false

def Val.isTreeVal : Val → Bool
  | .t _ => true
  | _ => false

/-- Embeds `_mul` together with the `__mul__`/`__rmul__` dispatch of the
three classes (scalar·scalar multiplies directly; a scalar against a
tree-like value is reflected to the tree-like operand's `__mul__`). -/
def valMul (a b : Val) (red : Bool) : Val :=
  match a, b with
  | .s q, .s p => .s (q * p)
  | .s q, .t u => .fs (treeMulScalar u q red)
  | .s q, .f g => .fs (forestMulScalar g q red)
  | .s q, .fs x => .fs (fsMulScalar x q red)
  | .t u, .s q => .fs (treeMulScalar u q red)
  | .t u, .t v => .f (treeMulTree u v red)
  | .t u, .f g => .f (treeMulForest u g red)
  | .t u, .fs x => .fs (treeMulFS u x red)
  | .f g, .s q => .fs (forestMulScalar g q red)
  | .f g, .t u => .f (forestMulTree g u red)
  | .f g, .f h => .f (forestMulForest g h red)
  | .f g, .fs x => .fs (forestMulFS g x red)
  | .fs x, .s q => .fs (fsMulScalar x q red)
  | .fs x, .t u => .fs (fsMulTree x u red)
  | .fs x, .f g => .fs (fsMulForest x g red)
  | .fs x, .fs y => .fs (fsMulFS x y red)

/-- Embeds `_add` together with the `__add__`/`__radd__` dispatch. -/
def valAdd (a b : Val) (red : Bool) : Val :=
  match a, b with
  | .s q, .s p => .s (q + p)
  | .s q, .t u => .fs (treeAddScalar u q red)
  | .s q, .f g => .fs (forestAddScalar g q red)
  | .s q, .fs x => .fs (fsAddScalar x q red)
  | .t u, .s q => .fs (treeAddScalar u q red)
  | .t u, .t v => .fs (treeAddTree u v red)
  | .t u, .f g => .fs (treeAddForest u g red)
  | .t u, .fs x => .fs (treeAddFS u x red)
  | .f g, .s q => .fs (forestAddScalar g q red)
  | .f g, .t u => .fs (forestAddTree g u red)
  | .f g, .f h => .fs (forestAddForest g h red)
  | .f g, .fs x => .fs (forestAddFS g x red)
  | .fs x, .s q => .fs (fsAddScalar x q red)
  | .fs x, .t u => .fs (fsAddTree x u red)
  | .fs x, .f g => .fs (fsAddForest x g red)
  | .fs x, .fs y => .fs (fsAddFS x y red)

/-- Embeds the reduction step `out.reduce()` applied to a computed value.
A bare `Tree` has no `reduce` method in the source; the code paths below
only reach this function on scalars, forests and forest sums, and the
`Tree` branch is the identity. -/
def reduceVal : Val → Val
  | .s q => .s q
  | .t u => .t u
  | .f g => .f (reduceF g)
  | .fs x => .fs (reduceFS x)

/-- Embeds Python `==` across the four operand kinds, following the
`__eq__` dispatch of `Tree`, `Forest` and `ForestSum` (with reflected
comparison for a scalar on the left). -/
def valEq (a b : Val) : Bool :=
  match a, b with
  | .s q, .s p => decide (q = p)
  | .s q, .t u => eqFS (asForestSum u) (treeMulScalar none q true)
  | .s q, .f g => eqFS (forestAsForestSum g) (treeMulScalar none q true)
  | .s q, .fs x => eqFS x (treeMulScalar none q true)
  | .t u, .s q => eqFS (asForestSum u) (treeMulScalar none q true)
  | .t u, .t v => eqT u v
  | .t u, .f g => eqF (asForest u) g
  | .t u, .fs x => eqFS (asForestSum u) x
  | .f g, .s q => eqFS (forestAsForestSum g) (treeMulScalar none q true)
  | .f g, .t u => eqF g (asForest u)
  | .f g, .f h => eqF g h
  | .f g, .fs x => eqFS (forestAsForestSum g) x
  | .fs x, .s q => eqFS x (treeMulScalar none q true)
  | .fs x, .t u => eqFS x (asForestSum u)
  | .fs x, .f g => eqFS x (forestAsForestSum g)
  | .fs x, .fs y => eqFS x y

/-! ### The antipode -/

/-- Embeds `Tree.antipode`: the void tree maps to the identity, the unit
tree to `SINGLETON_FOREST_SUM.__mul__(-1, False)`, and a larger tree to
`-t - Σ branches[i].antipode(False) * subtrees[i]` over all cut pairs whose
kept part compares `_equals`-equal neither to the tree itself nor to ∅.
The branch antipode `Forest.antipode(False)` is inlined as the fold
`branches[i][0].antipode(False) * ... * branches[i][k].antipode(False)`
(see `antipodeFold_spec` below for the equality with `forestAntipode`; the
branch forests of `split` are never empty, so the error branch and the
value-identical singleton special case of `Forest.antipode` do not fire). -/
def antipodeT (t : LTree) (red : Bool) : ForestSum :=
  match t with
  | none => EMPTY_FOREST_SUM
  | some (.node []) => fsMulScalar SINGLETON_FOREST_SUM (-1) false
  | some (.node (c :: cs)) =>
    let out := (splitPairs (some (.node (c :: cs)))).attach.foldl
      (fun out p =>
        if h : (eqT p.1.1 (some (.node (c :: cs))) || eqT p.1.1 none) = true then out
        else
          fsSub out
            (fsMulTree
              (match hr : p.1.2 with
               | [] => EMPTY_FOREST_SUM
               | s :: rest =>
                 rest.attach.foldl
                   (fun acc u => fsMulFS acc (antipodeT u.1 false) false)
                   (antipodeT s false))
              p.1.1 false)
            false)
      (fsNeg (asForestSum (some (.node (c :: cs)))))
    if red then reduceFS out else out
termination_by treeNodes t
decreasing_by
  · have hne : ¬ eqT p.1.1 none = true := fun hx => h (by simp [hx])
    have hb := splitPairs_tail_bound p.2 hne u.1
      (by rw [hr]; exact List.mem_cons_of_mem _ u.2)
    simpa [treeNodes] using hb
  · have hne : ¬ eqT p.1.1 none = true := fun hx => h (by simp [hx])
    have hb := splitPairs_tail_bound p.2 hne s (by rw [hr]; exact List.mem_cons_self _ _)
    simpa [treeNodes] using hb

/-- The general fold of `Forest.antipode`:
`tree_list[0].antipode(False) * tree_list[1].antipode(False) * ...`,
followed by the optional reduction.  (The empty case is unreachable in the
source, which raises there.) -/
def antipodeFold (l : List LTree) (red : Bool) : ForestSum :=
  match l with
  | [] => EMPTY_FOREST_SUM
  | s :: rest =>
    let out := rest.foldl (fun acc u => fsMulFS acc (antipodeT u false) false) (antipodeT s false)
    if red then reduceFS out else out

/-- Embeds `Forest.antipode`: raises (returns `none`) on an empty tree
list, special-cases the forest consisting of the single unit tree, and
otherwise multiplies the per-tree antipodes. -/
def forestAntipode (f : Forest) (red : Bool) : Option ForestSum :=
  match f with
  | [] => none
  | [t] =>
    if eqT t (some (.node [])) then some (fsNeg SINGLETON_FOREST_SUM)
    else some (antipodeFold [t] red)
  | l => some (antipodeFold l red)

/-! ### The convolution engine -/

/-- Embeds `Forest.apply`: the fold `out = _mul(out, func(t), False)` over
the tree list with initial scalar `1`, with a final reduction unless the
result is a scalar or a bare tree. -/
def applyF (f : Forest) (func : LTree → Val) (red : Bool) : Val :=
  let out := f.foldl (fun out t => valMul out (func t) false) (Val.s 1)
  if red && !(out.isScalar || out.isTreeVal) then reduceVal out else out

/-- Embeds `ForestSum.apply`: linear over terms and multiplicative over each
term's trees (`out = _add(out, _mul(term, c, False), False)`). -/
def applyFS (s : ForestSum) (func : LTree → Val) (red : Bool) : Val :=
  let out := s.foldl
    (fun out fc =>
      let term := fc.1.foldl (fun term t => valMul term (func t) false) (Val.s 1)
      valAdd out (valMul term (.s fc.2) false) false)
    (Val.s 0)
  if red && !(out.isScalar || out.isTreeVal) then reduceVal out else out

/-- Embeds `Tree.apply_product`: the convolution sum
`Σ branches[i].apply(func1) * func2(subtrees[i])` over all cut pairs of the
full coproduct (the two parallel lists of `split` are iterated by a common
index, here as their zip; `split` always returns lists of equal length).
The final reduction is skipped only for scalar results, as in the source. -/
def applyProductT (t : LTree) (func1 func2 : LTree → Val) (red : Bool) : Val :=
  match splitPairs t with
  | [] => .s 0
  | p :: ps =>
    let out := ps.foldl
      (fun out q => valAdd out (valMul (applyF q.2 func1 true) (func2 q.1) false) false)
      (valMul (applyF p.2 func1 true) (func2 p.1) false)
    if red && !out.isScalar then reduceVal out else out

/-- Embeds `Tree.apply_power`: `n = 0` returns the counit immediately,
`n = 1` returns `func(t)`, `n < 0` applies the `-n`-th power to the antipode
as a multiplicative linear map, and `n > 1` convolves `func` with the
`(n-1)`-st power. -/
def applyPowerT (func : LTree → Val) (n : ℤ) (t : LTree) (red : Bool) : Val :=
  if n = 0 then .fs (counit t)
  else if n = 1 then func t
  else
    let res :=
      if n < 0 then
        applyFS (antipodeT t true) (fun x => applyPowerT func (-n) x false) true
      else
        applyProductT t func (fun x => applyPowerT func (n - 1) x false) false
    if red && !(res.isScalar || res.isTreeVal) then reduceVal res else res
termination_by 2 * n.natAbs + (if n < 0 then 1 else 0)
decreasing_by
  · split_ifs <;> omega
  · split_ifs <;> omega

/-- Embeds `ForestSum.apply_power`: `self.apply(lambda x:
x.apply_power(func, n, apply_reduction))`, the outer `apply` using its
default (reducing) flag. -/
def fsApplyPower (s : ForestSum) (func : LTree → Val) (n : ℤ) (red : Bool) : Val :=
  applyFS s (fun x => applyPowerT func n x red) true

/-- Embeds `Forest.apply_product`.  The source evaluates
`self.apply(lambda x: x.apply_product(func1, func2, apply_reduction))` but
has no `return` statement, so the method always returns `None`. -/
def forestApplyProduct (f : Forest) (func1 func2 : LTree → Val) (red : Bool) : Option Val :=
  let _ := applyF f (fun x => applyProductT x func1 func2 red) true
  none

/-! ### Combinatorial quantities -/

mutual

/-- Modelled from the spec: the tree factorial `t!` (utils function
`_factorial`): `1` for the unit tree, otherwise `nodes(t) × Π t_i!` over the
children (the unit-tree case agrees with the uniform formula since the empty
product is `1`). -/
def PTree.factorial : PTree → ℕ
  | .node cs => (PTree.node cs).nodes * factorialL cs

def factorialL : List PTree → ℕ
  | [] => 1
  | c :: cs => PTree.factorial c * factorialL cs

end

/-- The symmetry multiplicity factor `Π mᵢ!` over the isomorphism classes of
a list of (already canonicalized) children, each class counted by its
multiplicity. -/
def multFactor (l : List PTree) : ℕ :=
  (l.dedup.map (fun d => Nat.factorial (l.count d))).prod

mutual

/-- Modelled from the spec: the symmetry factor
`σ(t) = Π mᵢ! · σ(tᵢ)^{mᵢ}` over the isomorphism classes of the children
(utils function `_sigma`).  It is computed here as
`(Π over classes of canonical children mᵢ!) × (Π over all children σ(c))`;
the two forms agree because `σ` is isomorphism-invariant
(`sigma_canon` below), so the product over all children groups into
`Π σ(tᵢ)^{mᵢ}`. -/
def PTree.sigma : PTree → ℕ
  | .node cs => multFactor (canonL cs) * sigmaL cs

def sigmaL : List PTree → ℕ
  | [] => 1
  | c :: cs => PTree.sigma c * sigmaL cs

end

/-- Embeds `Tree.beta`: `math.factorial(self.nodes()) / self.sigma()`.  The
division is modelled exactly in `ℚ` (the source uses Python float division;
the claim is about the mathematical value, which `beta_is_integer` below
shows to be an exact integer). -/
def beta (p : PTree) : ℚ := (Nat.factorial p.nodes : ℚ) / (p.sigma : ℚ)

/-- Embeds `Tree.alpha`: `self.beta() / self.factorial()`, modelled exactly
in `ℚ`. -/
def alpha (p : PTree) : ℚ := beta p / (p.factorial : ℚ)

/-! ### Hashing

Python hashes the three kinds through structurally different pre-hash data:
a `Tree` hashes its sorted nested-tuple representation, a `Forest` the
frozenset of `Counter(reduced tree list)` items, and a `ForestSum` the
frozenset of `Counter(zip(reduced forests, coefficients))` items.  The hash
functions are modelled by these (canonical) pre-hash structures, embedded in
a common sum type; CPython's final integer mixing is not modelled. -/
abbrev HashV := Sum LTree (Sum (Multiset (LTree × ℕ)) (Multiset (Multiset LTree × ℚ)))

/-- The `Counter` of a tree list: each canonical tree together with its
multiplicity (Python `Counter` keys compare by `Tree.__eq__`/`__hash__`,
i.e. by sorted representation). -/
def counterOf (l : List LTree) : Multiset (LTree × ℕ) :=
  ((l.map sortedListRepr).dedup.map
    (fun d => (d, (l.map sortedListRepr).count d)) : List (LTree × ℕ))

/-- Embeds `Tree.__hash__`: `hash(self.sorted_list_repr())`. -/
def hashTree (t : LTree) : HashV := .inl (sortedListRepr t)

/-- Embeds `Forest.__hash__`:
`hash(frozenset(Counter(self.reduce().tree_list).items()))`. -/
def hashForest (f : Forest) : HashV := .inr (.inl (counterOf (reduceF f)))

/-- Embeds `ForestSum.__hash__`:
`hash(frozenset(Counter(zip(reduced.forest_list, reduced.coeff_list)).items()))`. -/
def hashForestSum (s : ForestSum) : HashV := .inr (.inr (skey s))

/-! ### Semantics

`ForestSum` values are interpreted in the monoid algebra
`AddMonoidAlgebra ℚ (Multiset PTree)` — the free commutative ring generated
by isomorphism classes of non-void trees (a forest is, up to isomorphism and
void factors, the multiset of the canonical forms of its real trees).  The
code's `==` comparisons coincide with equality of interpretations on
well-formed values (`eqFS_of_sem` below), which turns the Hopf-algebra
identities into ring computations. -/

abbrev SemR := AddMonoidAlgebra ℚ (Multiset PTree)

/-- Interpretation key of a single tree: nothing for the void tree, the
singleton of the canonical form otherwise. -/
def keyT : LTree → Multiset PTree
  | none => 0
  | some p => {p.canon}

/-- Interpretation key of a forest: the multiset of canonical forms of its
real trees. -/
def fkeySem (f : Forest) : Multiset PTree := ((f.filterMap id).map PTree.canon : List PTree)

noncomputable def semT (t : LTree) : SemR := AddMonoidAlgebra.single (keyT t) 1

noncomputable def semF (f : Forest) : SemR := AddMonoidAlgebra.single (fkeySem f) 1

noncomputable def sem (s : ForestSum) : SemR :=
  (s.map (fun fc => AddMonoidAlgebra.single (fkeySem fc.1) fc.2)).sum

/-- Scalar embedding `ℚ →+* SemR`. -/
noncomputable def scl : ℚ →+* SemR := AddMonoidAlgebra.singleZeroRingHom

theorem scl_def (q : ℚ) : scl q = AddMonoidAlgebra.single 0 q := rfl

noncomputable def semVal : Val → SemR
  | .s q => scl q
  | .t u => semT u
  | .f g => semF g
  | .fs x => sem x

theorem fkeySem_nil : fkeySem [] = 0 := rfl

theorem fkeySem_cons (t : LTree) (f : Forest) :
    fkeySem (t :: f) = keyT t + fkeySem f := by
  cases t with
  | none => simp [fkeySem, keyT, List.filterMap_cons]
  | some p =>
    simp only [fkeySem, keyT, List.filterMap_cons, List.map_cons]
    rfl

theorem fkeySem_append (f g : Forest) : fkeySem (f ++ g) = fkeySem f + fkeySem g := by
  simp [fkeySem, List.filterMap_append]

theorem fkeySem_single (t : LTree) : fkeySem [t] = keyT t := by
  rw [show [t] = t :: ([] : Forest) from rfl, fkeySem_cons, fkeySem_nil, add_zero]

theorem filterMap_id_filter_isSome (f : Forest) :
    (f.filter Option.isSome).filterMap id = f.filterMap id := by
  induction f with
  | nil => rfl
  | cons t f ih =>
    cases t with
    | none => simpa [List.filter_cons, List.filterMap_cons] using ih
    | some p => simp [List.filter_cons, List.filterMap_cons, ih]

theorem reduceF_filterMap (f : Forest) : (reduceF f).filterMap id = f.filterMap id := by
  by_cases h1 : f.length ≤ 1
  · rw [reduceF, if_pos h1]
  · rw [reduceF, if_neg h1]
    show List.filterMap id
      (if f.filter Option.isSome = [] then [none]
       else if (f.filter Option.isSome).length = f.length then f
       else f.filter Option.isSome) = _
    split_ifs with h2 h3
    · have h4 := filterMap_id_filter_isSome f
      rw [h2] at h4
      exact h4
    · rfl
    · exact filterMap_id_filter_isSome f

theorem fkeySem_reduceF (f : Forest) : fkeySem (reduceF f) = fkeySem f := by
  simp only [fkeySem, reduceF_filterMap]

theorem sem_nil : sem [] = 0 := rfl

theorem sem_cons (fc : Forest × ℚ) (s : ForestSum) :
    sem (fc :: s) = AddMonoidAlgebra.single (fkeySem fc.1) fc.2 + sem s := by
  simp [sem]

theorem sem_append (s₁ s₂ : ForestSum) : sem (s₁ ++ s₂) = sem s₁ + sem s₂ := by
  simp [sem]

theorem sem_singleton (f : Forest) (c : ℚ) :
    sem [(f, c)] = AddMonoidAlgebra.single (fkeySem f) c := by
  simp [sem]

theorem filterMap_map_sorted (m : Forest) :
    (m.map sortedListRepr).filterMap id = (m.filterMap id).map PTree.canon := by
  induction m with
  | nil => rfl
  | cons t m ih =>
    cases t with
    | none => simpa [sortedListRepr, List.filterMap_cons] using ih
    | some p => simp [sortedListRepr, List.filterMap_cons, ih]

theorem fkeySem_eq_filterMap_fkey (f : Forest) :
    fkeySem f = Multiset.filterMap id (fkey f) := by
  rw [fkey, Multiset.filterMap_coe, filterMap_map_sorted, reduceF_filterMap, fkeySem]

theorem fkey_fkeySem {f g : Forest} (h : fkey f = fkey g) : fkeySem f = fkeySem g := by
  rw [fkeySem_eq_filterMap_fkey, fkeySem_eq_filterMap_fkey, h]

theorem sem_insertMerge (acc : ForestSum) (fr : Forest) (c : ℚ) :
    sem (insertMerge acc fr c) = sem acc + AddMonoidAlgebra.single (fkeySem fr) c := by
  induction acc with
  | nil => simp [insertMerge, sem_singleton, sem_nil]
  | cons gd rest ih =>
    obtain ⟨g, d⟩ := gd
    rw [insertMerge]
    split_ifs with h
    · have hk : fkeySem fr = fkeySem g := fkey_fkeySem (of_decide_eq_true h)
      rw [sem_cons, sem_cons]
      simp only [hk, AddMonoidAlgebra.single_add]
      ring
    · rw [sem_cons, sem_cons, ih]
      ring

theorem sem_mergeFold (s : ForestSum) (acc : ForestSum) :
    sem (s.foldl (fun acc fc => insertMerge acc (reduceF fc.1) fc.2) acc) = sem acc + sem s := by
  induction s generalizing acc with
  | nil => simp [sem_nil]
  | cons fc s ih =>
    rw [List.foldl_cons, ih, sem_insertMerge, sem_cons, fkeySem_reduceF]
    ring

theorem sem_filter_ne_zero (s : ForestSum) :
    sem (s.filter (fun fc => decide (fc.2 ≠ 0))) = sem s := by
  induction s with
  | nil => rfl
  | cons fc s ih =>
    rw [List.filter_cons]
    split_ifs with h
    · rw [sem_cons, ih, sem_cons]
    · have hzero : fc.2 = 0 := by
        by_contra hne
        exact h (by simp [hne])
      rw [ih, sem_cons, hzero]
      simp

theorem sem_reduceFS (s : ForestSum) : sem (reduceFS s) = sem s := by
  rw [reduceFS]
  split_ifs with h
  · have h1 := sem_filter_ne_zero
      (s.foldl (fun acc fc => insertMerge acc (reduceF fc.1) fc.2) [])
    rw [h] at h1
    have h2 := sem_mergeFold s []
    rw [sem_nil, zero_add] at h2
    show sem ZERO_FOREST_SUM = sem s
    rw [← h2, ← h1, sem_nil]
    simp [ZERO_FOREST_SUM, sem_singleton]
  · rw [sem_filter_ne_zero, sem_mergeFold, sem_nil, zero_add]

/-! ### Semantics of the operators -/

theorem single_mul_scl (k : Multiset PTree) (c q : ℚ) :
    AddMonoidAlgebra.single k c * scl q = AddMonoidAlgebra.single k (c * q) := by
  rw [scl_def, AddMonoidAlgebra.single_mul_single, add_zero]

theorem scl_mul_single (k : Multiset PTree) (c q : ℚ) :
    scl q * AddMonoidAlgebra.single k c = AddMonoidAlgebra.single k (q * c) := by
  rw [scl_def, AddMonoidAlgebra.single_mul_single, zero_add]

theorem semT_mul_single (t : LTree) (k : Multiset PTree) (c : ℚ) :
    semT t * AddMonoidAlgebra.single k c = AddMonoidAlgebra.single (keyT t + k) c := by
  rw [semT, AddMonoidAlgebra.single_mul_single, one_mul]

theorem semF_mul_single (f : Forest) (k : Multiset PTree) (c : ℚ) :
    semF f * AddMonoidAlgebra.single k c = AddMonoidAlgebra.single (fkeySem f + k) c := by
  rw [semF, AddMonoidAlgebra.single_mul_single, one_mul]

theorem fkeySem_treeMulForest (t : LTree) (f : Forest) (b : Bool) :
    fkeySem (treeMulForest t f b) = keyT t + fkeySem f := by
  rw [treeMulForest]
  cases b <;> simp [fkeySem_reduceF, fkeySem_cons]

theorem fkeySem_forestMulTree (f : Forest) (t : LTree) (b : Bool) :
    fkeySem (forestMulTree f t b) = fkeySem f + keyT t := by
  rw [forestMulTree]
  cases b <;> simp [fkeySem_reduceF, fkeySem_append, fkeySem_single]

theorem fkeySem_forestMulForest (f g : Forest) (b : Bool) :
    fkeySem (forestMulForest f g b) = fkeySem f + fkeySem g := by
  rw [forestMulForest]
  cases b <;> simp [fkeySem_reduceF, fkeySem_append]

theorem sem_treeMulScalar (t : LTree) (q : ℚ) (r : Bool) :
    sem (treeMulScalar t q r) = semT t * scl q := by
  rw [treeMulScalar]
  have : sem [([t], q)] = semT t * scl q := by
    rw [sem_singleton, fkeySem_single, semT, single_mul_scl, one_mul]
  cases r <;> simp [sem_reduceFS, this]

theorem sem_forestMulScalar (f : Forest) (q : ℚ) (r : Bool) :
    sem (forestMulScalar f q r) = semF f * scl q := by
  rw [forestMulScalar]
  have : sem [(f, q)] = semF f * scl q := by
    rw [sem_singleton, semF, single_mul_scl, one_mul]
  cases r <;> simp [sem_reduceFS, this]

theorem sem_fsMulScalar (s : ForestSum) (q : ℚ) (r : Bool) :
    sem (fsMulScalar s q r) = sem s * scl q := by
  rw [fsMulScalar]
  have key : sem (s.map (fun fc => (fc.1, fc.2 * q))) = sem s * scl q := by
    induction s with
    | nil => simp [sem_nil]
    | cons fc s ih =>
      rw [List.map_cons, sem_cons, sem_cons, ih, add_mul, single_mul_scl]
  cases r <;> simp [sem_reduceFS, key]

theorem sem_fsNeg (s : ForestSum) : sem (fsNeg s) = -sem s := by
  rw [fsNeg, sem_fsMulScalar]
  have : scl (-1 : ℚ) = -1 := by rw [map_neg, map_one]
  rw [this, mul_neg_one]

theorem sem_treeNeg (t : LTree) : sem (treeNeg t) = -semT t := by
  rw [treeNeg, sem_treeMulScalar]
  have : scl (-1 : ℚ) = -1 := by rw [map_neg, map_one]
  rw [this, mul_neg_one]

theorem sem_forestNeg (f : Forest) : sem (forestNeg f) = -semF f := by
  rw [forestNeg, sem_forestMulScalar]
  have : scl (-1 : ℚ) = -1 := by rw [map_neg, map_one]
  rw [this, mul_neg_one]

theorem sem_treeMulFS (t : LTree) (s : ForestSum) (r : Bool) :
    sem (treeMulFS t s r) = semT t * sem s := by
  rw [treeMulFS]
  have key : sem (s.map (fun fc => (treeMulForest t fc.1 true, fc.2))) = semT t * sem s := by
    induction s with
    | nil => simp [sem_nil]
    | cons fc s ih =>
      rw [List.map_cons, sem_cons, sem_cons, ih, mul_add, fkeySem_treeMulForest,
        semT_mul_single]
  cases r <;> simp [sem_reduceFS, key]

theorem sem_forestMulFS (f : Forest) (s : ForestSum) (r : Bool) :
    sem (forestMulFS f s r) = semF f * sem s := by
  rw [forestMulFS]
  have key : sem (s.map (fun fc => (forestMulForest f fc.1 false, fc.2))) = semF f * sem s := by
    induction s with
    | nil => simp [sem_nil]
    | cons fc s ih =>
      rw [List.map_cons, sem_cons, sem_cons, ih, mul_add, fkeySem_forestMulForest,
        semF_mul_single]
  cases r <;> simp [sem_reduceFS, key]

theorem single_mul_semT (k : Multiset PTree) (c : ℚ) (t : LTree) :
    AddMonoidAlgebra.single k c * semT t = AddMonoidAlgebra.single (k + keyT t) c := by
  rw [semT, AddMonoidAlgebra.single_mul_single, mul_one]

theorem single_mul_semF (k : Multiset PTree) (c : ℚ) (f : Forest) :
    AddMonoidAlgebra.single k c * semF f = AddMonoidAlgebra.single (k + fkeySem f) c := by
  rw [semF, AddMonoidAlgebra.single_mul_single, mul_one]

theorem sem_fsMulTree (s : ForestSum) (t : LTree) (r : Bool) :
    sem (fsMulTree s t r) = sem s * semT t := by
  rw [fsMulTree]
  have key : sem (s.map (fun fc => (forestMulTree fc.1 t true, fc.2))) = sem s * semT t := by
    induction s with
    | nil => simp [sem_nil]
    | cons fc s ih =>
      rw [List.map_cons, sem_cons, sem_cons, ih, add_mul, fkeySem_forestMulTree,
        single_mul_semT]
  cases r <;> simp [sem_reduceFS, key]

theorem sem_fsMulForest (s : ForestSum) (g : Forest) (r : Bool) :
    sem (fsMulForest s g r) = sem s * semF g := by
  rw [fsMulForest]
  have key : sem (s.map (fun fc => (forestMulForest fc.1 g true, fc.2))) = sem s * semF g := by
    induction s with
    | nil => simp [sem_nil]
    | cons fc s ih =>
      rw [List.map_cons, sem_cons, sem_cons, ih, add_mul, fkeySem_forestMulForest,
        single_mul_semF]
  cases r <;> simp [sem_reduceFS, key]

theorem sem_map_mulForest (fc : Forest × ℚ) (s₂ : ForestSum) :
    sem (s₂.map (fun gd => (forestMulForest fc.1 gd.1 true, fc.2 * gd.2)))
      = AddMonoidAlgebra.single (fkeySem fc.1) fc.2 * sem s₂ := by
  induction s₂ with
  | nil => simp [sem_nil]
  | cons gd s₂ ih =>
    rw [List.map_cons, sem_cons, sem_cons, mul_add, ih, fkeySem_forestMulForest,
      AddMonoidAlgebra.single_mul_single]

theorem sem_fsMulFS (s₁ s₂ : ForestSum) (r : Bool) :
    sem (fsMulFS s₁ s₂ r) = sem s₁ * sem s₂ := by
  rw [fsMulFS]
  have key : sem (s₁.flatMap
      (fun fc => s₂.map (fun gd => (forestMulForest fc.1 gd.1 true, fc.2 * gd.2))))
      = sem s₁ * sem s₂ := by
    induction s₁ with
    | nil => simp [sem_nil]
    | cons fc s₁ ih =>
      rw [List.flatMap_cons, sem_append, ih, sem_cons, add_mul, sem_map_mulForest]
  cases r <;> simp [sem_reduceFS, key]

theorem sem_treeAddScalar (t : LTree) (q : ℚ) (r : Bool) :
    sem (treeAddScalar t q r) = semT t + scl q := by
  rw [treeAddScalar]
  have : sem [([t], 1), ([none], q)] = semT t + scl q := by
    rw [sem_cons, sem_cons, sem_nil, add_zero, fkeySem_single, fkeySem_single]
    rfl
  cases r <;> simp [sem_reduceFS, this]

theorem sem_treeAddTree (t u : LTree) (r : Bool) :
    sem (treeAddTree t u r) = semT t + semT u := by
  rw [treeAddTree]
  have : sem [([t], 1), ([u], 1)] = semT t + semT u := by
    rw [sem_cons, sem_cons, sem_nil, add_zero, fkeySem_single, fkeySem_single]
    rfl
  cases r <;> simp [sem_reduceFS, this]

theorem sem_treeAddForest (t : LTree) (f : Forest) (r : Bool) :
    sem (treeAddForest t f r) = semT t + semF f := by
  rw [treeAddForest]
  have : sem [([t], 1), (f, 1)] = semT t + semF f := by
    rw [sem_cons, sem_cons, sem_nil, add_zero, fkeySem_single]
    rfl
  cases r <;> simp [sem_reduceFS, this]

theorem sem_treeAddFS (t : LTree) (s : ForestSum) (r : Bool) :
    sem (treeAddFS t s r) = semT t + sem s := by
  rw [treeAddFS]
  have : sem (([t], 1) :: s) = semT t + sem s := by
    rw [sem_cons, fkeySem_single]; rfl
  cases r <;> simp [sem_reduceFS, this]

theorem sem_forestAddScalar (f : Forest) (q : ℚ) (r : Bool) :
    sem (forestAddScalar f q r) = semF f + scl q := by
  rw [forestAddScalar, sem_cons, sem_cons, sem_nil, add_zero, fkeySem_single]
  rfl

theorem sem_forestAddTree (f : Forest) (t : LTree) (r : Bool) :
    sem (forestAddTree f t r) = semF f + semT t := by
  rw [forestAddTree, sem_cons, sem_cons, sem_nil, add_zero, fkeySem_single]
  rfl

theorem sem_forestAddForest (f g : Forest) (r : Bool) :
    sem (forestAddForest f g r) = semF f + semF g := by
  rw [forestAddForest, sem_cons, sem_cons, sem_nil, add_zero]
  rfl

theorem sem_forestAddFS (f : Forest) (s : ForestSum) (r : Bool) :
    sem (forestAddFS f s r) = semF f + sem s := by
  rw [forestAddFS, sem_cons]
  rfl

theorem sem_fsAddScalar (s : ForestSum) (q : ℚ) (r : Bool) :
    sem (fsAddScalar s q r) = sem s + scl q := by
  rw [fsAddScalar]
  have : sem (s ++ [([none], q)]) = sem s + scl q := by
    rw [sem_append, sem_singleton]
    rfl
  cases r <;> simp [sem_reduceFS, this]

theorem sem_fsAddTree (s : ForestSum) (t : LTree) (r : Bool) :
    sem (fsAddTree s t r) = sem s + semT t := by
  rw [fsAddTree]
  have : sem (s ++ [([t], 1)]) = sem s + semT t := by
    rw [sem_append, sem_singleton, fkeySem_single]
    rfl
  cases r <;> simp [sem_reduceFS, this]

theorem sem_fsAddForest (s : ForestSum) (g : Forest) (r : Bool) :
    sem (fsAddForest s g r) = sem s + semF g := by
  rw [fsAddForest]
  have : sem (s ++ [(g, 1)]) = sem s + semF g := by
    rw [sem_append, sem_singleton]
    rfl
  cases r <;> simp [sem_reduceFS, this]

theorem sem_fsAddFS (s₁ s₂ : ForestSum) (r : Bool) :
    sem (fsAddFS s₁ s₂ r) = sem s₁ + sem s₂ := by
  rw [fsAddFS]
  cases r <;> simp [sem_reduceFS, sem_append]

theorem sem_fsSub (s other : ForestSum) (r : Bool) :
    sem (fsSub s other r) = sem s - sem other := by
  rw [fsSub, sem_fsAddFS, sem_fsNeg, sub_eq_add_neg]

theorem sem_treeMulTree (t u : LTree) (r : Bool) :
    semF (treeMulTree t u r) = semT t * semT u := by
  rw [treeMulTree]
  have : semF [t, u] = semT t * semT u := by
    rw [semF, semT, semT, AddMonoidAlgebra.single_mul_single, one_mul,
      fkeySem_cons, fkeySem_single]
  cases r with
  | false => exact this
  | true =>
    rw [if_pos rfl, semF, fkeySem_reduceF, ← semF]
    exact this

theorem semF_treeMulForest (t : LTree) (f : Forest) (r : Bool) :
    semF (treeMulForest t f r) = semT t * semF f := by
  rw [semF, fkeySem_treeMulForest, semT, semF, AddMonoidAlgebra.single_mul_single, one_mul]

theorem semF_forestMulTree (f : Forest) (t : LTree) (r : Bool) :
    semF (forestMulTree f t r) = semF f * semT t := by
  rw [semF, fkeySem_forestMulTree, semT, semF, AddMonoidAlgebra.single_mul_single, one_mul]

theorem semF_forestMulForest (f g : Forest) (r : Bool) :
    semF (forestMulForest f g r) = semF f * semF g := by
  rw [semF, fkeySem_forestMulForest, semF, semF, AddMonoidAlgebra.single_mul_single, one_mul]

/-- The interpretation is multiplicative across `_mul` on every pair of
operand kinds. -/
theorem semVal_valMul (a b : Val) (r : Bool) :
    semVal (valMul a b r) = semVal a * semVal b := by
  cases a <;> cases b <;>
    simp only [valMul, semVal, map_mul, sem_treeMulScalar, sem_forestMulScalar,
      sem_fsMulScalar, sem_treeMulTree, semF_treeMulForest, sem_treeMulFS,
      semF_forestMulTree, semF_forestMulForest, sem_forestMulFS, sem_fsMulTree,
      sem_fsMulForest, sem_fsMulFS] <;>
    first
      | rfl
      | rw [mul_comm]

/-- The interpretation is additive across `_add` on every pair of operand
kinds. -/
theorem semVal_valAdd (a b : Val) (r : Bool) :
    semVal (valAdd a b r) = semVal a + semVal b := by
  cases a <;> cases b <;>
    simp only [valAdd, semVal, map_add, sem_treeAddScalar, sem_forestAddScalar,
      sem_fsAddScalar, sem_treeAddTree, sem_treeAddForest, sem_treeAddFS,
      sem_forestAddTree, sem_forestAddForest, sem_forestAddFS, sem_fsAddTree,
      sem_fsAddForest, sem_fsAddFS] <;>
    first
      | rfl
      | rw [add_comm]

theorem semVal_reduceVal (v : Val) : semVal (reduceVal v) = semVal v := by
  cases v <;> simp [reduceVal, semVal, sem_reduceFS, semF, fkeySem_reduceF]

/-! ### Semantics of the apply engine -/

theorem semVal_mulFold (l : List LTree) (func : LTree → Val) (init : Val) :
    semVal (l.foldl (fun out t => valMul out (func t) false) init)
      = semVal init * (l.map (fun t => semVal (func t))).prod := by
  induction l generalizing init with
  | nil => simp
  | cons t l ih =>
    rw [List.foldl_cons, ih, semVal_valMul, List.map_cons, List.prod_cons, mul_assoc]

theorem semVal_applyF (f : Forest) (func : LTree → Val) (r : Bool) :
    semVal (applyF f func r) = (f.map (fun t => semVal (func t))).prod := by
  rw [applyF]
  have key := semVal_mulFold f func (Val.s 1)
  have h1 : semVal (Val.s 1) = 1 := by simp [semVal, map_one]
  rw [h1, one_mul] at key
  split_ifs with h
  · rw [semVal_reduceVal, key]
  · exact key

theorem semVal_applyFS (s : ForestSum) (func : LTree → Val) (r : Bool) :
    semVal (applyFS s func r)
      = (s.map (fun fc => (fc.1.map (fun t => semVal (func t))).prod * scl fc.2)).sum := by
  rw [applyFS]
  have key : ∀ init : Val, semVal (s.foldl
      (fun out fc =>
        let term := fc.1.foldl (fun term t => valMul term (func t) false) (Val.s 1)
        valAdd out (valMul term (.s fc.2) false) false)
      init)
      = semVal init
        + (s.map (fun fc => (fc.1.map (fun t => semVal (func t))).prod * scl fc.2)).sum := by
    induction s with
    | nil => intro init; simp
    | cons fc s ih =>
      intro init
      rw [List.foldl_cons, ih, semVal_valAdd, semVal_valMul, semVal_mulFold]
      have h1 : semVal (Val.s 1) = 1 := by simp [semVal, map_one]
      have h2 : semVal (Val.s fc.2) = scl fc.2 := rfl
      rw [h1, one_mul, h2, List.map_cons, List.sum_cons]
      ring
  have h0 : semVal (Val.s 0) = 0 := by simp [semVal, map_zero]
  split_ifs with h
  · rw [semVal_reduceVal, key (Val.s 0), h0, zero_add]
  · rw [key (Val.s 0), h0, zero_add]

theorem semVal_addFold {β : Type} (l : List β) (g : β → Val) (init : Val) :
    semVal (l.foldl (fun out q => valAdd out (g q) false) init)
      = semVal init + (l.map (fun q => semVal (g q))).sum := by
  induction l generalizing init with
  | nil => simp
  | cons q l ih =>
    rw [List.foldl_cons, ih, semVal_valAdd, List.map_cons, List.sum_cons, add_assoc]

/-- The convolution sum computed by `Tree.apply_product`: the product of
`func1` over each removed forest times `func2` of the kept subtree, summed
over all cut pairs. -/
theorem semVal_applyProductT (t : LTree) (func1 func2 : LTree → Val) (r : Bool) :
    semVal (applyProductT t func1 func2 r)
      = ((splitPairs t).map
          (fun p => (p.2.map (fun s => semVal (func1 s))).prod * semVal (func2 p.1))).sum := by
  cases hsp : splitPairs t with
  | nil => simp [applyProductT, hsp, semVal, scl, map_zero]
  | cons p ps =>
    have key := semVal_addFold ps
      (fun q => valMul (applyF q.2 func1 true) (func2 q.1) false)
      (valMul (applyF p.2 func1 true) (func2 p.1) false)
    have hterm : ∀ q : LTree × Forest,
        semVal (valMul (applyF q.2 func1 true) (func2 q.1) false)
          = (q.2.map (fun s => semVal (func1 s))).prod * semVal (func2 q.1) := by
      intro q
      rw [semVal_valMul, semVal_applyF]
    simp only [hterm] at key
    simp only [applyProductT, hsp]
    rw [List.map_cons, List.sum_cons]
    split_ifs with h
    · rw [semVal_reduceVal, key]
    · rw [key]

/-! ### Semantics of the antipode -/

/-- Interpretation of the (reduced) antipode. -/
noncomputable def semS (t : LTree) : SemR := sem (antipodeT t true)

theorem foldl_ext_attach {α β : Type} (l : List α) (F : β → {x // x ∈ l} → β)
    (G : β → α → β) (h : ∀ acc (x : {x // x ∈ l}), F acc x = G acc x.1) (init : β) :
    l.attach.foldl F init = l.foldl G init := by
  calc l.attach.foldl F init
      = l.attach.foldl (fun acc t => G acc t.1) init :=
        List.foldl_ext _ _ _ (fun a x _ => h a x)
    _ = l.foldl G init := List.foldl_attach l G init

/-- The attach-free form of the antipode recursion on a tree with at least
two nodes: the loop over the cut pairs, skipping the pairs whose kept part
equals the tree or the void tree, subtracting
`Forest.antipode(branch) * kept` at every other pair. -/
theorem antipodeT_node (c : PTree) (cs : List PTree) (red : Bool) :
    antipodeT (some (.node (c :: cs))) red
      = (let out := (splitPairs (some (.node (c :: cs)))).foldl
          (fun out p =>
            if (eqT p.1 (some (.node (c :: cs))) || eqT p.1 none) then out
            else fsSub out (fsMulTree (antipodeFold p.2 false) p.1 false) false)
          (fsNeg (asForestSum (some (.node (c :: cs)))));
        if red then reduceFS out else out) := by
  rw [antipodeT]
  have key := foldl_ext_attach (splitPairs (some (.node (c :: cs))))
    (fun out p =>
      if h : (eqT p.1.1 (some (.node (c :: cs))) || eqT p.1.1 none) = true then out
      else
        fsSub out
          (fsMulTree
            (match hr : p.1.2 with
             | [] => EMPTY_FOREST_SUM
             | s :: rest =>
               rest.attach.foldl
                 (fun acc u => fsMulFS acc (antipodeT u.1 false) false)
                 (antipodeT s false))
            p.1.1 false)
          false)
    (fun out p =>
      if (eqT p.1 (some (.node (c :: cs))) || eqT p.1 none) then out
      else fsSub out (fsMulTree (antipodeFold p.2 false) p.1 false) false)
    (fun acc x => by
      dsimp only
      by_cases hc : (eqT x.1.1 (some (.node (c :: cs))) || eqT x.1.1 none) = true
      · rw [dif_pos hc, if_pos hc]
      · rw [dif_neg hc, if_neg hc]
        congr 2
        obtain ⟨⟨k, r⟩, hmem⟩ := x
        cases r with
        | nil => rfl
        | cons s rest =>
          show rest.attach.foldl (fun acc u => fsMulFS acc (antipodeT u.1 false) false)
              (antipodeT s false) = antipodeFold (s :: rest) false
          rw [antipodeFold]
          exact List.foldl_attach rest
            (fun acc u => fsMulFS acc (antipodeT u false) false) (antipodeT s false))
    (fsNeg (asForestSum (some (.node (c :: cs)))))
  rw [key]

theorem sem_mulFSFold (l : List LTree) (init : ForestSum) :
    sem (l.foldl (fun acc u => fsMulFS acc (antipodeT u false) false) init)
      = sem init * (l.map (fun u => sem (antipodeT u false))).prod := by
  induction l generalizing init with
  | nil => simp
  | cons u l ih =>
    rw [List.foldl_cons, ih, sem_fsMulFS, List.map_cons, List.prod_cons, mul_assoc]

theorem antipodeT_none (red : Bool) : antipodeT none red = EMPTY_FOREST_SUM := by
  rw [antipodeT]

theorem antipodeT_dot (red : Bool) :
    antipodeT (some (.node [])) red = fsMulScalar SINGLETON_FOREST_SUM (-1) false := by
  rw [antipodeT]

theorem sem_antipodeT_red (t : LTree) (red : Bool) :
    sem (antipodeT t red) = semS t := by
  rw [semS]
  match t with
  | none => rw [antipodeT_none, antipodeT_none]
  | some (.node []) => rw [antipodeT_dot, antipodeT_dot]
  | some (.node (c :: cs)) =>
    rw [antipodeT_node, antipodeT_node]
    cases red <;> simp [sem_reduceFS]

theorem sem_antipodeFold (l : List LTree) (red : Bool) :
    sem (antipodeFold l red) = (l.map semS).prod := by
  cases l with
  | nil =>
    show sem EMPTY_FOREST_SUM = 1
    rw [EMPTY_FOREST_SUM, sem_singleton]
    rfl
  | cons s rest =>
    rw [antipodeFold]
    have key : sem (rest.foldl (fun acc u => fsMulFS acc (antipodeT u false) false)
        (antipodeT s false)) = ((s :: rest).map semS).prod := by
      rw [sem_mulFSFold, sem_antipodeT_red, List.map_cons, List.prod_cons]
      congr 1
      exact congrArg List.prod (List.map_congr_left (fun u _ => sem_antipodeT_red u false))
    cases red <;> simp [sem_reduceFS, key]

theorem sem_skipFold (l : List (LTree × Forest)) (cond : LTree × Forest → Bool)
    (term : LTree × Forest → ForestSum) (init : ForestSum) :
    sem (l.foldl (fun out p => if cond p then out else fsSub out (term p) false) init)
      = sem init - ((l.filter (fun p => !cond p)).map (fun p => sem (term p))).sum := by
  induction l generalizing init with
  | nil => simp
  | cons p l ih =>
    rw [List.foldl_cons, List.filter_cons]
    by_cases hc : cond p = true
    · rw [if_pos hc, ih]
      simp [hc]
    · rw [if_neg hc, ih, sem_fsSub]
      have : (!cond p) = true := by simp [hc]
      rw [if_pos this, List.map_cons, List.sum_cons]
      ring

theorem sem_asForestSum (t : LTree) : sem (asForestSum t) = semT t := by
  rw [asForestSum, sem_singleton, fkeySem_single, semT]

/-- The antipode recursion at the level of the interpretation: for a tree
with at least two nodes,
`S(t) = -t - Σ S(branches) · kept` over the non-excluded cut pairs. -/
theorem semS_node (c : PTree) (cs : List PTree) :
    semS (some (.node (c :: cs)))
      = -(semT (some (.node (c :: cs))))
        - (((splitPairs (some (.node (c :: cs)))).filter
            (fun p => !(eqT p.1 (some (.node (c :: cs))) || eqT p.1 none))).map
            (fun p => (p.2.map semS).prod * semT p.1)).sum := by
  rw [semS, antipodeT_node]
  show sem (reduceFS _) = _
  rw [sem_reduceFS, sem_skipFold]
  have h1 : sem (fsNeg (asForestSum (some (.node (c :: cs)))))
      = -(semT (some (.node (c :: cs)))) := by
    rw [sem_fsNeg, sem_asForestSum]
  rw [h1]
  congr 2
  apply List.map_congr_left
  intro p _
  rw [sem_fsMulTree, sem_antipodeFold]

/-! ### Structure of the coproduct -/

/-- Total node count of a forest. -/
def nodesForest (r : Forest) : ℕ := (r.map treeNodes).sum

/-- The grafting operator `B₊`: the tree whose children are the non-void
members of the list (the rebuild step of `split`). -/
def bplus (ks : List LTree) : LTree := some (.node (ks.filterMap id))

theorem nodesL_filterMap (ks : List LTree) :
    nodesL (ks.filterMap id) = (ks.map treeNodes).sum := by
  induction ks with
  | nil => rfl
  | cons k ks ih =>
    cases k with
    | none => simpa [List.filterMap_cons, treeNodes] using ih
    | some p => simp [List.filterMap_cons, nodesL, treeNodes, ih]

theorem treeNodes_bplus (ks : List LTree) :
    treeNodes (bplus ks) = 1 + (ks.map treeNodes).sum := by
  rw [bplus, treeNodes, PTree.nodes, nodesL_filterMap]

theorem treeNodes_sortedListRepr (t : LTree) : treeNodes (sortedListRepr t) = treeNodes t := by
  cases t with
  | none => rfl
  | some p => simpa [sortedListRepr, treeNodes] using canon_nodes p

theorem eqT_nodes {t u : LTree} (h : eqT t u = true) : treeNodes t = treeNodes u := by
  have h2 : sortedListRepr t = sortedListRepr u := of_decide_eq_true h
  rw [← treeNodes_sortedListRepr t, ← treeNodes_sortedListRepr u, h2]

theorem eqT_none_iff {t : LTree} : eqT t none = true ↔ t = none := by
  cases t with
  | none => simp [eqT]
  | some p => simp [eqT, sortedListRepr]

theorem zip_flatMap_blocks {α β : Type} (P : List (List α)) (Q : List (List β))
    (hPQ : P.length = Q.length) :
    ∀ (a : List α) (b : List β), a.length = b.length →
    (a.flatMap (fun x => P.map (x :: ·))).zip (b.flatMap (fun y => Q.map (y :: ·)))
      = (a.zip b).flatMap (fun xy => (P.zip Q).map (fun cd => (xy.1 :: cd.1, xy.2 :: cd.2)))
  | [], [] => by intro _; rfl
  | [], _ :: _ => by intro h; cases h
  | _ :: _, [] => by intro h; cases h
  | x :: a, y :: b => by
    intro hab
    rw [List.flatMap_cons, List.flatMap_cons, List.zip_cons_cons, List.flatMap_cons]
    rw [List.zip_append (by rw [List.length_map, List.length_map, hPQ])]
    rw [List.zip_map, zip_flatMap_blocks P Q hPQ a b (by simpa using hab)]
    rfl

theorem zip_pyProduct {α β : Type} :
    ∀ (as : List (List α)) (bs : List (List β)),
    List.Forall₂ (fun a b => a.length = b.length) as bs →
    (pyProduct as).zip (pyProduct bs)
      = (pyProduct (List.zipWith List.zip as bs)).map
          (fun c => (c.map Prod.fst, c.map Prod.snd)) := by
  intro as bs h
  induction h with
  | nil => rfl
  | @cons a b as bs hab hrest ih =>
    have hlen : (pyProduct as).length = (pyProduct bs).length := by
      rw [length_pyProduct, length_pyProduct]
      clear ih
      induction hrest with
      | nil => rfl
      | cons h _ ih2 => simp [h, ih2]
    rw [List.zipWith_cons_cons, pyProduct, pyProduct, pyProduct,
      zip_flatMap_blocks _ _ hlen a b hab, ih]
    rw [List.map_flatMap]
    congr 1
    funext xy
    rw [List.map_map, List.map_map]
    rfl

theorem forall₂_map_same {α β γ : Type} (l : List α) (f : α → β) (g : α → γ)
    (R : β → γ → Prop)
    (h : ∀ x ∈ l, R (f x) (g x)) : List.Forall₂ R (l.map f) (l.map g) := by
  induction l with
  | nil => exact List.Forall₂.nil
  | cons x l ih =>
    exact List.Forall₂.cons (h x (List.mem_cons_self _ _))
      (ih (fun y hy => h y (List.mem_cons_of_mem _ hy)))

/-- The number of cut pairs: one more than the product of the per-child pair
counts (kept-side lists). -/
theorem split_fst_length (cs : List PTree) :
    (PTree.split (.node cs)).1.length
      = 1 + (cs.map (fun c => (PTree.split c).1.length)).prod := by
  cases cs with
  | nil => rfl
  | cons c cs =>
    rw [PTree.split]
    simp only [List.length_cons, List.length_map]
    rw [length_pyProduct, splitChildren_fst, List.map_map]
    rw [Nat.add_comm 1]
    rfl

theorem split_snd_length (cs : List PTree) :
    (PTree.split (.node cs)).2.length
      = 1 + (cs.map (fun c => (PTree.split c).2.length)).prod := by
  cases cs with
  | nil => rfl
  | cons c cs =>
    rw [PTree.split]
    simp only [List.length_cons, List.length_map]
    rw [length_pyProduct, splitChildren_snd, List.map_map]
    rw [Nat.add_comm 1]
    rfl

/-- The two lists returned by `split` always have equal length. -/
theorem split_len_eq : ∀ p : PTree, (PTree.split p).1.length = (PTree.split p).2.length := by
  intro p
  induction p using PTree.ind with
  | h cs ih =>
    rw [split_fst_length, split_snd_length]
    congr 1
    exact congrArg List.prod (List.map_congr_left (fun c hc => ih c hc))

/-- Structural form of the cut-pair list of a tree with at least two nodes:
the full-cut pair followed by the per-child Cartesian combinations, each
combination keeping the graft of its kept parts and removing the
concatenation of its removed parts. -/
theorem splitPairs_node (c0 : PTree) (cs : List PTree) :
    splitPairs (some (.node (c0 :: cs)))
      = (none, [some (.node (c0 :: cs))]) ::
        (pyProduct ((c0 :: cs).map (fun d => splitPairs (some d)))).map
          (fun combo => (bplus (combo.map Prod.fst), (combo.map Prod.snd).flatten)) := by
  rw [splitPairs, treeSplit, PTree.split]
  rw [List.zip_cons_cons]
  congr 1
  rw [splitChildren_fst, splitChildren_snd]
  have hf : List.Forall₂ (fun (a : List LTree) (b : List Forest) => a.length = b.length)
      ((c0 :: cs).map (fun c => (PTree.split c).1))
      ((c0 :: cs).map (fun c => (PTree.split c).2)) :=
    forall₂_map_same (c0 :: cs) (fun c => (PTree.split c).1) (fun c => (PTree.split c).2)
      (fun a b => a.length = b.length) (fun d _ => split_len_eq d)
  rw [List.zip_map, zip_pyProduct _ _ hf]
  rw [List.map_map]
  have hzw : List.zipWith List.zip ((c0 :: cs).map (fun c => (PTree.split c).1))
      ((c0 :: cs).map (fun c => (PTree.split c).2))
      = (c0 :: cs).map (fun d => splitPairs (some d)) := by
    rw [List.zipWith_map, List.zipWith_same]
    rfl
  rw [hzw]
  apply List.map_congr_left
  intro combo _
  rfl

theorem nodesForest_append (a b : Forest) :
    nodesForest (a ++ b) = nodesForest a + nodesForest b := by
  simp [nodesForest]

theorem nodesForest_single (t : LTree) : nodesForest [t] = treeNodes t := by
  simp [nodesForest]

/-- Conservation of nodes across a cut: the kept part and the removed
forest together carry exactly the nodes of the tree. -/
theorem splitPairs_conserve :
    ∀ (t : LTree), ∀ p ∈ splitPairs t, treeNodes p.1 + nodesForest p.2 = treeNodes t := by
  have main : ∀ q : PTree, ∀ p ∈ splitPairs (some q),
      treeNodes p.1 + nodesForest p.2 = q.nodes := by
    intro q
    induction q using PTree.ind with
    | h cs ih =>
      intro p hp
      cases cs with
      | nil =>
        replace hp : p ∈
            [((some (PTree.node []) : LTree), ([none] : Forest)),
              (none, [some (PTree.node [])])] := hp
        rcases List.mem_cons.mp hp with h | h
        · rw [h]; simp [treeNodes, PTree.nodes, nodesL, nodesForest]
        · rcases List.mem_singleton.mp h with h2
          rw [h2]; simp [treeNodes, PTree.nodes, nodesL, nodesForest]
      | cons c0 cs' =>
        rw [splitPairs_node] at hp
        rcases List.mem_cons.mp hp with h | h
        · rw [h]
          simp [treeNodes, nodesForest, nodesForest_single]
        · obtain ⟨combo, hcombo, hF⟩ := List.mem_map.mp h
          have hff := mem_pyProduct.mp hcombo
          rw [List.forall₂_map_right_iff] at hff
          have key : ∀ (cb : List (LTree × Forest)) (ds : List PTree),
              List.Forall₂ (fun pr d => pr ∈ splitPairs (some d)) cb ds →
              (∀ d ∈ ds, ∀ pr ∈ splitPairs (some d),
                treeNodes pr.1 + nodesForest pr.2 = d.nodes) →
              ((cb.map Prod.fst).map treeNodes).sum
                + nodesForest ((cb.map Prod.snd).flatten) = nodesL ds := by
            intro cb ds hf hds
            induction hf with
            | nil => simp [nodesForest, nodesL]
            | @cons pr d cb' ds' hmem _ ih2 =>
              simp only [List.map_cons, List.flatten, List.sum_cons, nodesL]
              rw [nodesForest_append]
              have h1 := hds d (List.mem_cons_self _ _) pr hmem
              have h2 := ih2 (fun d' hd' => hds d' (List.mem_cons_of_mem _ hd'))
              omega
          have hds : ∀ d ∈ c0 :: cs', ∀ pr ∈ splitPairs (some d),
              treeNodes pr.1 + nodesForest pr.2 = d.nodes :=
            fun d hd pr hpr => ih d hd pr hpr
          have hsum := key combo (c0 :: cs') hff hds
          rw [← hF]
          simp only [treeNodes_bplus, nodesForest]
          rw [show ((combo.map Prod.snd).flatten.map treeNodes).sum
              = nodesForest ((combo.map Prod.snd).flatten) from rfl]
          rw [show ((combo.map Prod.fst).map treeNodes).sum
              = ((combo.map Prod.fst).map treeNodes).sum from rfl] at hsum
          have hB : (PTree.node (c0 :: cs')).nodes = 1 + nodesL (c0 :: cs') := rfl
          rw [List.map_map] at hsum ⊢
          omega
  intro t p hp
  cases t with
  | none =>
    replace hp : p ∈ [((none : LTree), ([none] : Forest))] := hp
    rcases List.mem_singleton.mp hp with rfl
    simp [treeNodes, nodesForest]
  | some q => exact main q p hp

theorem flatMap_filter_zero {P : Type} (Z : P → Bool) (rest : List P)
    (hrest : rest.filter Z = []) (M : List (List P)) :
    ((rest.flatMap (fun x => M.map (x :: ·))).filter (fun c => c.all Z)) = [] := by
  rw [List.filter_eq_nil_iff]
  intro c hc
  obtain ⟨x, hx, hc2⟩ := List.mem_flatMap.mp hc
  obtain ⟨c', _, rfl⟩ := List.mem_map.mp hc2
  have hxz : ¬ Z x = true := List.filter_eq_nil_iff.mp hrest x hx
  simp [List.all_cons, hxz]

theorem flatMap_filter_single {P : Type} (Z : P → Bool) (l : List P) (z : P)
    (hl : l.filter Z = [z]) (M : List (List P)) (zs : List P)
    (hM : M.filter (fun c => c.all Z) = [zs]) :
    (l.flatMap (fun x => M.map (x :: ·))).filter (fun c => c.all Z) = [z :: zs] := by
  induction l with
  | nil => simp at hl
  | cons x rest ih =>
    rw [List.flatMap_cons, List.filter_append]
    rw [List.filter_cons] at hl
    by_cases hz : Z x = true
    · rw [if_pos hz] at hl
      have hx : x = z := by injection hl
      have hrest : rest.filter Z = [] := by injection hl
      rw [flatMap_filter_zero Z rest hrest M, List.append_nil]
      rw [List.filter_map]
      have hcong : ((fun c => c.all Z) ∘ (fun c => x :: c)) = fun c => c.all Z := by
        funext c
        simp [List.all_cons, hz]
      rw [hcong, hM, hx]
      rfl
    · rw [if_neg hz] at hl
      have hblock : ((M.map (x :: ·)).filter (fun c => c.all Z)) = [] := by
        rw [List.filter_eq_nil_iff]
        intro c hc
        obtain ⟨c', _, rfl⟩ := List.mem_map.mp hc
        simp [List.all_cons, hz]
      rw [hblock, List.nil_append]
      exact ih hl

theorem pyProduct_filter_unique {P : Type} (Z : P → Bool) :
    ∀ ls : List (List P), (∀ l ∈ ls, ∃ z, l.filter Z = [z]) →
    ∃ zs, List.Forall₂ (fun z l => l.filter Z = [z]) zs ls
      ∧ (pyProduct ls).filter (fun c => c.all Z) = [zs] := by
  intro ls
  induction ls with
  | nil =>
    intro _
    exact ⟨[], List.Forall₂.nil, rfl⟩
  | cons l ls ih =>
    intro h
    obtain ⟨z, hz⟩ := h l (List.mem_cons_self _ _)
    obtain ⟨zs, hf, hzs⟩ := ih (fun l' hl' => h l' (List.mem_cons_of_mem _ hl'))
    exact ⟨z :: zs, List.Forall₂.cons hz hf,
      flatMap_filter_single Z l z hz (pyProduct ls) zs hzs⟩

theorem nodesForest_flatten (rs : List Forest) :
    nodesForest rs.flatten = (rs.map nodesForest).sum := by
  induction rs with
  | nil => rfl
  | cons r rs ih => simp [List.flatten, nodesForest_append, ih]

theorem filterMap_id_map_some (l : List PTree) :
    (l.map (fun p => (some p : LTree))).filterMap id = l := by
  induction l with
  | nil => rfl
  | cons p l ih => simp [List.filterMap_cons, ih]

/-- Among the admissible cuts of a nonvoid tree there is exactly one whose
removed part carries no nodes, and its kept part is the full tree. -/
theorem splitPairs_zero :
    ∀ q : PTree, ∃ r₀ : Forest,
      (splitPairs (some q)).filter (fun p => decide (nodesForest p.2 = 0))
        = [(some q, r₀)] ∧ nodesForest r₀ = 0 := by
  intro q
  induction q using PTree.ind with
  | h cs ih =>
    cases cs with
    | nil => exact ⟨[none], by decide, by decide⟩
    | cons c0 cs' =>
      rw [splitPairs_node]
      rw [List.filter_cons]
      have hhd : ¬ (decide (nodesForest [some (PTree.node (c0 :: cs'))] = 0) = true) := by
        have := PTree.nodes_pos (PTree.node (c0 :: cs'))
        simp [nodesForest, treeNodes]
        omega
      rw [if_neg hhd]
      have hls : ∀ l ∈ (c0 :: cs').map (fun d => splitPairs (some d)),
          ∃ z, l.filter (fun pr => decide (nodesForest pr.2 = 0)) = [z] := by
        intro l hl
        obtain ⟨d, hd, rfl⟩ := List.mem_map.mp hl
        obtain ⟨r, hr, _⟩ := ih d hd
        exact ⟨(some d, r), hr⟩
      obtain ⟨zs, hfa, hzs⟩ :=
        pyProduct_filter_unique (fun pr => decide (nodesForest pr.2 = 0))
          ((c0 :: cs').map (fun d => splitPairs (some d))) hls
      rw [List.forall₂_map_right_iff] at hfa
      have hkey : ∀ (zl : List (LTree × Forest)) (ds : List PTree),
          List.Forall₂ (fun z d =>
            (splitPairs (some d)).filter (fun pr => decide (nodesForest pr.2 = 0)) = [z])
            zl ds →
          (∀ d ∈ ds, ∃ r, (splitPairs (some d)).filter
              (fun pr => decide (nodesForest pr.2 = 0)) = [(some d, r)]
            ∧ nodesForest r = 0) →
          zl.map Prod.fst = ds.map (fun d => (some d : LTree))
            ∧ nodesForest ((zl.map Prod.snd).flatten) = 0 := by
        intro zl ds hf
        induction hf with
        | nil => exact fun _ => ⟨rfl, rfl⟩
        | @cons z d zl' ds' hzd _ ih2 =>
          intro hds
          obtain ⟨r, hr, hr0⟩ := hds d (List.mem_cons_self _ _)
          have hz : z = (some d, r) := by
            rw [hzd] at hr
            injection hr
          obtain ⟨ha, hb⟩ := ih2 (fun d' hd' => hds d' (List.mem_cons_of_mem _ hd'))
          subst hz
          constructor
          · simp [ha]
          · simp only [List.map_cons, List.flatten, nodesForest_append]
            omega
      obtain ⟨hfst, hsnd⟩ := hkey zs (c0 :: cs') hfa (fun d hd => ih d hd)
      refine ⟨(zs.map Prod.snd).flatten, ?_, hsnd⟩
      rw [List.filter_map]
      have hcong : (pyProduct ((c0 :: cs').map (fun d => splitPairs (some d)))).filter
            ((fun p => decide (nodesForest p.2 = 0)) ∘
              (fun combo => (bplus (combo.map Prod.fst), (combo.map Prod.snd).flatten)))
          = (pyProduct ((c0 :: cs').map (fun d => splitPairs (some d)))).filter
            (fun combo => combo.all (fun pr => decide (nodesForest pr.2 = 0))) := by
        apply List.filter_congr
        intro combo _
        simp only [Function.comp]
        rw [nodesForest_flatten]
        simp only [List.map_map]
        rw [show (List.map (nodesForest ∘ Prod.snd) combo)
            = combo.map (fun pr => nodesForest pr.2) from rfl]
        have hiff : ((combo.map (fun pr => nodesForest pr.2)).sum = 0)
            ↔ (combo.all (fun pr => decide (nodesForest pr.2 = 0)) = true) := by
          rw [List.sum_eq_zero_iff, List.all_eq_true]
          constructor
          · intro h pr hpr; exact decide_eq_true (h _ (List.mem_map_of_mem _ hpr))
          · intro h n hn
            obtain ⟨pr, hpr, hn2⟩ := List.mem_map.mp hn
            rw [← hn2]
            exact of_decide_eq_true (h pr hpr)
        rcases hb : combo.all (fun pr => decide (nodesForest pr.2 = 0)) with _ | _
        · rw [decide_eq_false]
          intro hc
          rw [hiff, hb] at hc
          exact Bool.false_ne_true hc
        · exact decide_eq_true (hiff.mpr hb)
      rw [hcong, hzs]
      simp only [List.map_cons, List.map_nil]
      rw [hfst, bplus, filterMap_id_map_some]

theorem eqT_refl (t : LTree) : eqT t t = true := decide_eq_true rfl

theorem semT_none : semT none = 1 := by
  rw [semT]
  rfl

theorem semS_none : semS none = 1 := by
  rw [semS, antipodeT_none, EMPTY_FOREST_SUM, sem_singleton]
  rfl

theorem semS_dot : semS (some (.node [])) = -semT (some (.node [])) := by
  rw [semS, antipodeT_dot, sem_fsMulScalar, SINGLETON_FOREST_SUM, sem_singleton,
    fkeySem_single]
  rw [show ((-1 : ℚ)) = -1 from rfl, map_neg, map_one]
  rw [semT]
  ring

theorem treeNodes_eq_zero {t : LTree} : treeNodes t = 0 ↔ t = none := by
  cases t with
  | none => simp [treeNodes]
  | some p =>
    have := PTree.nodes_pos p
    simp [treeNodes]
    omega

theorem prod_semS_of_zero {r : Forest} (h : nodesForest r = 0) :
    (r.map semS).prod = 1 := by
  apply List.prod_eq_one
  intro x hx
  obtain ⟨s, hs, rfl⟩ := List.mem_map.mp hx
  have hz : treeNodes s = 0 := by
    have := List.single_le_sum (fun n _ => Nat.zero_le n) (treeNodes s)
      (List.mem_map_of_mem treeNodes hs)
    rw [show (r.map treeNodes).sum = nodesForest r from rfl] at this
    omega
  rw [treeNodes_eq_zero.mp hz, semS_none]

theorem sum_filter_split {α M : Type} [AddCommMonoid M] (l : List α) (p : α → Bool)
    (f : α → M) :
    (l.map f).sum = ((l.filter p).map f).sum + ((l.filter (fun a => !p a)).map f).sum := by
  induction l with
  | nil => simp
  | cons x l ih =>
    rw [List.map_cons, List.sum_cons, List.filter_cons, List.filter_cons]
    by_cases hx : p x = true
    · rw [if_pos hx, if_neg (by simp [hx]), List.map_cons, List.sum_cons, ih]
      abel
    · rw [if_neg hx, if_pos (by simp [hx]), List.map_cons, List.sum_cons, ih]
      abel

/-- The convolution of two interpretations against the coproduct given by the
admissible cuts: `Σ_cuts Π f(removed) · g(kept)`. -/
noncomputable def conv (f g : LTree → SemR) (t : LTree) : SemR :=
  ((splitPairs t).map (fun p => (p.2.map f).prod * g p.1)).sum

/-- The interpretation of the counit: `1` on the void tree, `0` otherwise. -/
noncomputable def epsT (t : LTree) : SemR := if treeNodes t = 0 then 1 else 0

/-- One Hopf-algebra axiom for the code's antipode: convolving `S` with the
identity against the cut coproduct gives the counit. -/
theorem conv_semS_semT : ∀ t : LTree, conv semS semT t = epsT t := by
  intro t
  match t with
  | none =>
    rw [conv, show splitPairs none = [(none, [none])] from rfl]
    simp [semS_none, semT_none, epsT, treeNodes]
  | some (.node []) =>
    rw [conv, show splitPairs (some (.node []))
      = [(some (.node []), [none]), (none, [some (.node [])])] from rfl]
    have h1 : treeNodes (some (PTree.node [])) = 1 := rfl
    simp [semS_none, semT_none, semS_dot, epsT, h1]
  | some (.node (c :: cs)) =>
    rw [conv]
    rw [sum_filter_split (splitPairs (some (.node (c :: cs))))
      (fun p => eqT p.1 (some (.node (c :: cs))) || eqT p.1 none)
      (fun p => (p.2.map semS).prod * semT p.1)]
    have hrest : (((splitPairs (some (.node (c :: cs)))).filter
        (fun p => !(eqT p.1 (some (.node (c :: cs))) || eqT p.1 none))).map
        (fun p => (p.2.map semS).prod * semT p.1)).sum
        = -semT (some (.node (c :: cs))) - semS (some (.node (c :: cs))) := by
      have := semS_node c cs
      rw [show (fun p : LTree × Forest =>
        !(eqT p.1 (some (.node (c :: cs))) || eqT p.1 none))
        = (fun p : LTree × Forest =>
          !(eqT p.1 (some (PTree.node (c :: cs))) || eqT p.1 none)) from rfl]
      linear_combination this
    rw [hrest]
    obtain ⟨r₀, hz, hz0⟩ := splitPairs_zero (PTree.node (c :: cs))
    rw [splitPairs_node] at hz ⊢
    rw [List.filter_cons] at hz
    have hhdz : ¬ (decide (nodesForest ([some (PTree.node (c :: cs))] : Forest) = 0)
        = true) := by
      have := PTree.nodes_pos (PTree.node (c :: cs))
      simp [nodesForest, treeNodes]
      omega
    rw [if_neg hhdz] at hz
    rw [List.filter_cons]
    have hhd : (eqT (none : LTree) (some (.node (c :: cs))) || eqT (none : LTree) none)
        = true := by
      rw [eqT_refl]
      simp
    rw [if_pos hhd]
    have hcomb : ((pyProduct ((c :: cs).map (fun d => splitPairs (some d)))).map
          (fun combo => ((bplus (combo.map Prod.fst) : LTree),
            (combo.map Prod.snd).flatten))).filter
          (fun p => eqT p.1 (some (.node (c :: cs))) || eqT p.1 none)
        = [((some (PTree.node (c :: cs)) : LTree), r₀)] := by
      rw [← hz]
      apply List.filter_congr
      intro p hp
      have hsome : ∃ w, p.1 = some w := by
        obtain ⟨combo, _, hF⟩ := List.mem_map.mp hp
        exact ⟨_, congrArg Prod.fst hF.symm⟩
      obtain ⟨w, hw⟩ := hsome
      have hnone : eqT p.1 none = false := by
        rcases hb : eqT p.1 none with _ | _
        · rfl
        · have h3 := eqT_nodes hb
          rw [hw] at h3
          have h4 := PTree.nodes_pos w
          simp [treeNodes] at h3
          omega
      rw [hnone, Bool.or_false]
      have hmem : p ∈ splitPairs (some (.node (c :: cs))) := by
        rw [splitPairs_node]
        exact List.mem_cons_of_mem _ hp
      rcases he : eqT p.1 (some (.node (c :: cs))) with _ | _
      · rcases hzp : decide (nodesForest p.2 = 0) with _ | _
        · rfl
        · exfalso
          have hpz : p ∈ ((pyProduct ((c :: cs).map (fun d => splitPairs (some d)))).map
              (fun combo => ((bplus (combo.map Prod.fst) : LTree),
                (combo.map Prod.snd).flatten))).filter
              (fun pr => decide (nodesForest pr.2 = 0)) :=
            List.mem_filter.mpr ⟨hp, hzp⟩
          rw [hz] at hpz
          rcases List.mem_singleton.mp hpz with h2
          rw [h2] at he
          rw [eqT_refl] at he
          exact absurd he (by decide)
      · have h1 := eqT_nodes he
        have h2 := splitPairs_conserve (some (.node (c :: cs))) p hmem
        rw [h1] at h2
        have : nodesForest p.2 = 0 := by omega
        rw [this]
        rfl
    rw [hcomb]
    simp only [List.map_cons, List.map_nil, List.sum_cons, List.sum_nil]
    rw [prod_semS_of_zero hz0, semT_none]
    have heps : epsT (some (.node (c :: cs))) = 0 := by
      rw [epsT, if_neg]
      have := PTree.nodes_pos (PTree.node (c :: cs))
      simp [treeNodes]
      omega
    rw [heps]
    simp only [List.map_cons, List.map_nil, List.prod_cons, List.prod_nil]
    ring

/-! ### Associativity of the convolution -/

/-- Product of an interpretation over the trees of a forest (the
multiplicative extension of a character). -/
noncomputable def chProd (φ : LTree → SemR) (r : Forest) : SemR := (r.map φ).prod

theorem chProd_nil (φ : LTree → SemR) : chProd φ [] = 1 := rfl

theorem chProd_cons (φ : LTree → SemR) (s : LTree) (r : Forest) :
    chProd φ (s :: r) = φ s * chProd φ r := by
  simp [chProd]

theorem chProd_single (φ : LTree → SemR) (s : LTree) : chProd φ [s] = φ s := by
  simp [chProd]

theorem chProd_append (φ : LTree → SemR) (a b : Forest) :
    chProd φ (a ++ b) = chProd φ a * chProd φ b := by
  simp [chProd]

theorem chProd_flatten (φ : LTree → SemR) (rs : List Forest) :
    chProd φ rs.flatten = (rs.map (chProd φ)).prod := by
  simp [chProd, List.prod_flatten, List.map_map]
  rfl

theorem conv_eq_sum (f g : LTree → SemR) (t : LTree) :
    conv f g t = ((splitPairs t).map (fun p => chProd f p.2 * g p.1)).sum := rfl

theorem sum_map_flatMap {α β M : Type} [AddCommMonoid M] (l : List α) (F : α → List β)
    (f : β → M) :
    ((l.flatMap F).map f).sum = (l.map (fun x => ((F x).map f).sum)).sum := by
  induction l with
  | nil => rfl
  | cons x l ih =>
    rw [List.flatMap_cons, List.map_append, List.sum_append, ih, List.map_cons,
      List.sum_cons]

theorem sum_map_add {β M : Type} [AddCommMonoid M] (m : List β) (a b : β → M) :
    (m.map (fun y => a y + b y)).sum = (m.map a).sum + (m.map b).sum := by
  induction m with
  | nil => simp
  | cons y m ih =>
    simp only [List.map_cons, List.sum_cons, ih]
    abel

theorem sum_sum_comm {α β M : Type} [AddCommMonoid M] (l : List α) (m : List β)
    (F : α → β → M) :
    (l.map (fun x => ((m.map (fun y => F x y)).sum))).sum
      = (m.map (fun y => ((l.map (fun x => F x y)).sum))).sum := by
  induction l with
  | nil => simp
  | cons x l ih =>
    rw [List.map_cons, List.sum_cons, ih]
    rw [show (fun y => ((x :: l).map (fun x => F x y)).sum)
        = (fun y => F x y + (l.map (fun x => F x y)).sum) from rfl]
    rw [sum_map_add]

/-- Product of sums expands to the sum over all pick-one combinations, in the
`itertools.product` order. -/
theorem prod_sum_pyProduct {α : Type} (ls : List (List α)) (A : α → SemR) :
    (ls.map (fun l => (l.map A).sum)).prod
      = ((pyProduct ls).map (fun cb => (cb.map A).prod)).sum := by
  induction ls with
  | nil => simp [pyProduct]
  | cons l ls ih =>
    rw [List.map_cons, List.prod_cons, ih, pyProduct, sum_map_flatMap]
    rw [← List.sum_map_mul_right]
    apply congrArg List.sum
    apply List.map_congr_left
    intro x _
    rw [List.map_map]
    rw [show ((fun cb : List α => (cb.map A).prod) ∘ (fun c => x :: c))
        = (fun cb : List α => A x * (cb.map A).prod) from rfl]
    rw [← List.sum_map_mul_left]

/-- The multiplicative extension of a convolution over a forest expands into
the sum over pick-one combinations of cuts of the forest's trees. -/
theorem chProd_conv (f g : LTree → SemR) (r : Forest) :
    chProd (conv f g) r
      = ((pyProduct (r.map splitPairs)).map
          (fun cb => chProd f ((cb.map Prod.snd).flatten)
            * chProd g (cb.map Prod.fst))).sum := by
  rw [chProd]
  rw [show (r.map (conv f g))
      = ((r.map splitPairs).map
          (fun l => (l.map (fun q => chProd f q.2 * g q.1)).sum)) from by
    rw [List.map_map]
    rfl]
  rw [prod_sum_pyProduct]
  apply congrArg List.sum
  apply List.map_congr_left
  intro cb _
  rw [List.prod_map_mul]
  congr 1
  · rw [chProd_flatten, List.map_map]
    rfl
  · rw [chProd, List.map_map]
    rfl

theorem conv_none (φ ψ : LTree → SemR) : conv φ ψ none = φ none * ψ none := by
  rw [conv_eq_sum, show splitPairs none = [((none : LTree), ([none] : Forest))] from rfl]
  simp [chProd_single]

theorem conv_dot (φ ψ : LTree → SemR) :
    conv φ ψ (some (.node []))
      = φ none * ψ (some (.node [])) + φ (some (.node [])) * ψ none := by
  rw [conv_eq_sum, show splitPairs (some (.node []))
    = [((some (.node []) : LTree), ([none] : Forest)),
        ((none : LTree), ([some (.node [])] : Forest))] from rfl]
  simp [chProd_single]

/-- Uniform expansion of the convolution at a branching node: the no-cut term
plus the sum over pick-one combinations of child cuts.  (For a childless node
the combination list is the single empty combination; the identity then uses
that `φ` is a character.) -/
theorem conv_node (m : List PTree) (φ ψ : LTree → SemR) (hφ : φ none = 1) :
    conv φ ψ (some (.node m))
      = φ (some (.node m)) * ψ none
        + ((pyProduct ((m.map (fun d => (some d : LTree))).map splitPairs)).map
            (fun cb => chProd φ ((cb.map Prod.snd).flatten)
              * ψ (bplus (cb.map Prod.fst)))).sum := by
  cases m with
  | nil =>
    rw [conv_dot, hφ]
    rw [show pyProduct ((([] : List PTree).map (fun d => (some d : LTree))).map splitPairs)
      = [[]] from rfl]
    simp only [List.map_cons, List.map_nil, List.sum_cons, List.sum_nil]
    rw [show ([] : List Forest).flatten = ([] : Forest) from rfl, chProd_nil,
      show bplus ([] : List LTree) = some (.node []) from rfl]
    ring
  | cons c cs =>
    rw [conv_eq_sum, splitPairs_node, List.map_cons, List.sum_cons, chProd_single]
    congr 1
    rw [List.map_map, List.map_map]
    rfl

theorem sum_map_pyProduct_cons {α M : Type} [AddCommMonoid M] (l : List α)
    (ls : List (List α)) (f : List α → M) :
    ((pyProduct (l :: ls)).map f).sum
      = (l.map (fun x => ((pyProduct ls).map (fun cb => f (x :: cb))).sum)).sum := by
  rw [pyProduct, sum_map_flatMap]
  apply congrArg List.sum
  apply List.map_congr_left
  intro x _
  rw [List.map_map]
  rfl

theorem filterMap_id_cons (a : LTree) (l : Forest) :
    (a :: l).filterMap id = ([a].filterMap id) ++ l.filterMap id := by
  cases a <;> simp [List.filterMap_cons]

/-- Cutting the void entries of a forest of kept parts is trivial: each void
entry contributes only the forced cut `(∅, (∅,))`, whose removed factor is the
character value `1` and whose kept part disappears from the filtered kept
list.  Hence summing over cuts of all entries equals summing over cuts of the
real trees only. -/
theorem noneInsert (g : LTree → SemR) (hg : g none = 1) :
    ∀ (K : Forest) (HF : List PTree → SemR),
    ((pyProduct (K.map splitPairs)).map
      (fun cb => chProd g ((cb.map Prod.snd).flatten)
        * HF ((cb.map Prod.fst).filterMap id))).sum
    = ((pyProduct (((K.filterMap id).map (fun d => (some d : LTree))).map splitPairs)).map
      (fun cb => chProd g ((cb.map Prod.snd).flatten)
        * HF ((cb.map Prod.fst).filterMap id))).sum := by
  intro K
  induction K with
  | nil => intro _; rfl
  | cons x K ih =>
    intro HF
    have hterm : ∀ (q : LTree × Forest) (cb : List (LTree × Forest)),
        chProd g (((q :: cb).map Prod.snd).flatten)
          * HF (((q :: cb).map Prod.fst).filterMap id)
        = chProd g q.2 * (chProd g ((cb.map Prod.snd).flatten)
            * HF (([q.1].filterMap id) ++ (cb.map Prod.fst).filterMap id)) := by
      intro q cb
      rw [List.map_cons, List.map_cons]
      rw [show (q.2 :: cb.map Prod.snd).flatten
        = q.2 ++ (cb.map Prod.snd).flatten from rfl]
      rw [chProd_append, filterMap_id_cons]
      ring
    cases x with
    | none =>
      rw [show (((none : LTree) :: K).map splitPairs)
        = (splitPairs none :: K.map splitPairs) from rfl]
      rw [sum_map_pyProduct_cons]
      rw [show splitPairs none = [((none : LTree), ([none] : Forest))] from rfl]
      rw [List.map_cons, List.map_nil, List.sum_cons, List.sum_nil, add_zero]
      have hcong : ∀ cb : List (LTree × Forest),
          chProd g (((((none : LTree), ([none] : Forest)) :: cb).map Prod.snd).flatten)
            * HF (((((none : LTree), ([none] : Forest)) :: cb).map Prod.fst).filterMap id)
          = chProd g ((cb.map Prod.snd).flatten)
            * HF ((cb.map Prod.fst).filterMap id) := by
        intro cb
        rw [hterm]
        rw [show chProd g ([none] : Forest) = g none from chProd_single g none, hg,
          one_mul]
        rw [show ([(none : LTree)].filterMap id) = ([] : List PTree) from rfl,
          List.nil_append]
      rw [List.map_congr_left (fun cb _ => hcong cb)]
      exact ih HF
    | some w =>
      rw [show (((some w : LTree) :: K).map splitPairs)
        = (splitPairs (some w) :: K.map splitPairs) from rfl]
      rw [show (((some w : LTree) :: K).filterMap id) = w :: K.filterMap id from rfl]
      rw [show ((w :: K.filterMap id).map (fun d => (some d : LTree))).map splitPairs
        = (splitPairs (some w)
          :: ((K.filterMap id).map (fun d => (some d : LTree))).map splitPairs) from rfl]
      rw [sum_map_pyProduct_cons, sum_map_pyProduct_cons]
      apply congrArg List.sum
      apply List.map_congr_left
      intro q _
      rw [List.map_congr_left (fun cb (_ : cb ∈ pyProduct (K.map splitPairs)) =>
        hterm q cb)]
      rw [List.map_congr_left (fun cb (_ : cb ∈ pyProduct
          (((K.filterMap id).map (fun d => (some d : LTree))).map splitPairs)) =>
        hterm q cb)]
      rw [List.sum_map_mul_left, List.sum_map_mul_left]
      apply congrArg (fun z => chProd g q.2 * z)
      exact ih (fun m => HF (([q.1].filterMap id) ++ m))

theorem sum_swap_mul {α β M : Type} [CommRing M] (A : List α) (B : List β)
    (u : α → M) (v : β → M) (Y : α → β → M) :
    (A.map (fun a => u a * ((B.map (fun b => v b * Y a b)).sum))).sum
      = (B.map (fun b => v b * ((A.map (fun a => u a * Y a b)).sum))).sum := by
  have h1 : ∀ a, u a * ((B.map (fun b => v b * Y a b)).sum)
      = ((B.map (fun b => u a * (v b * Y a b))).sum) := by
    intro a
    rw [List.sum_map_mul_left]
  rw [List.map_congr_left (fun a _ => h1 a)]
  rw [sum_sum_comm]
  apply congrArg List.sum
  apply List.map_congr_left
  intro b _
  have h2 : ∀ a, u a * (v b * Y a b) = v b * (u a * Y a b) := fun a => by ring
  rw [List.map_congr_left (fun a _ => h2 a), List.sum_map_mul_left]

/-- Forest-level coassociativity with a free functional of the kept forest:
summing a double cut of a forest (cut every tree, then cut the removed part
again) against `f ⊗ g ⊗ HF` equals summing a cut followed by a cut of the
kept part. -/
theorem convAssocForest (f g : LTree → SemR) :
    ∀ (fr : Forest),
    (∀ c ∈ fr, ∀ H : LTree → SemR, conv (conv f g) H c = conv f (conv g H) c) →
    ∀ HF : Forest → SemR,
    ((pyProduct (fr.map splitPairs)).map
      (fun cb => chProd (conv f g) ((cb.map Prod.snd).flatten)
        * HF (cb.map Prod.fst))).sum
    = ((pyProduct (fr.map splitPairs)).map
      (fun cb => chProd f ((cb.map Prod.snd).flatten)
        * ((pyProduct ((cb.map Prod.fst).map splitPairs)).map
            (fun db => chProd g ((db.map Prod.snd).flatten)
              * HF (db.map Prod.fst))).sum)).sum := by
  intro fr
  induction fr with
  | nil =>
    intro _ HF
    simp [pyProduct, chProd]
  | cons c fr ihf =>
    intro hyp HF
    have hmem : ∀ c' ∈ fr, ∀ H : LTree → SemR,
        conv (conv f g) H c' = conv f (conv g H) c' :=
      fun c' hc' => hyp c' (List.mem_cons_of_mem _ hc')
    rw [show ((c :: fr).map splitPairs) = splitPairs c :: fr.map splitPairs from rfl]
    rw [sum_map_pyProduct_cons, sum_map_pyProduct_cons]
    have hL : ∀ q : LTree × Forest,
        ((pyProduct (fr.map splitPairs)).map
          (fun cb => chProd (conv f g) (((q :: cb).map Prod.snd).flatten)
            * HF ((q :: cb).map Prod.fst))).sum
        = chProd (conv f g) q.2 *
          ((pyProduct (fr.map splitPairs)).map
            (fun cb => chProd (conv f g) ((cb.map Prod.snd).flatten)
              * HF (q.1 :: cb.map Prod.fst))).sum := by
      intro q
      rw [← List.sum_map_mul_left]
      apply congrArg List.sum
      apply List.map_congr_left
      intro cb _
      rw [List.map_cons, List.map_cons]
      rw [show (q.2 :: cb.map Prod.snd).flatten
        = q.2 ++ (cb.map Prod.snd).flatten from rfl]
      rw [chProd_append]
      ring
    rw [List.map_congr_left (fun q (_ : q ∈ splitPairs c) => hL q)]
    have hstep : ∀ q : LTree × Forest,
        chProd (conv f g) q.2 *
          ((pyProduct (fr.map splitPairs)).map
            (fun cb => chProd (conv f g) ((cb.map Prod.snd).flatten)
              * HF (q.1 :: cb.map Prod.fst))).sum
        = chProd (conv f g) q.2 *
          ((pyProduct (fr.map splitPairs)).map
            (fun cb => chProd f ((cb.map Prod.snd).flatten)
              * ((pyProduct ((cb.map Prod.fst).map splitPairs)).map
                  (fun db => chProd g ((db.map Prod.snd).flatten)
                    * HF (q.1 :: db.map Prod.fst))).sum)).sum := by
      intro q
      apply congrArg (fun z => chProd (conv f g) q.2 * z)
      exact ihf hmem (fun K => HF (q.1 :: K))
    rw [List.map_congr_left (fun q (_ : q ∈ splitPairs c) => hstep q)]
    rw [show ((splitPairs c).map (fun q => chProd (conv f g) q.2 *
        ((pyProduct (fr.map splitPairs)).map
          (fun cb => chProd f ((cb.map Prod.snd).flatten)
            * ((pyProduct ((cb.map Prod.fst).map splitPairs)).map
                (fun db => chProd g ((db.map Prod.snd).flatten)
                  * HF (q.1 :: db.map Prod.fst))).sum)).sum)).sum
      = conv (conv f g) (fun u => ((pyProduct (fr.map splitPairs)).map
          (fun cb => chProd f ((cb.map Prod.snd).flatten)
            * ((pyProduct ((cb.map Prod.fst).map splitPairs)).map
                (fun db => chProd g ((db.map Prod.snd).flatten)
                  * HF (u :: db.map Prod.fst))).sum)).sum) c from rfl]
    rw [hyp c (List.mem_cons_self _ _)]
    rw [conv_eq_sum]
    apply congrArg List.sum
    apply List.map_congr_left
    intro q _
    have hT : ∀ cb : List (LTree × Forest),
        chProd f (((q :: cb).map Prod.snd).flatten)
          * ((pyProduct (((q :: cb).map Prod.fst).map splitPairs)).map
              (fun db => chProd g ((db.map Prod.snd).flatten)
                * HF (db.map Prod.fst))).sum
        = chProd f q.2 * (chProd f ((cb.map Prod.snd).flatten)
            * ((splitPairs q.1).map (fun q2 => chProd g q2.2 *
                ((pyProduct ((cb.map Prod.fst).map splitPairs)).map
                  (fun db => chProd g ((db.map Prod.snd).flatten)
                    * HF (q2.1 :: db.map Prod.fst))).sum)).sum) := by
      intro cb
      rw [List.map_cons, List.map_cons]
      rw [show (q.2 :: cb.map Prod.snd).flatten
        = q.2 ++ (cb.map Prod.snd).flatten from rfl]
      rw [chProd_append]
      rw [show ((q.1 :: cb.map Prod.fst).map splitPairs)
        = splitPairs q.1 :: (cb.map Prod.fst).map splitPairs from rfl]
      rw [sum_map_pyProduct_cons]
      have hq2 : ∀ q2 : LTree × Forest,
          ((pyProduct ((cb.map Prod.fst).map splitPairs)).map
            (fun db => chProd g (((q2 :: db).map Prod.snd).flatten)
              * HF ((q2 :: db).map Prod.fst))).sum
          = chProd g q2.2 *
            ((pyProduct ((cb.map Prod.fst).map splitPairs)).map
              (fun db => chProd g ((db.map Prod.snd).flatten)
                * HF (q2.1 :: db.map Prod.fst))).sum := by
        intro q2
        rw [← List.sum_map_mul_left]
        apply congrArg List.sum
        apply List.map_congr_left
        intro db _
        rw [List.map_cons, List.map_cons]
        rw [show (q2.2 :: db.map Prod.snd).flatten
          = q2.2 ++ (db.map Prod.snd).flatten from rfl]
        rw [chProd_append]
        ring
      rw [List.map_congr_left (fun q2 (_ : q2 ∈ splitPairs q.1) => hq2 q2)]
      ring
    rw [List.map_congr_left (fun cb (_ : cb ∈ pyProduct (fr.map splitPairs)) => hT cb)]
    rw [List.sum_map_mul_left]
    apply congrArg (fun z => chProd f q.2 * z)
    rw [sum_swap_mul (pyProduct (fr.map splitPairs)) (splitPairs q.1)
      (fun cb => chProd f ((cb.map Prod.snd).flatten))
      (fun q2 => chProd g q2.2)
      (fun cb q2 => ((pyProduct ((cb.map Prod.fst).map splitPairs)).map
        (fun db => chProd g ((db.map Prod.snd).flatten)
          * HF (q2.1 :: db.map Prod.fst))).sum)]
    rfl

/-- Associativity of the convolution against the cut coproduct, for
characters (interpretations sending the void tree to `1`), with the third
slot free. -/
theorem conv_assoc (f g : LTree → SemR) (hf : f none = 1) (hg : g none = 1) :
    ∀ (t : LTree) (H : LTree → SemR), conv (conv f g) H t = conv f (conv g H) t := by
  have main : ∀ q : PTree, ∀ H : LTree → SemR,
      conv (conv f g) H (some q) = conv f (conv g H) (some q) := by
    intro q
    induction q using PTree.ind with
    | h m ih =>
      intro H
      have hcv : conv f g none = 1 := by rw [conv_none, hf, hg, one_mul]
      rw [conv_node m (conv f g) H hcv, conv_node m f (conv g H) hf]
      rw [conv_node m f g hf, hg, mul_one]
      rw [show conv g H none = H none from by rw [conv_none, hg, one_mul]]
      have hexp : ∀ cb : List (LTree × Forest),
          conv g H (bplus (cb.map Prod.fst))
            = g (bplus (cb.map Prod.fst)) * H none
              + ((pyProduct ((cb.map Prod.fst).map splitPairs)).map
                  (fun db => chProd g ((db.map Prod.snd).flatten)
                    * H (bplus (db.map Prod.fst)))).sum := by
        intro cb
        rw [show bplus (cb.map Prod.fst)
          = some (.node ((cb.map Prod.fst).filterMap id)) from rfl]
        rw [conv_node ((cb.map Prod.fst).filterMap id) g H hg]
        congr 1
        exact (noneInsert g hg (cb.map Prod.fst)
          (fun mm => H (some (.node mm)))).symm
      have hcongr : ((pyProduct ((m.map (fun d => (some d : LTree))).map splitPairs)).map
            (fun cb => chProd f ((cb.map Prod.snd).flatten)
              * conv g H (bplus (cb.map Prod.fst)))).sum
          = ((pyProduct ((m.map (fun d => (some d : LTree))).map splitPairs)).map
            (fun cb => (chProd f ((cb.map Prod.snd).flatten)
                * g (bplus (cb.map Prod.fst))) * H none
              + chProd f ((cb.map Prod.snd).flatten)
                * ((pyProduct ((cb.map Prod.fst).map splitPairs)).map
                    (fun db => chProd g ((db.map Prod.snd).flatten)
                      * H (bplus (db.map Prod.fst)))).sum)).sum := by
        apply congrArg List.sum
        apply List.map_congr_left
        intro cb _
        rw [hexp cb]
        ring
      rw [hcongr, sum_map_add, List.sum_map_mul_right]
      have hmem : ∀ c ∈ m.map (fun d => (some d : LTree)), ∀ H' : LTree → SemR,
          conv (conv f g) H' c = conv f (conv g H') c := by
        intro c hc H'
        obtain ⟨d, hd, rfl⟩ := List.mem_map.mp hc
        exact ih d hd H'
      have hCAF : ((pyProduct ((m.map (fun d => (some d : LTree))).map splitPairs)).map
            (fun cb => chProd (conv f g) ((cb.map Prod.snd).flatten)
              * H (bplus (cb.map Prod.fst)))).sum
          = ((pyProduct ((m.map (fun d => (some d : LTree))).map splitPairs)).map
            (fun cb => chProd f ((cb.map Prod.snd).flatten)
              * ((pyProduct ((cb.map Prod.fst).map splitPairs)).map
                  (fun db => chProd g ((db.map Prod.snd).flatten)
                    * H (bplus (db.map Prod.fst)))).sum)).sum :=
        convAssocForest f g (m.map (fun d => (some d : LTree))) hmem
          (fun K => H (bplus K))
      rw [hCAF]
      ring
  intro t H
  cases t with
  | none =>
    rw [conv_none, conv_none, conv_none, conv_none]
    ring
  | some q => exact main q H

theorem epsT_none : epsT none = 1 := by
  rw [epsT]
  rfl

theorem epsT_some (q : PTree) : epsT (some q) = 0 := by
  rw [epsT, if_neg]
  have := PTree.nodes_pos q
  simp [treeNodes]
  omega

theorem chProd_of_zero (φ : LTree → SemR) (hφ : φ none = 1) :
    ∀ {r : Forest}, nodesForest r = 0 → chProd φ r = 1 := by
  intro r h
  apply List.prod_eq_one
  intro x hx
  obtain ⟨s, hs, rfl⟩ := List.mem_map.mp hx
  have hz : treeNodes s = 0 := by
    have := List.single_le_sum (fun n _ => Nat.zero_le n) (treeNodes s)
      (List.mem_map_of_mem treeNodes hs)
    rw [show (r.map treeNodes).sum = nodesForest r from rfl] at this
    omega
  rw [treeNodes_eq_zero.mp hz, hφ]

theorem chProd_epsT_of_pos {r : Forest} (h : 0 < nodesForest r) : chProd epsT r = 0 := by
  apply List.prod_eq_zero
  have hex : ∃ s ∈ r, 0 < treeNodes s := by
    by_contra hno
    push_neg at hno
    have hzero : nodesForest r = 0 := by
      apply List.sum_eq_zero
      intro x hx
      obtain ⟨s, hs, rfl⟩ := List.mem_map.mp hx
      exact Nat.le_zero.mp (hno s hs)
    omega
  obtain ⟨s, hs, hpos⟩ := hex
  have : epsT s = 0 := by
    rw [epsT, if_neg]
    omega
  rw [← this]
  exact List.mem_map_of_mem epsT hs

/-- Right unit law: convolving with the counit on the kept side is the
identity. -/
theorem conv_epsT_right (φ : LTree → SemR) : ∀ t : LTree, conv φ epsT t = φ t := by
  intro t
  match t with
  | none =>
    rw [conv_none, epsT_none, mul_one]
  | some (.node []) =>
    rw [conv_dot, epsT_none, epsT_some, mul_one, mul_zero, zero_add]
  | some (.node (c :: cs)) =>
    rw [conv_eq_sum, splitPairs_node, List.map_cons, List.sum_cons, chProd_single,
      epsT_none, mul_one]
    rw [show ((pyProduct ((c :: cs).map (fun d => splitPairs (some d)))).map
        (fun combo => (bplus (combo.map Prod.fst), (combo.map Prod.snd).flatten))).map
          (fun p => chProd φ p.2 * epsT p.1)
      = ((pyProduct ((c :: cs).map (fun d => splitPairs (some d)))).map
        (fun combo => chProd φ ((combo.map Prod.snd).flatten)
          * epsT (bplus (combo.map Prod.fst)))) from by
      rw [List.map_map]
      rfl]
    have hz : ∀ combo : List (LTree × Forest),
        chProd φ ((combo.map Prod.snd).flatten) * epsT (bplus (combo.map Prod.fst))
          = 0 := by
      intro combo
      rw [show bplus (combo.map Prod.fst)
        = some (.node ((combo.map Prod.fst).filterMap id)) from rfl]
      rw [epsT_some, mul_zero]
    rw [List.map_congr_left (fun combo _ => hz combo)]
    rw [List.sum_eq_zero (fun x hx => (List.mem_map.mp hx).elim
      (fun a ha => ha.2.symm))]
    rw [add_zero]

/-- Left unit law: convolving with the counit on the removed side is the
identity. -/
theorem conv_epsT_left (φ : LTree → SemR) : ∀ t : LTree, conv epsT φ t = φ t := by
  intro t
  cases t with
  | none => rw [conv_none, epsT_none, one_mul]
  | some q =>
    rw [conv_eq_sum]
    rw [sum_filter_split (splitPairs (some q))
      (fun p => decide (nodesForest p.2 = 0)) (fun p => chProd epsT p.2 * φ p.1)]
    obtain ⟨r₀, hz, hz0⟩ := splitPairs_zero q
    rw [hz, List.map_cons, List.map_nil, List.sum_cons, List.sum_nil, add_zero]
    rw [chProd_of_zero epsT epsT_none hz0, one_mul]
    have hrest : (((splitPairs (some q)).filter
        (fun p => !(decide (nodesForest p.2 = 0)))).map
        (fun p => chProd epsT p.2 * φ p.1)).sum = 0 := by
      apply List.sum_eq_zero
      intro x hx
      obtain ⟨p, hp, rfl⟩ := List.mem_map.mp hx
      have hpos : 0 < nodesForest p.2 := by
        have := (List.mem_filter.mp hp).2
        simp at this
        omega
      rw [chProd_epsT_of_pos hpos, zero_mul]
    rw [hrest, add_zero]

/-- The right convolution inverse of the identity character, defined by
recursion on the node count through the cut pairs with nonvoid removed
part. -/
noncomputable def semS' (t : LTree) : SemR :=
  match t with
  | none => 1
  | some q =>
      -((((splitPairs (some q)).filter
          (fun p => !(decide (nodesForest p.2 = 0)))).attach).map
        (fun p => chProd semT p.1.2 * semS' p.1.1)).sum
termination_by treeNodes t
decreasing_by
  rename_i q
  have hmem := List.mem_filter.mp p.2
  have hpos : 0 < nodesForest p.1.2 := by
    have := hmem.2
    simp at this
    omega
  have hcons := splitPairs_conserve (some q) p.1 hmem.1
  simp only [treeNodes] at hcons ⊢
  omega

theorem semS'_none : semS' none = 1 := by
  rw [semS'.eq_def]

theorem semS'_some (q : PTree) :
    semS' (some q)
      = -(((splitPairs (some q)).filter
          (fun p => !(decide (nodesForest p.2 = 0)))).map
        (fun p => chProd semT p.2 * semS' p.1)).sum := by
  rw [semS'.eq_def]
  rw [← List.attach_map_coe
    ((splitPairs (some q)).filter (fun p => !(decide (nodesForest p.2 = 0))))
    (fun p => chProd semT p.2 * semS' p.1)]

/-- The identity character convolved with `semS'` is the counit. -/
theorem conv_semT_semS' : ∀ t : LTree, conv semT semS' t = epsT t := by
  intro t
  cases t with
  | none =>
    rw [conv_none, semT_none, semS'_none, epsT_none, mul_one]
  | some q =>
    rw [conv_eq_sum]
    rw [sum_filter_split (splitPairs (some q))
      (fun p => decide (nodesForest p.2 = 0)) (fun p => chProd semT p.2 * semS' p.1)]
    obtain ⟨r₀, hz, hz0⟩ := splitPairs_zero q
    rw [hz, List.map_cons, List.map_nil, List.sum_cons, List.sum_nil, add_zero]
    rw [chProd_of_zero semT semT_none hz0, one_mul]
    rw [show (((splitPairs (some q)).filter
        (fun p => !(decide (nodesForest p.2 = 0)))).map
        (fun p => chProd semT p.2 * semS' p.1)).sum = -(semS' (some q)) from by
      rw [semS'_some]
      ring]
    rw [epsT_some]
    ring

/-- The recursive antipode coincides with the right convolution inverse of
the identity: left and right inverses agree in the convolution monoid. -/
theorem semS'_eq_semS : ∀ t : LTree, semS' t = semS t := by
  have h1 : (fun u => conv semS semT u) = epsT := funext conv_semS_semT
  have h2 : (fun u => conv semT semS' u) = epsT := funext conv_semT_semS'
  intro t
  calc semS' t = conv epsT semS' t := (conv_epsT_left semS' t).symm
    _ = conv (conv semS semT) semS' t := by rw [← h1]
    _ = conv semS (conv semT semS') t :=
        conv_assoc semS semT semS_none semT_none t semS'
    _ = conv semS epsT t := by rw [show conv semT semS' = fun u => epsT u from h2]
    _ = semS t := conv_epsT_right semS t

/-- The other Hopf-algebra axiom: the identity character convolved with the
antipode is the counit. -/
theorem conv_semT_semS : ∀ t : LTree, conv semT semS t = epsT t := by
  intro t
  rw [show semS = semS' from (funext semS'_eq_semS).symm]
  exact conv_semT_semS' t

/-! ### Structure of reduced forest sums -/

/-- Well-formedness of a `ForestSum`: every term's forest is a nonempty
tuple, as produced by all the code's constructors. -/
def WFS (s : ForestSum) : Prop := ∀ fc ∈ s, fc.1 ≠ []

/-- Shape of the output of `Forest.reduce` on a nonempty forest: either the
canonical empty forest `(∅,)` or a nonempty forest of real trees. -/
def goodF (g : Forest) : Prop := g = [none] ∨ (g ≠ [] ∧ ∀ s ∈ g, s ≠ none)

theorem reduceF_ne_nil {f : Forest} (h : f ≠ []) : reduceF f ≠ [] := by
  rw [reduceF]
  split_ifs with h1
  · exact h
  · show (if f.filter Option.isSome = [] then [none]
      else if (f.filter Option.isSome).length = f.length then f
      else f.filter Option.isSome) ≠ []
    split_ifs with h2 h3
    · simp
    · exact h
    · exact h2

theorem reduceF_good {f : Forest} (h : f ≠ []) : goodF (reduceF f) := by
  rw [reduceF]
  split_ifs with h1
  · match f, h with
    | [x], _ =>
      cases x with
      | none => exact Or.inl rfl
      | some w =>
        refine Or.inr ⟨by simp, ?_⟩
        intro s hs
        rcases List.mem_singleton.mp hs with rfl
        simp
    | x :: y :: rest, _ => simp at h1
  · show goodF (if f.filter Option.isSome = [] then [none]
      else if (f.filter Option.isSome).length = f.length then f
      else f.filter Option.isSome)
    split_ifs with h2 h3
    · exact Or.inl rfl
    · refine Or.inr ⟨h, ?_⟩
      have hall := (List.filter_length_eq_length).mp h3
      intro s hs
      have := hall s hs
      cases s with
      | none => simp at this
      | some w => simp
    · refine Or.inr ⟨h2, ?_⟩
      intro s hs
      have := (List.mem_filter.mp hs).2
      cases s with
      | none => simp at this
      | some w => simp

theorem reduceF_fix {g : Forest} (h : goodF g) : reduceF g = g := by
  rcases h with h | ⟨hne, hsome⟩
  · rw [h]
    rfl
  · rw [reduceF]
    split_ifs with h1
    · rfl
    · have hfil : g.filter Option.isSome = g := by
        rw [List.filter_eq_self]
        intro a ha
        cases a with
        | none => exact absurd rfl (hsome none ha)
        | some w => simp
      show (if g.filter Option.isSome = [] then [none]
        else if (g.filter Option.isSome).length = g.length then g
        else g.filter Option.isSome) = g
      rw [hfil, if_neg hne, if_pos rfl]

theorem allsome_map_sorted {g : Forest} (h : ∀ s ∈ g, s ≠ none) :
    g.map sortedListRepr
      = ((g.filterMap id).map PTree.canon).map (fun w => (some w : LTree)) := by
  induction g with
  | nil => rfl
  | cons s g ih =>
    cases s with
    | none => exact absurd rfl (h none (List.mem_cons_self _ _))
    | some w =>
      rw [List.map_cons, List.filterMap_cons]
      simp only [id]
      rw [List.map_cons, List.map_cons]
      rw [ih (fun s hs => h s (List.mem_cons_of_mem _ hs))]
      rfl

theorem fkey_allsome {g : Forest} (hne : g ≠ []) (hsome : ∀ s ∈ g, s ≠ none) :
    fkey g = Multiset.map (fun w => (some w : LTree)) (fkeySem g) := by
  rw [fkey, reduceF_fix (Or.inr ⟨hne, hsome⟩), allsome_map_sorted hsome, fkeySem]
  rfl

theorem fkeySem_allsome_ne_nil {g : Forest} (hne : g ≠ []) (hsome : ∀ s ∈ g, s ≠ none) :
    fkeySem g ≠ 0 := by
  match g, hne with
  | s :: g', _ =>
    cases s with
    | none => exact absurd rfl (hsome none (List.mem_cons_self _ _))
    | some w =>
      rw [fkeySem, List.filterMap_cons]
      simp only [id]
      rw [List.map_cons]
      intro hc
      rw [Multiset.coe_eq_zero] at hc
      exact List.cons_ne_nil _ _ hc

/-- On reduced-shape forests the semantic key determines the code's forest
key. -/
theorem fkey_of_fkeySem {g g' : Forest} (hg : goodF g) (hg' : goodF g')
    (h : fkeySem g = fkeySem g') : fkey g = fkey g' := by
  have h0 : fkeySem ([none] : Forest) = 0 := rfl
  rcases hg with hgl | ⟨hne, hsome⟩ <;> rcases hg' with hgl' | ⟨hne', hsome'⟩
  · rw [hgl, hgl']
  · exfalso
    rw [hgl] at h
    exact fkeySem_allsome_ne_nil hne' hsome' (h.symm.trans h0)
  · exfalso
    rw [hgl'] at h
    exact fkeySem_allsome_ne_nil hne hsome (h.trans h0)
  · rw [fkey_allsome hne hsome, fkey_allsome hne' hsome', h]

theorem insertMerge_fst_mem {acc : ForestSum} {fr : Forest} {c : ℚ} :
    ∀ gd ∈ insertMerge acc fr c, gd.1 ∈ acc.map Prod.fst ∨ gd.1 = fr := by
  induction acc with
  | nil =>
    intro gd hgd
    rcases List.mem_singleton.mp hgd with rfl
    exact Or.inr rfl
  | cons hd rest ih =>
    obtain ⟨g, d⟩ := hd
    intro gd hgd
    rw [insertMerge] at hgd
    split_ifs at hgd with h
    · rcases List.mem_cons.mp hgd with rfl | hmem
      · exact Or.inl (List.mem_cons_self _ _)
      · exact Or.inl (List.mem_cons_of_mem _ (List.mem_map_of_mem Prod.fst hmem))
    · rcases List.mem_cons.mp hgd with rfl | hmem
      · exact Or.inl (List.mem_cons_self _ _)
      · rcases ih gd hmem with h1 | h1
        · exact Or.inl (List.mem_cons_of_mem _ h1)
        · exact Or.inr h1

theorem mergeFold_fst_mem {s : ForestSum} :
    ∀ {acc : ForestSum} gd,
      gd ∈ s.foldl (fun acc fc => insertMerge acc (reduceF fc.1) fc.2) acc →
      gd.1 ∈ acc.map Prod.fst ∨ ∃ fc ∈ s, gd.1 = reduceF fc.1 := by
  induction s with
  | nil =>
    intro acc gd hgd
    exact Or.inl (List.mem_map_of_mem Prod.fst hgd)
  | cons fc s ih =>
    intro acc gd hgd
    rw [List.foldl_cons] at hgd
    rcases ih gd hgd with h1 | ⟨fc', hfc', h2⟩
    · obtain ⟨gd', hgd', hfst⟩ := List.mem_map.mp h1
      rcases insertMerge_fst_mem gd' hgd' with h2 | h2
      · exact Or.inl (hfst ▸ h2)
      · exact Or.inr ⟨fc, List.mem_cons_self _ _, by rw [← hfst, h2]⟩
    · exact Or.inr ⟨fc', List.mem_cons_of_mem _ hfc', h2⟩

theorem insertMerge_pairwise {acc : ForestSum} {fr : Forest} {c : ℚ}
    (hp : acc.Pairwise (fun a b => fkey a.1 ≠ fkey b.1)) :
    (insertMerge acc fr c).Pairwise (fun a b => fkey a.1 ≠ fkey b.1) := by
  induction acc with
  | nil => exact List.pairwise_singleton _ _
  | cons hd rest ih =>
    obtain ⟨g, d⟩ := hd
    rw [insertMerge]
    rcases List.pairwise_cons.mp hp with ⟨hhd, hrest⟩
    split_ifs with h
    · exact List.pairwise_cons.mpr ⟨hhd, hrest⟩
    · apply List.pairwise_cons.mpr
      constructor
      · intro b hb
        rcases insertMerge_fst_mem b hb with h1 | h1
        · obtain ⟨b', hb', hfst⟩ := List.mem_map.mp h1
          rw [← hfst]
          exact hhd b' hb'
        · rw [h1]
          intro hcontra
          exact h (by rw [eqF]; exact decide_eq_true hcontra.symm)
      · exact ih hrest

theorem mergeFold_pairwise {s : ForestSum} :
    ∀ {acc : ForestSum},
      acc.Pairwise (fun a b => fkey a.1 ≠ fkey b.1) →
      (s.foldl (fun acc fc => insertMerge acc (reduceF fc.1) fc.2) acc).Pairwise
        (fun a b => fkey a.1 ≠ fkey b.1) := by
  induction s with
  | nil => intro acc hp; exact hp
  | cons fc s ih =>
    intro acc hp
    rw [List.foldl_cons]
    exact ih (insertMerge_pairwise hp)

theorem sem_apply_ne {k : Multiset PTree} :
    ∀ {s : ForestSum}, (∀ fc ∈ s, fkeySem fc.1 ≠ k) → sem s k = 0 := by
  intro s
  induction s with
  | nil => intro _; rfl
  | cons fc s ih =>
    intro h
    rw [sem_cons, Finsupp.add_apply]
    rw [ih (fun fc' hfc' => h fc' (List.mem_cons_of_mem _ hfc')), add_zero]
    rw [AddMonoidAlgebra.single_apply, if_neg (h fc (List.mem_cons_self _ _))]

/-- If a well-formed forest sum is semantically zero, the code's `reduce`
collapses it to the literal zero forest sum. -/
theorem reduceFS_eq_zero_of_sem {X : ForestSum} (hW : WFS X) (h0 : sem X = 0) :
    reduceFS X = ZERO_FOREST_SUM := by
  rw [reduceFS]
  split_ifs with h
  · rfl
  · exfalso
    obtain ⟨gd, rest, hres⟩ := List.exists_cons_of_ne_nil h
    have hsem : sem ((X.foldl (fun acc fc => insertMerge acc (reduceF fc.1) fc.2)
        []).filter (fun fc => decide (fc.2 ≠ 0))) = 0 := by
      rw [sem_filter_ne_zero]
      have h2 := sem_mergeFold X []
      rw [sem_nil, zero_add] at h2
      rw [h2, h0]
    rw [hres] at hsem
    have hgood : ∀ fc ∈ gd :: rest, goodF fc.1 := by
      intro fc hfc
      rw [← hres] at hfc
      have hmem := List.mem_filter.mp hfc
      rcases mergeFold_fst_mem fc hmem.1 with h1 | ⟨fc', hfc', h2⟩
      · simp at h1
      · rw [h2]
        exact reduceF_good (hW fc' hfc')
    have hpair : (gd :: rest).Pairwise (fun a b => fkey a.1 ≠ fkey b.1) := by
      rw [← hres]
      exact List.Pairwise.filter _ (mergeFold_pairwise List.Pairwise.nil)
    have hnz : gd.2 ≠ 0 := by
      have : gd ∈ (X.foldl (fun acc fc => insertMerge acc (reduceF fc.1) fc.2)
          []).filter (fun fc => decide (fc.2 ≠ 0)) := by
        rw [hres]
        exact List.mem_cons_self _ _
      have := (List.mem_filter.mp this).2
      simpa using this
    have heval : sem (gd :: rest) (fkeySem gd.1) = gd.2 := by
      rw [sem_cons, Finsupp.add_apply, AddMonoidAlgebra.single_apply, if_pos rfl]
      rw [sem_apply_ne, add_zero]
      intro fc hfc
      intro hcontra
      have hne := (List.pairwise_cons.mp hpair).1 fc hfc
      exact hne (fkey_of_fkeySem (hgood gd (List.mem_cons_self _ _))
        (hgood fc (List.mem_cons_of_mem _ hfc)) hcontra.symm)
    rw [hsem] at heval
    exact hnz (by rw [← heval]; rfl)

theorem WFS_reduceFS {s : ForestSum} (h : WFS s) : WFS (reduceFS s) := by
  rw [reduceFS]
  split_ifs with hres
  · intro fc hfc
    rcases List.mem_singleton.mp hfc with rfl
    simp
  · intro fc hfc
    have hmem := (List.mem_filter.mp hfc).1
    rcases mergeFold_fst_mem fc hmem with h1 | ⟨fc', hfc', h2⟩
    · simp at h1
    · rw [h2]
      exact reduceF_ne_nil (h fc' hfc')

theorem WFS_append {a b : ForestSum} (ha : WFS a) (hb : WFS b) : WFS (a ++ b) := by
  intro fc hfc
  rcases List.mem_append.mp hfc with h | h
  · exact ha fc h
  · exact hb fc h

theorem WFS_fsMulScalar {s : ForestSum} (h : WFS s) (q : ℚ) (r : Bool) :
    WFS (fsMulScalar s q r) := by
  have hmap : WFS (s.map (fun fc => (fc.1, fc.2 * q))) := by
    intro fc hfc
    obtain ⟨fc', hfc', rfl⟩ := List.mem_map.mp hfc
    exact h fc' hfc'
  rw [fsMulScalar]
  cases r with
  | false => exact hmap
  | true => exact WFS_reduceFS hmap

theorem WFS_fsMulTree (s : ForestSum) (t : LTree) (r : Bool) :
    WFS (fsMulTree s t r) := by
  have hmap : WFS (s.map (fun fc => (forestMulTree fc.1 t true, fc.2))) := by
    intro fc hfc
    obtain ⟨fc', _, rfl⟩ := List.mem_map.mp hfc
    show forestMulTree fc'.1 t true ≠ []
    rw [forestMulTree, if_pos rfl]
    exact reduceF_ne_nil (by simp)
  rw [fsMulTree]
  cases r with
  | false => exact hmap
  | true => exact WFS_reduceFS hmap

theorem WFS_fsMulFS {a : ForestSum} (ha : WFS a) (b : ForestSum) (r : Bool) :
    WFS (fsMulFS a b r) := by
  have hmap : WFS (a.flatMap (fun fc => b.map
      (fun gd => (forestMulForest fc.1 gd.1 true, fc.2 * gd.2)))) := by
    intro fc hfc
    obtain ⟨fc', hfc', hin⟩ := List.mem_flatMap.mp hfc
    obtain ⟨gd, _, rfl⟩ := List.mem_map.mp hin
    show forestMulForest fc'.1 gd.1 true ≠ []
    rw [forestMulForest, if_pos rfl]
    apply reduceF_ne_nil
    have := ha fc' hfc'
    cases hx : fc'.1 with
    | nil => exact absurd hx this
    | cons y ys => simp
  rw [fsMulFS]
  cases r with
  | false => exact hmap
  | true => exact WFS_reduceFS hmap

theorem WFS_fsNeg {s : ForestSum} (h : WFS s) : WFS (fsNeg s) :=
  WFS_fsMulScalar h (-1) false

theorem WFS_fsAddFS {a b : ForestSum} (ha : WFS a) (hb : WFS b) (r : Bool) :
    WFS (fsAddFS a b r) := by
  rw [fsAddFS]
  cases r with
  | false => exact WFS_append ha hb
  | true => exact WFS_reduceFS (WFS_append ha hb)

theorem WFS_fsSub {a b : ForestSum} (ha : WFS a) (hb : WFS b) (r : Bool) :
    WFS (fsSub a b r) :=
  WFS_fsAddFS ha (WFS_fsNeg hb) true

theorem WFS_EMPTY : WFS EMPTY_FOREST_SUM := by
  intro fc hfc
  rcases List.mem_singleton.mp hfc with rfl
  simp

theorem WFS_asForestSum (t : LTree) : WFS (asForestSum t) := by
  intro fc hfc
  rcases List.mem_singleton.mp hfc with rfl
  simp

theorem WFS_treeMulScalar (t : LTree) (q : ℚ) (r : Bool) :
    WFS (treeMulScalar t q r) := by
  have hbase : WFS [(([t] : Forest), q)] := by
    intro fc hfc
    rcases List.mem_singleton.mp hfc with rfl
    simp
  rw [treeMulScalar]
  cases r with
  | false => exact hbase
  | true => exact WFS_reduceFS hbase

theorem WFS_foldl {α : Type} (l : List α) (F : ForestSum → α → ForestSum)
    (hF : ∀ acc x, WFS acc → WFS (F acc x)) :
    ∀ {init : ForestSum}, WFS init → WFS (l.foldl F init) := by
  induction l with
  | nil => intro init h; exact h
  | cons x l ih =>
    intro init h
    rw [List.foldl_cons]
    exact ih (hF init x h)

/-- The antipode always produces a well-formed forest sum. -/
theorem WFS_antipodeT : ∀ (t : LTree) (red : Bool), WFS (antipodeT t red) := by
  intro t red
  match t with
  | none =>
    rw [antipodeT_none]
    exact WFS_EMPTY
  | some (.node []) =>
    rw [antipodeT_dot]
    apply WFS_fsMulScalar
    intro fc hfc
    rcases List.mem_singleton.mp hfc with rfl
    simp
  | some (.node (c :: cs)) =>
    rw [antipodeT_node]
    have hfold : WFS ((splitPairs (some (.node (c :: cs)))).foldl
        (fun out p =>
          if (eqT p.1 (some (.node (c :: cs))) || eqT p.1 none) then out
          else fsSub out (fsMulTree (antipodeFold p.2 false) p.1 false) false)
        (fsNeg (asForestSum (some (.node (c :: cs)))))) := by
      apply WFS_foldl
      · intro acc p hacc
        split_ifs with hc
        · exact hacc
        · exact WFS_fsSub hacc (WFS_fsMulTree _ _ _) _
      · exact WFS_fsNeg (WFS_asForestSum _)
    cases red with
    | false => exact hfold
    | true => exact WFS_reduceFS hfold

/-- Shape of `Forest.apply` with the identity tree function: a scalar `1` on
the empty tuple, otherwise a reduced well-formed forest sum. -/
theorem applyF_id_shape (r : Forest) :
    applyF r (fun x => Val.t x) true = Val.s 1 ∨
    ∃ Y, applyF r (fun x => Val.t x) true = Val.fs Y ∧ WFS Y := by
  cases r with
  | nil => exact Or.inl rfl
  | cons u rest =>
    right
    have hloop : ∀ (l : Forest) (X : ForestSum), WFS X →
        ∃ Y, l.foldl (fun out t => valMul out ((fun x => Val.t x) t) false)
          (Val.fs X) = Val.fs Y ∧ WFS Y := by
      intro l
      induction l with
      | nil => exact fun X hX => ⟨X, rfl, hX⟩
      | cons v l ih =>
        intro X hX
        rw [List.foldl_cons]
        rw [show valMul (Val.fs X) (Val.t v) false
          = Val.fs (fsMulTree X v false) from rfl]
        exact ih (fsMulTree X v false) (WFS_fsMulTree X v false)
      
    rw [applyF]
    rw [show ((u :: rest).foldl (fun out t => valMul out ((fun x => Val.t x) t) false)
        (Val.s 1))
      = rest.foldl (fun out t => valMul out ((fun x => Val.t x) t) false)
        (Val.fs (treeMulScalar u 1 false)) from rfl]
    obtain ⟨Y, hY, hWY⟩ := hloop rest (treeMulScalar u 1 false)
      (WFS_treeMulScalar u 1 false)
    rw [hY]
    exact ⟨reduceFS Y, rfl, WFS_reduceFS hWY⟩

/-- Shape of a single convolution term with the identity and the antipode:
always a well-formed forest sum. -/
theorem convTerm_shape (p : LTree × Forest) :
    ∃ Z, valMul (applyF p.2 (fun x => Val.t x) true)
        (Val.fs (antipodeT p.1 true)) false = Val.fs Z ∧ WFS Z := by
  rcases applyF_id_shape p.2 with h | ⟨Y, hY, hWY⟩
  · rw [h]
    exact ⟨fsMulScalar (antipodeT p.1 true) 1 false, rfl,
      WFS_fsMulScalar (WFS_antipodeT p.1 true) 1 false⟩
  · rw [hY]
    exact ⟨fsMulFS Y (antipodeT p.1 true) false, rfl,
      WFS_fsMulFS hWY (antipodeT p.1 true) false⟩

/-- Shape of `Tree.apply_product` with the identity and the antipode on a
nonvoid tree: the reduction of a well-formed forest sum. -/
theorem applyProductT_id_antipode_shape (q : PTree) :
    ∃ T, applyProductT (some q) (fun x => Val.t x)
        (fun x => Val.fs (antipodeT x true)) true = Val.fs (reduceFS T) ∧ WFS T := by
  have hne : splitPairs (some q) ≠ [] := by
    match q with
    | .node [] =>
      intro hc
      exact absurd (congrArg List.length hc) (by decide)
    | .node (c :: cs) =>
      rw [splitPairs_node]
      exact List.cons_ne_nil _ _
  obtain ⟨p, ps, hsp⟩ := List.exists_cons_of_ne_nil hne
  have hloop : ∀ (l : List (LTree × Forest)) (X : ForestSum), WFS X →
      ∃ T, l.foldl (fun out q' => valAdd out
          (valMul (applyF q'.2 (fun x => Val.t x) true)
            (Val.fs (antipodeT q'.1 true)) false) false)
        (Val.fs X) = Val.fs T ∧ WFS T := by
    intro l
    induction l with
    | nil => exact fun X hX => ⟨X, rfl, hX⟩
    | cons p' l ih =>
      intro X hX
      rw [List.foldl_cons]
      obtain ⟨Z, hZ, hWZ⟩ := convTerm_shape p'
      rw [hZ]
      rw [show valAdd (Val.fs X) (Val.fs Z) false
        = Val.fs (fsAddFS X Z false) from rfl]
      rw [show fsAddFS X Z false = X ++ Z from rfl]
      exact ih (X ++ Z) (WFS_append hX hWZ)
  simp only [applyProductT, hsp]
  obtain ⟨Z0, hZ0, hWZ0⟩ := convTerm_shape p
  rw [hZ0]
  obtain ⟨T, hT, hWT⟩ := hloop ps Z0 hWZ0
  rw [hT]
  exact ⟨T, rfl, hWT⟩

/-- C1: for every tree, the convolution product of the identity character
with the antipode — `t.apply_product(func1, func2)` with `func1(x) = x` and
`func2(x) = x.antipode()` — reduces to the counit of `t`: the coefficient-1
empty-forest sum for the void tree, and the literal zero forest sum for
every tree with at least one node. -/
theorem C1_convolution_antipode_counit :
    (applyProductT none (fun x => Val.t x) (fun x => Val.fs (antipodeT x true)) true
        = Val.fs EMPTY_FOREST_SUM)
    ∧ ∀ q : PTree,
        applyProductT (some q) (fun x => Val.t x)
            (fun x => Val.fs (antipodeT x true)) true
          = Val.fs ZERO_FOREST_SUM := by
  constructor
  · rw [show applyProductT none (fun x => Val.t x)
        (fun x => Val.fs (antipodeT x true)) true
      = (let out := valMul (applyF [none] (fun x => Val.t x) true)
          (Val.fs (antipodeT none true)) false;
         if (true && !out.isScalar) = true then reduceVal out else out) from rfl]
    rw [antipodeT_none]
    rw [show applyF [none] (fun x => Val.t x) true
      = Val.fs [(([none] : Forest), (1 : ℚ))] from rfl]
    rw [show valMul (Val.fs [(([none] : Forest), (1 : ℚ))])
        (Val.fs EMPTY_FOREST_SUM) false
      = Val.fs [(([none] : Forest), (1 : ℚ) * 1)] from rfl]
    rw [mul_one]
    decide
  · intro q
    obtain ⟨T, hT, hWT⟩ := applyProductT_id_antipode_shape q
    have hval : semVal (applyProductT (some q) (fun x => Val.t x)
        (fun x => Val.fs (antipodeT x true)) true) = conv semT semS (some q) := by
      rw [semVal_applyProductT]
      rfl
    rw [hT] at hval
    have h0 : sem T = 0 := by
      have h1 : sem (reduceFS T) = 0 := by
        rw [show sem (reduceFS T) = semVal (Val.fs (reduceFS T)) from rfl, hval,
          conv_semT_semS, epsT_some]
      rw [← sem_reduceFS]
      exact h1
    rw [reduceFS_eq_zero_of_sem hWT h0] at hT
    exact hT

/-- C3: `split` returns two parallel sequences of equal length; the cut-pair
count is `1` for the void tree (the single pair `(∅, (∅,))`), `2` for the
unit tree (the pairs `(•, (∅,))` and `(∅, (•,))`), and `1` plus the product
of the children's pair counts for a branching tree; in particular the tree
`[[],[]]` yields exactly `5` pairs. -/
theorem C3_split_cardinality :
    (∀ t : LTree, (treeSplit t).1.length = (treeSplit t).2.length)
    ∧ splitPairs none = [(none, [none])]
    ∧ splitPairs (some (.node []))
        = [(some (.node []), [none]), (none, [some (.node [])])]
    ∧ (∀ (c : PTree) (cs : List PTree),
        (splitPairs (some (.node (c :: cs)))).length
          = 1 + ((c :: cs).map (fun d => (splitPairs (some d)).length)).prod)
    ∧ (splitPairs (some (.node [.node [], .node []]))).length = 5 := by
  refine ⟨?_, rfl, rfl, ?_, by decide⟩
  · intro t
    cases t with
    | none => rfl
    | some p => exact split_len_eq p
  · intro c cs
    rw [splitPairs_node, List.length_cons, List.length_map, length_pyProduct]
    rw [List.map_map]
    rw [Nat.add_comm]
    rfl

/-! ### The Forest-level convolution and addition paths -/

/-- Embeds `Forest.apply_product`: the body evaluates
`self.apply(lambda x: x.apply_product(func1, func2, apply_reduction))` and
discards the result; the method has no `return` statement, so every call
returns Python `None` (here `none`). -/
def applyProductF (f : Forest) (func1 func2 : LTree → Val) (red : Bool) : Option Val :=
  let _discarded := applyF f (fun x => applyProductT x func1 func2 red) true
  none

/-- C6: `Forest.apply_product` never returns the multiplicative extension it
computes — the body lacks a `return`, so the call evaluates to `None` for
every forest and every pair of tree functions, contradicting the claim that
a well-formed value is always returned. -/
theorem C6_forest_apply_product_returns_none :
    ∀ (f : Forest) (func1 func2 : LTree → Val) (red : Bool),
      applyProductF f func1 func2 red = none := by
  intro f func1 func2 red
  rfl

/-- C7: `Forest.__add__` with default settings returns the unreduced sum:
for the forest `(•,)` and scalar operand `0` the result keeps the
zero-coefficient term `0·(∅,)`, while `reduce()` of the same sum drops it;
the two disagree term-for-term. -/
theorem C7_forest_add_unreduced :
    forestAddScalar [some (.node [])] 0 true
        = [([some (.node [])], 1), ([none], 0)]
    ∧ reduceFS [(([some (.node [])] : Forest), (1 : ℚ)), (([none] : Forest), (0 : ℚ))]
        = [([some (.node [])], 1)]
    ∧ forestAddScalar [some (.node [])] 0 true
        ≠ reduceFS (forestAddScalar [some (.node [])] 0 true) := by
  refine ⟨rfl, by decide, by decide⟩

/-- C8 counterexample: `Forest.antipode` does not raise on the forest
`(∅,)` — the reduced canonical representation of the empty forest — but
returns the empty forest sum. -/
theorem C8_counterexample_empty_forest_antipode :
    forestAntipode [none] true ≠ none := by
  rw [show forestAntipode [none] true
    = some (antipodeFold [none] true) from by
      rw [forestAntipode, if_neg (by decide)]]
  intro h
  cases h

/-- C8 (amended): `Forest.antipode` raises exactly on the literally empty
tree tuple; every nonempty forest — including `(∅,)` — yields a value, and
that value interprets as the product of the per-tree antipodes. -/
theorem C8_forest_antipode_error_amended :
    (∀ red, forestAntipode [] red = none)
    ∧ (∀ (f : Forest) (red : Bool), f ≠ [] →
        ∃ v, forestAntipode f red = some v ∧ sem v = (f.map semS).prod)
    ∧ forestAntipode [none] true = some EMPTY_FOREST_SUM := by
  refine ⟨fun red => rfl, ?_, ?_⟩
  · intro f red hf
    match f, hf with
    | [t], _ =>
      rw [forestAntipode]
      split_ifs with h
      · have ht : sortedListRepr t = some (.node []) := of_decide_eq_true h
        have ht2 : t = some (.node []) := by
          cases t with
          | none => exact absurd ht (by decide)
          | some p =>
            cases p with
            | node cs =>
              rw [sortedListRepr] at ht
              injection ht with ht3
              rw [PTree.canon] at ht3
              injection ht3 with ht4
              have hlen : (canonL cs).length = 0 := by
                rw [← List.length_insertionSort ptLE (canonL cs), ht4]
                rfl
              rw [canonL_eq_map, List.length_map] at hlen
              rw [List.length_eq_zero.mp hlen]
        refine ⟨fsNeg SINGLETON_FOREST_SUM, rfl, ?_⟩
        rw [ht2, List.map_cons, List.map_nil, List.prod_cons, List.prod_nil, mul_one]
        exact (show semS (some (.node [])) = sem (fsNeg SINGLETON_FOREST_SUM) from by
          rw [semS, antipodeT_dot]
          rfl).symm
      · exact ⟨antipodeFold [t] red, rfl, sem_antipodeFold [t] red⟩
    | t :: u :: l, _ =>
      exact ⟨antipodeFold (t :: u :: l) red, rfl, sem_antipodeFold _ red⟩
  · rw [forestAntipode, if_neg (by decide)]
    rw [show antipodeFold [none] true = reduceFS (antipodeT none false) from rfl]
    rw [antipodeT_none]
    decide

theorem counterOf_perm {l₁ l₂ : List LTree}
    (h : List.Perm (l₁.map sortedListRepr) (l₂.map sortedListRepr)) :
    counterOf l₁ = counterOf l₂ := by
  rw [counterOf, counterOf]
  rw [Multiset.coe_eq_coe]
  have h1 : List.Perm
      ((l₁.map sortedListRepr).dedup.map
        (fun d => (d, (l₁.map sortedListRepr).count d)))
      ((l₂.map sortedListRepr).dedup.map
        (fun d => (d, (l₁.map sortedListRepr).count d))) :=
    List.Perm.map _ h.dedup
  have h2 : (l₂.map sortedListRepr).dedup.map
        (fun d => (d, (l₁.map sortedListRepr).count d))
      = (l₂.map sortedListRepr).dedup.map
        (fun d => (d, (l₂.map sortedListRepr).count d)) := by
    apply List.map_congr_left
    intro d _
    exact congrArg (fun n => (d, n)) (h.countP_eq (fun x => x == d))
  rw [h2] at h1
  exact h1

/-- C10: hashing is consistent with equality within each kind — `_equals`-
equal trees, `_equals`-equal forests and `_equals`-equal forest sums have
equal (pre-hash) keys — but cross-kind equality does not extend to hashes:
the unit tree compares equal to its one-tree forest while the two hash
through different schemes that produce different keys. -/
theorem C10_hash_consistency :
    (∀ u v : LTree, eqT u v = true → hashTree u = hashTree v)
    ∧ (∀ f g : Forest, eqF f g = true → hashForest f = hashForest g)
    ∧ (∀ s₁ s₂ : ForestSum, eqFS s₁ s₂ = true → hashForestSum s₁ = hashForestSum s₂)
    ∧ valEq (Val.t (some (.node []))) (Val.f [some (.node [])]) = true
    ∧ hashTree (some (.node [])) ≠ hashForest [some (.node [])] := by
  refine ⟨?_, ?_, ?_, by decide, by decide⟩
  · intro u v h
    rw [hashTree, hashTree, of_decide_eq_true h]
  · intro f g h
    rw [hashForest, hashForest]
    have hk : fkey f = fkey g := of_decide_eq_true h
    rw [fkey, fkey, Multiset.coe_eq_coe] at hk
    rw [counterOf_perm hk]
  · intro s₁ s₂ h
    rw [hashForestSum, hashForestSum, of_decide_eq_true h]

/-- C2 counterexample: the antipode of the unit tree is not `==`-equal to
the scalar `-1` promoted to a forest sum; it is `-•`, not `-1`. -/
theorem C2_counterexample_antipode_unit :
    valEq (Val.fs (antipodeT (some (.node [])) true)) (Val.s (-1)) = false := by
  have h : antipodeT (some (.node [])) true
      = [(([some (.node [])] : Forest), (-1 : ℚ))] := by
    rw [antipodeT_dot]
    show [(([some (.node [])] : Forest), (1 : ℚ) * -1)] = _
    norm_num
  rw [h]
  decide

/-- C2 (amended): the antipode recursion.  `S(∅)` is the coefficient-1
empty-forest sum; `S(•)` is `-•` (not `-1`); for a tree with at least two
nodes `S(t) = -t - Σ S(removedᵢ)·keptᵢ` over the cut pairs, where a pair is
excluded exactly when its removed part is empty of nodes (the no-cut pair,
whose kept part is isomorphic to `t`) or its kept part is the void tree (the
full-cut pair), and each excluded kind is realized by exactly one pair. -/
theorem C2_antipode_recursion_amended :
    (antipodeT none true = EMPTY_FOREST_SUM)
    ∧ (antipodeT (some (.node [])) true = [(([some (.node [])] : Forest), (-1 : ℚ))])
    ∧ (eqFS (antipodeT (some (.node [])) true)
        (fsNeg (asForestSum (some (.node [])))) = true)
    ∧ (∀ (c : PTree) (cs : List PTree),
        sem (antipodeT (some (.node (c :: cs))) true)
          = -(semT (some (.node (c :: cs))))
            - (((splitPairs (some (.node (c :: cs)))).filter
                (fun p => !(eqT p.1 (some (.node (c :: cs))) || eqT p.1 none))).map
                (fun p => ((p.2.map (fun s => sem (antipodeT s true))).prod)
                  * semT p.1)).sum)
    ∧ (∀ (c : PTree) (cs : List PTree),
        ∀ p ∈ splitPairs (some (.node (c :: cs))),
          ((eqT p.1 (some (.node (c :: cs))) || eqT p.1 none) = true
            ↔ (nodesForest p.2 = 0 ∨ p.1 = none)))
    ∧ (∀ (c : PTree) (cs : List PTree),
        ∃ r₀, (splitPairs (some (.node (c :: cs)))).filter
            (fun p => decide (nodesForest p.2 = 0))
          = [(some (.node (c :: cs)), r₀)])
    ∧ (∀ (c : PTree) (cs : List PTree),
        (splitPairs (some (.node (c :: cs)))).filter
            (fun p => decide (p.1 = none))
          = [(none, [some (.node (c :: cs))])]) := by
  refine ⟨antipodeT_none true, ?_, ?_, ?_, ?_, ?_, ?_⟩
  · rw [antipodeT_dot]
    show [(([some (.node [])] : Forest), (1 : ℚ) * -1)] = _
    norm_num
  · have h : antipodeT (some (.node [])) true
        = [(([some (.node [])] : Forest), (-1 : ℚ))] := by
      rw [antipodeT_dot]
      show [(([some (.node [])] : Forest), (1 : ℚ) * -1)] = _
      norm_num
    rw [h]
    rw [show fsNeg (asForestSum (some (.node [])))
      = [(([some (.node [])] : Forest), (1 : ℚ) * -1)] from rfl]
    rw [show (1 : ℚ) * -1 = -1 from by norm_num]
    decide
  · exact fun c cs => semS_node c cs
  · intro c cs p hp
    constructor
    · intro h
      rcases Bool.or_eq_true_iff.mp h with h1 | h1
      · left
        have hn := eqT_nodes h1
        have hcons := splitPairs_conserve (some (.node (c :: cs))) p hp
        omega
      · right
        exact treeNodes_eq_zero.mp ((eqT_nodes h1).trans rfl)
    · intro h
      rcases h with h1 | h1
      · obtain ⟨r₀, hz, _⟩ := splitPairs_zero (PTree.node (c :: cs))
        have hpz : p ∈ (splitPairs (some (.node (c :: cs)))).filter
            (fun q => decide (nodesForest q.2 = 0)) :=
          List.mem_filter.mpr ⟨hp, decide_eq_true h1⟩
        rw [hz] at hpz
        rcases List.mem_singleton.mp hpz with h2
        rw [h2]
        rw [eqT_refl]
        rfl
      · rw [h1, eqT_refl]
        simp
  · intro c cs
    obtain ⟨r₀, hz, _⟩ := splitPairs_zero (PTree.node (c :: cs))
    exact ⟨r₀, hz⟩
  · intro c cs
    have hnil : ((pyProduct ((c :: cs).map (fun d => splitPairs (some d)))).map
        (fun combo => ((bplus (combo.map Prod.fst) : LTree),
          (combo.map Prod.snd).flatten))).filter
        (fun p => decide (p.1 = none)) = [] := by
      rw [List.filter_eq_nil_iff]
      intro p hp
      obtain ⟨combo, _, rfl⟩ := List.mem_map.mp hp
      simp [bplus]
    rw [splitPairs_node, List.filter_cons, if_pos (by simp), hnil]

/-- C4: `Tree.apply_power` satisfies its recursion: the 0-th power is the
counit (a forest sum `==`-equal to `1` on the void tree and to `0` on every
other tree), the first power is `func(t)`, a negative power applies the
`(-n)`-th power to the antipode as a multiplicative linear map, and a higher
power convolves `func` with the `(n-1)`-st power. -/
theorem C4_apply_power_recursion :
    (∀ (f : LTree → Val) (t : LTree) (red : Bool),
        applyPowerT f 0 t red = Val.fs (counit t))
    ∧ valEq (Val.fs (counit none)) (Val.s 1) = true
    ∧ (∀ q : PTree, valEq (Val.fs (counit (some q))) (Val.s 0) = true)
    ∧ (∀ (f : LTree → Val) (t : LTree) (red : Bool), applyPowerT f 1 t red = f t)
    ∧ (∀ (f : LTree → Val) (n : ℤ) (t : LTree) (red : Bool), n < 0 →
        applyPowerT f n t red
          = (let res := applyFS (antipodeT t true)
              (fun x => applyPowerT f (-n) x false) true;
             if red && !(res.isScalar || res.isTreeVal) then reduceVal res else res))
    ∧ (∀ (f : LTree → Val) (n : ℤ) (t : LTree) (red : Bool), 1 < n →
        applyPowerT f n t red
          = (let res := applyProductT t f
              (fun x => applyPowerT f (n - 1) x false) false;
             if red && !(res.isScalar || res.isTreeVal) then reduceVal res else res)) := by
  refine ⟨?_, by decide, ?_, ?_, ?_, ?_⟩
  · intro f t red
    rw [applyPowerT, if_pos rfl]
  · intro q
    show valEq (Val.fs ZERO_FOREST_SUM) (Val.s 0) = true
    decide
  · intro f t red
    rw [applyPowerT, if_neg (by decide), if_pos rfl]
  · intro f n t red h
    rw [applyPowerT, if_neg (by omega), if_neg (by omega)]
    rw [show (if n < 0 then applyFS (antipodeT t true)
          (fun x => applyPowerT f (-n) x false) true
        else applyProductT t f (fun x => applyPowerT f (n - 1) x false) false)
      = applyFS (antipodeT t true) (fun x => applyPowerT f (-n) x false) true
      from if_pos h]
  · intro f n t red h
    rw [applyPowerT, if_neg (by omega), if_neg (by omega)]
    rw [show (if n < 0 then applyFS (antipodeT t true)
          (fun x => applyPowerT f (-n) x false) true
        else applyProductT t f (fun x => applyPowerT f (n - 1) x false) false)
      = applyProductT t f (fun x => applyPowerT f (n - 1) x false) false
      from if_neg (by omega)]

/-- Closed instance of the hypothesis-bearing parts of
`C4_apply_power_recursion` at `n = -2` and `n = 2`. -/
theorem C4_apply_power_recursion_witness :
    ((-2 : ℤ) < 0
      ∧ applyPowerT (fun x => Val.t x) (-2) none true
          = (let res := applyFS (antipodeT none true)
              (fun x => applyPowerT (fun x => Val.t x) (-(-2)) x false) true;
             if true && !(res.isScalar || res.isTreeVal) then reduceVal res else res))
    ∧ ((1 : ℤ) < 2
      ∧ applyPowerT (fun x => Val.t x) 2 none true
          = (let res := applyProductT none (fun x => Val.t x)
              (fun x => applyPowerT (fun x => Val.t x) (2 - 1) x false) false;
             if true && !(res.isScalar || res.isTreeVal) then reduceVal res else res)) :=
  ⟨⟨by decide,
    C4_apply_power_recursion.2.2.2.2.1 (fun x => Val.t x) (-2) none true (by decide)⟩,
   ⟨by decide,
    C4_apply_power_recursion.2.2.2.2.2 (fun x => Val.t x) 2 none true (by decide)⟩⟩

/-! ### Integrality of the tree counting functions -/

theorem nodesL_eq_map_sum (l : List PTree) : nodesL l = (l.map PTree.nodes).sum := by
  induction l with
  | nil => rfl
  | cons c cs ih => rw [nodesL, ih, List.map_cons, List.sum_cons]

theorem dedup_prod_eq_finset (l : List PTree) (f : PTree → ℕ) :
    (l.dedup.map f).prod = ∏ x ∈ l.toFinset, f x := by
  rw [List.toFinset]
  rfl

/-- The grouped multinomial divisibility: for a list of trees with positive
weights, the product of the per-element weight factorials times the product
of the per-class multiplicity factorials divides the factorial of the total
weight. -/
theorem grouped_factorial_dvd (L : List PTree) (w : PTree → ℕ)
    (hw : ∀ d ∈ L, w d ≠ 0) :
    (L.map (fun d => Nat.factorial (w d))).prod
        * (L.dedup.map (fun d => Nat.factorial (L.count d))).prod
      ∣ Nat.factorial ((L.map w).sum) := by
  have hA : (L.map (fun d => Nat.factorial (w d))).prod
      = ∏ d ∈ L.toFinset, (Nat.factorial (w d)) ^ (L.count d) := by
    rw [show (L.map (fun d => Nat.factorial (w d))).prod
      = ((L : Multiset PTree).map (fun d => Nat.factorial (w d))).prod from rfl]
    rw [Finset.prod_multiset_map_count]
    apply Finset.prod_congr rfl
    intro d _
    rw [Multiset.coe_count]
  have hB : (L.dedup.map (fun d => Nat.factorial (L.count d))).prod
      = ∏ d ∈ L.toFinset, Nat.factorial (L.count d) :=
    dedup_prod_eq_finset L _
  have hC : (L.map w).sum = ∑ d ∈ L.toFinset, L.count d * w d := by
    rw [show (L.map w).sum = ((L : Multiset PTree).map w).sum from rfl]
    rw [Finset.sum_multiset_map_count]
    apply Finset.sum_congr rfl
    intro d _
    rw [smul_eq_mul, Multiset.coe_count]
  rw [hA, hB, hC, ← Finset.prod_mul_distrib]
  have hstep : ∀ d ∈ L.toFinset,
      (Nat.factorial (w d)) ^ (L.count d) * Nat.factorial (L.count d)
        ∣ Nat.factorial (L.count d * w d) := by
    intro d hd
    have hwd : w d ≠ 0 := hw d (List.mem_toFinset.mp hd)
    have := Nat.uniformBell_mul_eq (L.count d) hwd
    exact ⟨(L.count d).uniformBell (w d), by rw [← this]; ring⟩
  calc (∏ d ∈ L.toFinset, (Nat.factorial (w d)) ^ (L.count d)
          * Nat.factorial (L.count d))
      ∣ ∏ d ∈ L.toFinset, Nat.factorial (L.count d * w d) :=
        Finset.prod_dvd_prod_of_dvd _ _ hstep
    _ ∣ Nat.factorial (∑ d ∈ L.toFinset, L.count d * w d) :=
        Nat.prod_factorial_dvd_factorial_sum _ _

theorem multFactor_pos (l : List PTree) : 0 < multFactor l := by
  apply List.prod_pos
  intro x hx
  obtain ⟨d, _, rfl⟩ := List.mem_map.mp hx
  exact Nat.factorial_pos _

theorem sigma_pos : ∀ p : PTree, 0 < p.sigma := by
  intro p
  induction p using PTree.ind with
  | h cs ih =>
    rw [PTree.sigma]
    apply Nat.mul_pos (multFactor_pos _)
    have hl : ∀ l : List PTree, (∀ c ∈ l, 0 < c.sigma) → 0 < sigmaL l := by
      intro l
      induction l with
      | nil => intro _; exact Nat.one_pos
      | cons c l ih2 =>
        intro h
        rw [sigmaL]
        exact Nat.mul_pos (h c (List.mem_cons_self _ _))
          (ih2 (fun c' hc' => h c' (List.mem_cons_of_mem _ hc')))
    exact hl cs ih

theorem factorial_tree_pos : ∀ p : PTree, 0 < p.factorial := by
  intro p
  induction p using PTree.ind with
  | h cs ih =>
    rw [PTree.factorial]
    apply Nat.mul_pos (PTree.nodes_pos _)
    have hl : ∀ l : List PTree, (∀ c ∈ l, 0 < c.factorial) → 0 < factorialL l := by
      intro l
      induction l with
      | nil => intro _; exact Nat.one_pos
      | cons c l ih2 =>
        intro h
        rw [factorialL]
        exact Nat.mul_pos (h c (List.mem_cons_self _ _))
          (ih2 (fun c' hc' => h c' (List.mem_cons_of_mem _ hc')))
    exact hl cs ih

theorem factL_sigmaL_dvd :
    ∀ cs : List PTree, (∀ c ∈ cs, c.factorial * c.sigma ∣ Nat.factorial c.nodes) →
      factorialL cs * sigmaL cs ∣ (cs.map (fun c => Nat.factorial c.nodes)).prod := by
  intro cs
  induction cs with
  | nil => intro _; exact dvd_refl 1
  | cons c cs ih =>
    intro h
    rw [factorialL, sigmaL, List.map_cons, List.prod_cons]
    rw [show PTree.factorial c * factorialL cs * (PTree.sigma c * sigmaL cs)
      = (c.factorial * c.sigma) * (factorialL cs * sigmaL cs) from by ring]
    exact mul_dvd_mul (h c (List.mem_cons_self _ _))
      (ih (fun c' hc' => h c' (List.mem_cons_of_mem _ hc')))

/-- The key divisibility: `t! · σ(t)` divides `nodes(t)!` for every tree. -/
theorem factorial_sigma_dvd : ∀ p : PTree, p.factorial * p.sigma ∣ Nat.factorial p.nodes := by
  intro p
  induction p using PTree.ind with
  | h cs ih =>
    rw [PTree.factorial, PTree.sigma, PTree.nodes]
    have h1 : factorialL cs * sigmaL cs ∣ (cs.map (fun c => Nat.factorial c.nodes)).prod :=
      factL_sigmaL_dvd cs ih
    have hmapeq : (cs.map (fun c => Nat.factorial c.nodes)).prod
        = ((canonL cs).map (fun c => Nat.factorial c.nodes)).prod := by
      rw [canonL_eq_map, List.map_map]
      apply congrArg List.prod
      apply List.map_congr_left
      intro c _
      rw [Function.comp]
      rw [canon_nodes]
    have h2 : ((canonL cs).map (fun c => Nat.factorial c.nodes)).prod
          * multFactor (canonL cs)
        ∣ Nat.factorial (((canonL cs).map PTree.nodes).sum) :=
      grouped_factorial_dvd (canonL cs) PTree.nodes
        (fun d _ => (PTree.nodes_pos d).ne')
    have hsum : ((canonL cs).map PTree.nodes).sum = nodesL cs := by
      rw [canonL_eq_map, List.map_map]
      rw [show cs.map (PTree.nodes ∘ PTree.canon) = cs.map PTree.nodes from
        List.map_congr_left (fun c _ => by rw [Function.comp]; rw [canon_nodes])]
      rw [nodesL_eq_map_sum]
    rw [hsum] at h2
    have h3 : factorialL cs * sigmaL cs * multFactor (canonL cs)
        ∣ Nat.factorial (nodesL cs) := by
      calc factorialL cs * sigmaL cs * multFactor (canonL cs)
          ∣ (cs.map (fun c => Nat.factorial c.nodes)).prod * multFactor (canonL cs) :=
            mul_dvd_mul_right h1 _
        _ = ((canonL cs).map (fun c => Nat.factorial c.nodes)).prod
              * multFactor (canonL cs) := by rw [hmapeq]
        _ ∣ Nat.factorial (nodesL cs) := h2
    rw [show (1 + nodesL cs) * factorialL cs * (multFactor (canonL cs) * sigmaL cs)
      = (1 + nodesL cs) * (factorialL cs * sigmaL cs * multFactor (canonL cs)) from
      by ring]
    rw [show Nat.factorial (1 + nodesL cs)
      = (1 + nodesL cs) * Nat.factorial (nodesL cs) from by
      rw [Nat.add_comm, Nat.factorial_succ]]
    exact mul_dvd_mul_left _ h3

/-- C9: `beta(t) = nodes(t)!/σ(t)` and `alpha(t) = nodes(t)!/(t!·σ(t))`, the
divisions are exact (`σ(t)` and `t!·σ(t)` divide `nodes(t)!`), and both
values are integers. -/
theorem C9_alpha_beta_integrality :
    ∀ p : PTree,
      beta p = (Nat.factorial p.nodes : ℚ) / (p.sigma : ℚ)
      ∧ alpha p = (Nat.factorial p.nodes : ℚ) / ((p.factorial : ℚ) * (p.sigma : ℚ))
      ∧ p.sigma ∣ Nat.factorial p.nodes
      ∧ p.factorial * p.sigma ∣ Nat.factorial p.nodes
      ∧ (∃ b : ℕ, beta p = (b : ℚ))
      ∧ (∃ a : ℕ, alpha p = (a : ℚ)) := by
  intro p
  have hσ : (p.sigma : ℚ) ≠ 0 := Nat.cast_ne_zero.mpr (sigma_pos p).ne'
  have hfac : (p.factorial : ℚ) ≠ 0 := Nat.cast_ne_zero.mpr (factorial_tree_pos p).ne'
  have hdvd2 : p.factorial * p.sigma ∣ Nat.factorial p.nodes := factorial_sigma_dvd p
  have hdvd1 : p.sigma ∣ Nat.factorial p.nodes :=
    dvd_trans (Dvd.intro_left _ rfl) hdvd2
  have halpha : alpha p = (Nat.factorial p.nodes : ℚ) / ((p.factorial : ℚ) * (p.sigma : ℚ)) := by
    rw [alpha, beta, div_div, mul_comm]
  refine ⟨rfl, halpha, hdvd1, hdvd2, ?_, ?_⟩
  · refine ⟨Nat.factorial p.nodes / p.sigma, ?_⟩
    rw [beta, div_eq_iff hσ]
    exact_mod_cast (Nat.div_mul_cancel hdvd1).symm
  · refine ⟨Nat.factorial p.nodes / (p.factorial * p.sigma), ?_⟩
    rw [halpha, div_eq_iff (mul_ne_zero hfac hσ)]
    rw [show ((p.factorial : ℚ)) * (p.sigma : ℚ) = ((p.factorial * p.sigma : ℕ) : ℚ) from by
      push_cast
      ring]
    exact_mod_cast (Nat.div_mul_cancel hdvd2).symm

/-! ### Isomorphism invariance of the coproduct -/

theorem sort_eq_of_perm {l₁ l₂ : List PTree} (h : l₁.Perm l₂) :
    List.insertionSort ptLE l₁ = List.insertionSort ptLE l₂ :=
  List.eq_of_perm_of_sorted
    ((List.perm_insertionSort ptLE l₁).trans
      (h.trans (List.perm_insertionSort ptLE l₂).symm))
    (List.sorted_insertionSort ptLE l₁) (List.sorted_insertionSort ptLE l₂)

theorem bplus_srl_congr {K K' : Forest}
    (h : (↑(K.map sortedListRepr) : Multiset LTree) = ↑(K'.map sortedListRepr)) :
    sortedListRepr (bplus K) = sortedListRepr (bplus K') := by
  have hperm : (K.map sortedListRepr).Perm (K'.map sortedListRepr) :=
    Multiset.coe_eq_coe.mp h
  have h2 : (canonL (K.filterMap id)).Perm (canonL (K'.filterMap id)) := by
    rw [canonL_eq_map, canonL_eq_map, ← filterMap_map_sorted, ← filterMap_map_sorted]
    exact hperm.filterMap id
  rw [show sortedListRepr (bplus K)
    = some (PTree.canon (.node (K.filterMap id))) from rfl]
  rw [show sortedListRepr (bplus K')
    = some (PTree.canon (.node (K'.filterMap id))) from rfl]
  rw [PTree.canon, PTree.canon, sort_eq_of_perm h2]

/-- A multiset-level transport: a function constant on the fibers of a key
is permutation-matched along any key-level matching of two lists. -/
theorem perm_map_of_key {α β γ : Type} (key : α → β) (f : α → γ)
    (hf : ∀ a a', key a = key a' → f a = f a') :
    ∀ (A B : List α), (A.map key).Perm (B.map key) → (A.map f).Perm (B.map f) := by
  intro A
  induction A with
  | nil =>
    intro B h
    have : B.map key = [] := List.Perm.symm h |>.eq_nil
    rw [List.map_eq_nil_iff.mp this]
  | cons a A' ih =>
    intro B h
    have hmem : key a ∈ B.map key := h.mem_iff.mp (List.mem_cons_self _ _)
    obtain ⟨b, hbB, hkey⟩ := List.mem_map.mp hmem
    obtain ⟨B₁, B₂, rfl⟩ := List.append_of_mem hbB
    have hperm2 : (A'.map key).Perm ((B₁ ++ B₂).map key) := by
      have hmid : ((B₁ ++ b :: B₂).map key).Perm (key b :: (B₁ ++ B₂).map key) := by
        rw [List.map_append, List.map_cons, List.map_append]
        exact List.perm_middle
      have := h.trans hmid
      rw [hkey] at this
      exact this.cons_inv
    have hfin := ih (B₁ ++ B₂) hperm2
    rw [List.map_cons]
    have hfa : f a = f b := hf a b hkey.symm
    rw [hfa]
    refine List.Perm.trans (hfin.cons (f b)) ?_
    have hsplit : List.map f (B₁ ++ b :: B₂) = List.map f B₁ ++ f b :: List.map f B₂ := by
      rw [List.map_append, List.map_cons]
    rw [hsplit, List.map_append]
    exact List.perm_middle.symm

/-- The isomorphism key of a cut pair: the canonical form of the kept part
together with the multiset of canonical forms of the removed trees. -/
def cutKey (p : LTree × Forest) : LTree × Multiset LTree :=
  (sortedListRepr p.1, Multiset.ofList (p.2.map sortedListRepr))

/-- The isomorphism key of a pick-one combination of child cuts. -/
def comboKey (cb : List (LTree × Forest)) : Multiset (LTree × Multiset LTree) :=
  Multiset.ofList (cb.map cutKey)

theorem coe_flatten {α : Type} (L : List (List α)) :
    Multiset.ofList (L.flatten) = (L.map Multiset.ofList).sum := by
  induction L with
  | nil => rfl
  | cons l L ih =>
    rw [List.flatten, List.map_cons, List.sum_cons, ← ih]
    rfl

/-- Two combinations with the same combination key produce cut pairs with
the same cut key. -/
theorem cutKey_of_comboKey {cb cb' : List (LTree × Forest)}
    (h : comboKey cb = comboKey cb') :
    cutKey (bplus (cb.map Prod.fst), (cb.map Prod.snd).flatten)
      = cutKey (bplus (cb'.map Prod.fst), (cb'.map Prod.snd).flatten) := by
  have hp : (cb.map cutKey).Perm (cb'.map cutKey) := Multiset.coe_eq_coe.mp h
  have hfst : ((cb.map Prod.fst).map sortedListRepr).Perm
      ((cb'.map Prod.fst).map sortedListRepr) := by
    have h1 := hp.map Prod.fst
    rw [List.map_map, List.map_map] at h1
    rw [List.map_map, List.map_map]
    exact h1
  have hsnd : ∀ db : List (LTree × Forest),
      Multiset.ofList (((db.map Prod.snd).flatten).map sortedListRepr)
        = (Multiset.map Prod.snd (comboKey db)).sum := by
    intro db
    rw [show ((db.map Prod.snd).flatten).map sortedListRepr
      = ((db.map Prod.snd).map (List.map sortedListRepr)).flatten from
      (List.map_flatten _ _)]
    rw [coe_flatten, List.map_map]
    rw [show Multiset.map Prod.snd (comboKey db)
      = Multiset.ofList ((db.map cutKey).map Prod.snd) from
      Multiset.map_coe Prod.snd (db.map cutKey)]
    rw [Multiset.sum_coe, List.map_map, List.map_map]
    rfl
  rw [cutKey, cutKey]
  refine congrArg₂ Prod.mk ?_ ?_
  · exact bplus_srl_congr (Multiset.coe_eq_coe.mpr hfst)
  · show Multiset.ofList (((cb.map Prod.snd).flatten).map sortedListRepr)
      = Multiset.ofList (((cb'.map Prod.snd).flatten).map sortedListRepr)
    rw [hsnd cb, hsnd cb', h]

theorem comboKeys_cons (a : List (LTree × Forest)) (ls : List (List (LTree × Forest))) :
    Multiset.ofList ((pyProduct (a :: ls)).map comboKey)
      = (Multiset.ofList (a.map cutKey)).bind
          (fun k => (Multiset.ofList ((pyProduct ls).map comboKey)).map
            (fun m => k ::ₘ m)) := by
  rw [show pyProduct (a :: ls)
    = a.flatMap (fun x => (pyProduct ls).map (fun c => x :: c)) from rfl]
  rw [List.map_flatMap]
  rw [show (fun x => (((pyProduct ls).map (fun c => x :: c)).map comboKey))
    = (fun x => ((pyProduct ls).map (fun cb => cutKey x ::ₘ comboKey cb))) from by
    funext x
    rw [List.map_map]
    rfl]
  rw [← Multiset.coe_bind]
  rw [show (fun x => (↑((pyProduct ls).map (fun cb => cutKey x ::ₘ comboKey cb))
        : Multiset (Multiset (LTree × Multiset LTree))))
    = (fun x => (Multiset.ofList ((pyProduct ls).map comboKey)).map
        (fun m => cutKey x ::ₘ m)) from by
    funext x
    rw [show (Multiset.ofList ((pyProduct ls).map comboKey))
      = Multiset.map comboKey (Multiset.ofList (pyProduct ls)) from
      (Multiset.map_coe comboKey (pyProduct ls)).symm]
    rw [Multiset.map_map]
    rw [Multiset.map_coe]
    rfl]
  rw [show Multiset.ofList (a.map cutKey)
    = Multiset.map cutKey (Multiset.ofList a) from (Multiset.map_coe cutKey a).symm]
  rw [Multiset.bind_map]

theorem comboKeys_congr :
    ∀ {ls ms : List (List (LTree × Forest))},
      List.Forall₂ (fun a a' => Multiset.ofList (a.map cutKey)
        = Multiset.ofList (a'.map cutKey)) ls ms →
      Multiset.ofList ((pyProduct ls).map comboKey)
        = Multiset.ofList ((pyProduct ms).map comboKey) := by
  intro ls ms h
  induction h with
  | nil => rfl
  | @cons a a' ls' ms' ha _ ih =>
    rw [comboKeys_cons, comboKeys_cons, ha, ih]

theorem bind_cons_swap (s t : Multiset (LTree × Multiset LTree))
    (M : Multiset (Multiset (LTree × Multiset LTree))) :
    s.bind (fun k => (t.bind (fun k' => M.map (fun m => k' ::ₘ m))).map
        (fun m => k ::ₘ m))
      = t.bind (fun k' => (s.bind (fun k => M.map (fun m => k ::ₘ m))).map
          (fun m => k' ::ₘ m)) := by
  have hL : (fun k => (t.bind (fun k' => M.map (fun m => k' ::ₘ m))).map
        (fun m => k ::ₘ m))
      = (fun k => t.bind (fun k' => M.map (fun m => k ::ₘ k' ::ₘ m))) := by
    funext k
    rw [Multiset.map_bind]
    exact congrArg (Multiset.bind t) (funext fun k' => by
      rw [Multiset.map_map]
      rfl)
  have hR : (fun k' => (s.bind (fun k => M.map (fun m => k ::ₘ m))).map
        (fun m => k' ::ₘ m))
      = (fun k' => s.bind (fun k => M.map (fun m => k' ::ₘ k ::ₘ m))) := by
    funext k'
    rw [Multiset.map_bind]
    exact congrArg (Multiset.bind s) (funext fun k => by
      rw [Multiset.map_map]
      rfl)
  rw [hL, hR, Multiset.bind_bind]
  exact congrArg (Multiset.bind t) (funext fun k' =>
    congrArg (Multiset.bind s) (funext fun k =>
      congrArg (fun f => Multiset.map f M)
        (funext fun m => Multiset.cons_swap k k' m)))

theorem comboKeys_perm :
    ∀ {ls ms : List (List (LTree × Forest))}, ls.Perm ms →
      Multiset.ofList ((pyProduct ls).map comboKey)
        = Multiset.ofList ((pyProduct ms).map comboKey) := by
  intro ls ms h
  induction h with
  | nil => rfl
  | @cons x l₁ l₂ _ ih => rw [comboKeys_cons, comboKeys_cons, ih]
  | @swap a b l =>
    rw [comboKeys_cons, comboKeys_cons, comboKeys_cons, comboKeys_cons]
    exact bind_cons_swap _ _ _
  | @trans l₁ l₂ l₃ _ _ ih1 ih2 => rw [ih1, ih2]

theorem nodes_le_nodesL : ∀ {cs : List PTree} {d : PTree}, d ∈ cs → d.nodes ≤ nodesL cs := by
  intro cs
  induction cs with
  | nil => intro d h; cases h
  | cons c cs ih =>
    intro d h
    rw [nodesL]
    rcases List.mem_cons.mp h with rfl | h2
    · omega
    · have := ih h2
      omega

/-- Isomorphism naturality of the coproduct: the multiset of cut keys of a
tree equals that of its canonical form. -/
theorem splitKeys_canon : ∀ p : PTree,
    Multiset.ofList ((splitPairs (some p)).map cutKey)
      = Multiset.ofList ((splitPairs (some p.canon)).map cutKey) := by
  have main : ∀ n : ℕ, ∀ p : PTree, p.nodes ≤ n →
      Multiset.ofList ((splitPairs (some p)).map cutKey)
        = Multiset.ofList ((splitPairs (some p.canon)).map cutKey) := by
    intro n
    induction n with
    | zero =>
      intro p hp
      have := PTree.nodes_pos p
      omega
    | succ n ihn =>
      intro p hp
      match p with
      | .node [] => rfl
      | .node (c :: cs) =>
        have hlen : (List.insertionSort ptLE (canonL (c :: cs))).length
            = cs.length + 1 := by
          rw [List.length_insertionSort, canonL_eq_map, List.length_map,
            List.length_cons]
        have hne : List.insertionSort ptLE (canonL (c :: cs)) ≠ [] := by
          intro hcontra
          rw [hcontra] at hlen
          exact absurd hlen (by simp)
        obtain ⟨c', cs', hl'⟩ := List.exists_cons_of_ne_nil hne
        have hcanon : (PTree.node (c :: cs)).canon = .node (c' :: cs') := by
          rw [PTree.canon, hl']
        rw [hcanon, splitPairs_node c cs, splitPairs_node c' cs']
        refine Multiset.coe_eq_coe.mpr ?_
        have hhead : cutKey (none, [some (PTree.node (c :: cs))])
            = cutKey (none, [some (PTree.node (c' :: cs'))]) := by
          rw [cutKey, cutKey]
          refine congrArg₂ Prod.mk rfl ?_
          rw [show ([some (PTree.node (c :: cs))] : Forest).map sortedListRepr
            = [some (PTree.node (c :: cs)).canon] from rfl]
          rw [show ([some (PTree.node (c' :: cs'))] : Forest).map sortedListRepr
            = [some (PTree.node (c' :: cs')).canon] from rfl]
          rw [show (PTree.node (c' :: cs')) = (PTree.node (c :: cs)).canon from
            hcanon.symm]
          rw [canon_idem]
        have hkeys : Multiset.ofList
            ((pyProduct ((c :: cs).map (fun d => splitPairs (some d)))).map comboKey)
          = Multiset.ofList
            ((pyProduct ((c' :: cs').map (fun d => splitPairs (some d)))).map
              comboKey) := by
          have step1 : Multiset.ofList
              ((pyProduct ((c :: cs).map (fun d => splitPairs (some d)))).map comboKey)
            = Multiset.ofList
              ((pyProduct ((canonL (c :: cs)).map
                (fun d => splitPairs (some d)))).map comboKey) := by
            apply comboKeys_congr
            rw [canonL_eq_map, List.map_map]
            apply forall₂_map_same (c :: cs) (fun d => splitPairs (some d))
              ((fun d => splitPairs (some d)) ∘ PTree.canon)
            intro d hd
            have hdn : d.nodes ≤ n := by
              have h1 := nodes_le_nodesL hd
              have h2 : (PTree.node (c :: cs)).nodes = 1 + nodesL (c :: cs) := rfl
              omega
            exact ihn d hdn
          have step2 : Multiset.ofList
              ((pyProduct ((canonL (c :: cs)).map
                (fun d => splitPairs (some d)))).map comboKey)
            = Multiset.ofList
              ((pyProduct ((c' :: cs').map (fun d => splitPairs (some d)))).map
                comboKey) := by
            apply comboKeys_perm
            rw [← hl']
            exact ((List.perm_insertionSort ptLE (canonL (c :: cs))).symm).map _
          exact step1.trans step2
        have hcombos : (List.map cutKey
              ((pyProduct ((c :: cs).map (fun d => splitPairs (some d)))).map
                (fun combo => (bplus (combo.map Prod.fst),
                  (combo.map Prod.snd).flatten)))).Perm
            (List.map cutKey
              ((pyProduct ((c' :: cs').map (fun d => splitPairs (some d)))).map
                (fun combo => (bplus (combo.map Prod.fst),
                  (combo.map Prod.snd).flatten)))) := by
          rw [List.map_map, List.map_map]
          exact perm_map_of_key comboKey
            (cutKey ∘ (fun combo => ((bplus (combo.map Prod.fst) : LTree),
              (combo.map Prod.snd).flatten)))
            (fun cb cb' hk => cutKey_of_comboKey hk) _ _
            (Multiset.coe_eq_coe.mp hkeys)
        show (cutKey (none, [some (PTree.node (c :: cs))]) :: List.map cutKey
              ((pyProduct ((c :: cs).map (fun d => splitPairs (some d)))).map
                (fun combo => (bplus (combo.map Prod.fst),
                  (combo.map Prod.snd).flatten)))).Perm
            (cutKey (none, [some (PTree.node (c' :: cs'))]) :: List.map cutKey
              ((pyProduct ((c' :: cs').map (fun d => splitPairs (some d)))).map
                (fun combo => (bplus (combo.map Prod.fst),
                  (combo.map Prod.snd).flatten))))
        rw [hhead]
        exact hcombos.cons _
  intro p
  exact main p.nodes p (le_refl _)

/-- The survival predicate of the antipode's reduced-coproduct sum, expressed
on isomorphism keys. -/
def predK (r : LTree) (k : LTree × Multiset LTree) : Bool :=
  !(decide (k.1 = r) || decide (k.1 = none))

/-- The summand of the antipode recursion, expressed on isomorphism keys. -/
noncomputable def termK (k : LTree × Multiset LTree) : SemR :=
  (Multiset.map semS k.2).prod * semT k.1

theorem term_eq_termK {n : ℕ}
    (ih : ∀ d : PTree, d.nodes ≤ n → semS (some d) = semS (some d.canon)) :
    ∀ p : LTree × Forest, (∀ s ∈ p.2, treeNodes s ≤ n) →
    (p.2.map semS).prod * semT p.1 = termK (cutKey p) := by
  intro p hsmall
  obtain ⟨p1, p2⟩ := p
  have hrfl : termK (cutKey (p1, p2))
      = (Multiset.map semS (Multiset.ofList (p2.map sortedListRepr))).prod
        * semT (sortedListRepr p1) := rfl
  rw [hrfl, Multiset.map_coe, Multiset.prod_coe, List.map_map]
  refine congrArg₂ HMul.hMul ?_ ?_
  · apply congrArg List.prod
    apply List.map_congr_left
    intro s hs
    cases s with
    | none => rfl
    | some u =>
      have hb := hsmall (some u) hs
      show semS (some u) = semS (some u.canon)
      exact ih u (by simpa [treeNodes] using hb)
  · cases p1 with
    | none => rfl
    | some u =>
      show AddMonoidAlgebra.single ({u.canon} : Multiset PTree) (1:ℚ)
        = AddMonoidAlgebra.single ({u.canon.canon} : Multiset PTree) (1:ℚ)
      rw [canon_idem]

/-- The antipode's interpretation depends only on the isomorphism class of
a tree: a tree and its canonical form have the same antipode semantics. -/
theorem semS_srl : ∀ p : PTree, semS (some p) = semS (some p.canon) := by
  have main : ∀ n : ℕ, ∀ p : PTree, p.nodes ≤ n →
      semS (some p) = semS (some p.canon) := by
    intro n
    induction n with
    | zero =>
      intro p hp
      have := PTree.nodes_pos p
      omega
    | succ n ihn =>
      intro p hp
      match p with
      | .node [] => rfl
      | .node (c :: cs) =>
        have hlen : (List.insertionSort ptLE (canonL (c :: cs))).length
            = cs.length + 1 := by
          rw [List.length_insertionSort, canonL_eq_map, List.length_map,
            List.length_cons]
        have hne : List.insertionSort ptLE (canonL (c :: cs)) ≠ [] := by
          intro hcontra
          rw [hcontra] at hlen
          exact absurd hlen (by simp)
        obtain ⟨c', cs', hl'⟩ := List.exists_cons_of_ne_nil hne
        have hcanon : (PTree.node (c :: cs)).canon = .node (c' :: cs') := by
          rw [PTree.canon, hl']
        have hnodes' : (PTree.node (c' :: cs')).nodes
            = (PTree.node (c :: cs)).nodes := by
          rw [← hcanon, canon_nodes]
        rw [hcanon, semS_node c cs, semS_node c' cs']
        have hsemT : semT (some (PTree.node (c :: cs)))
            = semT (some (PTree.node (c' :: cs'))) := by
          show AddMonoidAlgebra.single ({(PTree.node (c :: cs)).canon} : Multiset PTree) (1:ℚ)
            = AddMonoidAlgebra.single ({(PTree.node (c' :: cs')).canon} : Multiset PTree) (1:ℚ)
          rw [show PTree.node (c' :: cs') = (PTree.node (c :: cs)).canon from
            hcanon.symm, canon_idem]
        rw [hsemT]
        congr 1
        have hr : sortedListRepr (some (PTree.node (c' :: cs')))
            = sortedListRepr (some (PTree.node (c :: cs))) := by
          show some (PTree.node (c' :: cs')).canon = some (PTree.node (c :: cs)).canon
          rw [show PTree.node (c' :: cs') = (PTree.node (c :: cs)).canon from
            hcanon.symm, canon_idem]
        have hA : ((splitPairs (some (PTree.node (c :: cs)))).filter
              (fun p => !(eqT p.1 (some (.node (c :: cs))) || eqT p.1 none))).map
              (fun p => (p.2.map semS).prod * semT p.1)
            = (((splitPairs (some (PTree.node (c :: cs)))).map cutKey).filter
                (predK (sortedListRepr (some (PTree.node (c :: cs)))))).map termK := by
          have step1 : ((splitPairs (some (PTree.node (c :: cs)))).filter
                (fun p => !(eqT p.1 (some (.node (c :: cs))) || eqT p.1 none))).map
                (fun p => (p.2.map semS).prod * semT p.1)
              = ((splitPairs (some (PTree.node (c :: cs)))).filter
                (fun p => !(eqT p.1 (some (.node (c :: cs))) || eqT p.1 none))).map
                (termK ∘ cutKey) := by
            apply List.map_congr_left
            intro q hq
            have hmem := (List.mem_filter.mp hq).1
            have hpred := (List.mem_filter.mp hq).2
            have hne2 : ¬ eqT q.1 none = true := by
              intro hcontra
              rw [hcontra] at hpred
              simp at hpred
            have hb := splitPairs_tail_bound hmem hne2
            exact term_eq_termK ihn q (fun s hs => by
              have h3 := hb s hs
              have h4 : (PTree.node (c :: cs)).nodes ≤ n + 1 := hp
              omega)
          rw [step1, ← List.map_map]
          congr 1
          exact (List.filter_map (p := predK
            (sortedListRepr (some (PTree.node (c :: cs))))) cutKey _).symm
        have hB : ((splitPairs (some (PTree.node (c' :: cs')))).filter
              (fun p => !(eqT p.1 (some (.node (c' :: cs'))) || eqT p.1 none))).map
              (fun p => (p.2.map semS).prod * semT p.1)
            = (((splitPairs (some (PTree.node (c' :: cs')))).map cutKey).filter
                (predK (sortedListRepr (some (PTree.node (c :: cs)))))).map termK := by
          have step1 : ((splitPairs (some (PTree.node (c' :: cs')))).filter
                (fun p => !(eqT p.1 (some (.node (c' :: cs'))) || eqT p.1 none))).map
                (fun p => (p.2.map semS).prod * semT p.1)
              = ((splitPairs (some (PTree.node (c' :: cs')))).filter
                (fun p => !(eqT p.1 (some (.node (c' :: cs'))) || eqT p.1 none))).map
                (termK ∘ cutKey) := by
            apply List.map_congr_left
            intro q hq
            have hmem := (List.mem_filter.mp hq).1
            have hpred := (List.mem_filter.mp hq).2
            have hne2 : ¬ eqT q.1 none = true := by
              intro hcontra
              rw [hcontra] at hpred
              simp at hpred
            have hb := splitPairs_tail_bound hmem hne2
            exact term_eq_termK ihn q (fun s hs => by
              have h3 := hb s hs
              have h4 : (PTree.node (c :: cs)).nodes ≤ n + 1 := hp
              omega)
          rw [step1, ← List.map_map]
          congr 1
          rw [← hr]
          exact (List.filter_map (p := predK
            (sortedListRepr (some (PTree.node (c' :: cs'))))) cutKey _).symm
        rw [hA, hB]
        have hperm : (List.map cutKey (splitPairs (some (PTree.node (c :: cs))))).Perm
            (List.map cutKey (splitPairs (some (PTree.node (c' :: cs'))))) := by
          apply Multiset.coe_eq_coe.mp
          have hsk := splitKeys_canon (PTree.node (c :: cs))
          rw [hcanon] at hsk
          exact hsk
        exact List.Perm.sum_eq (List.Perm.map termK (List.Perm.filter _ hperm))
  intro p
  exact main p.nodes p (le_refl _)

theorem sem_apply_of_mem :
    ∀ {r : ForestSum}, (∀ fc ∈ r, goodF fc.1) →
      r.Pairwise (fun a b => fkey a.1 ≠ fkey b.1) →
      ∀ {g : Forest} {d : ℚ}, (g, d) ∈ r → sem r (fkeySem g) = d := by
  intro r
  induction r with
  | nil => intro _ _ g d hm; cases hm
  | cons fc rest ih =>
    intro hgood hpair g d hm
    rcases List.mem_cons.mp hm with heq | hmem
    · have hfc : fc = (g, d) := heq.symm
      subst hfc
      rw [sem_cons, Finsupp.add_apply, AddMonoidAlgebra.single_apply, if_pos rfl]
      rw [sem_apply_ne, add_zero]
      intro fc' hfc' hcontra
      have hne := (List.pairwise_cons.mp hpair).1 fc' hfc'
      exact hne (fkey_of_fkeySem (hgood _ (List.mem_cons_self _ _))
        (hgood _ (List.mem_cons_of_mem _ hfc')) hcontra.symm)
    · rw [sem_cons, Finsupp.add_apply]
      rw [ih (fun fc' hfc' => hgood fc' (List.mem_cons_of_mem _ hfc'))
        (List.pairwise_cons.mp hpair).2 hmem]
      rw [AddMonoidAlgebra.single_apply, if_neg, zero_add]
      intro hcontra
      have hne := (List.pairwise_cons.mp hpair).1 (g, d) hmem
      exact hne (fkey_of_fkeySem (hgood _ (List.mem_cons_self _ _))
        (hgood _ (List.mem_cons_of_mem _ hmem)) hcontra)

theorem exists_of_sem_ne {r : ForestSum} {k : Multiset PTree} (h : sem r k ≠ 0) :
    ∃ fc ∈ r, fkeySem fc.1 = k := by
  by_contra hc
  push_neg at hc
  exact h (sem_apply_ne hc)

/-- Structure of the reduced form of a semantically nonzero well-formed
forest sum: every term's forest is in reduced shape, every coefficient is
nonzero, and the forest keys are pairwise distinct. -/
theorem reduceFS_props {s : ForestSum} (hW : WFS s) (hs : sem s ≠ 0) :
    (∀ fc ∈ reduceFS s, goodF fc.1 ∧ fc.2 ≠ 0)
      ∧ (reduceFS s).Pairwise (fun a b => fkey a.1 ≠ fkey b.1) := by
  have hres : reduceFS s
      = (s.foldl (fun acc fc => insertMerge acc (reduceF fc.1) fc.2)
        []).filter (fun fc => decide (fc.2 ≠ 0)) := by
    rw [reduceFS]
    split_ifs with h
    · exfalso
      apply hs
      have h1 := sem_filter_ne_zero
        (s.foldl (fun acc fc => insertMerge acc (reduceF fc.1) fc.2) [])
      rw [h] at h1
      have h2 := sem_mergeFold s []
      rw [sem_nil, zero_add] at h2
      rw [← h2, ← h1, sem_nil]
    · rfl
  refine ⟨?_, ?_⟩
  · intro fc hfc
    rw [hres] at hfc
    have hmem := List.mem_filter.mp hfc
    constructor
    · rcases mergeFold_fst_mem fc hmem.1 with h1 | ⟨fc', hfc', h2⟩
      · simp at h1
      · rw [h2]
        exact reduceF_good (hW fc' hfc')
    · simpa using hmem.2
  · rw [hres]
    exact List.Pairwise.filter _ (mergeFold_pairwise List.Pairwise.nil)

/-- The interpretation determines the equality key: two well-formed forest
sums with the same semantics are `==`-equal in the code's sense. -/
theorem skey_of_sem {s₁ s₂ : ForestSum} (h₁ : WFS s₁) (h₂ : WFS s₂)
    (h : sem s₁ = sem s₂) : skey s₁ = skey s₂ := by
  by_cases h0 : sem s₁ = 0
  · have e₁ := reduceFS_eq_zero_of_sem h₁ h0
    have e₂ := reduceFS_eq_zero_of_sem h₂ (by rw [← h]; exact h0)
    rw [skey, skey, e₁, e₂]
  · obtain ⟨hg₁, hp₁⟩ := reduceFS_props h₁ h0
    obtain ⟨hg₂, hp₂⟩ := reduceFS_props h₂ (by rw [← h]; exact h0)
    have hsem : sem (reduceFS s₁) = sem (reduceFS s₂) := by
      rw [sem_reduceFS, sem_reduceFS, h]
    have hnd₁ : ((reduceFS s₁).map (fun fc => (fkey fc.1, fc.2))).Pairwise
        (fun a b => a ≠ b) := by
      rw [List.pairwise_map]
      apply List.Pairwise.imp ?_ hp₁
      intro a b hne hc
      exact hne (congrArg Prod.fst hc)
    have hnd₂ : ((reduceFS s₂).map (fun fc => (fkey fc.1, fc.2))).Pairwise
        (fun a b => a ≠ b) := by
      rw [List.pairwise_map]
      apply List.Pairwise.imp ?_ hp₂
      intro a b hne hc
      exact hne (congrArg Prod.fst hc)
    rw [skey, skey]
    apply (Multiset.Nodup.ext (Multiset.coe_nodup.mpr hnd₁)
      (Multiset.coe_nodup.mpr hnd₂)).mpr
    intro kc
    have key : ∀ (r r' : ForestSum), (∀ fc ∈ r, goodF fc.1 ∧ fc.2 ≠ 0) →
        (∀ fc ∈ r', goodF fc.1 ∧ fc.2 ≠ 0) →
        r.Pairwise (fun a b => fkey a.1 ≠ fkey b.1) →
        r'.Pairwise (fun a b => fkey a.1 ≠ fkey b.1) →
        sem r = sem r' →
        kc ∈ r.map (fun fc => (fkey fc.1, fc.2)) →
        kc ∈ r'.map (fun fc => (fkey fc.1, fc.2)) := by
      intro r r' hg hg' hp hp' hsr hmem
      obtain ⟨⟨g, d⟩, hgd, hkc⟩ := List.mem_map.mp hmem
      have hgood : goodF g := (hg _ hgd).1
      have hdnz : d ≠ 0 := (hg _ hgd).2
      have heval : sem r (fkeySem g) = d :=
        sem_apply_of_mem (fun fc hfc => (hg fc hfc).1) hp hgd
      have heval' : sem r' (fkeySem g) = d := by
        rw [← hsr]
        exact heval
      have hnev : sem r' (fkeySem g) ≠ 0 := by
        rw [heval']
        exact hdnz
      obtain ⟨⟨g', d'⟩, hgd', hk⟩ := exists_of_sem_ne hnev
      have hgood' : goodF g' := (hg' _ hgd').1
      have hfk : fkey g' = fkey g := fkey_of_fkeySem hgood' hgood hk
      have heval2 : sem r' (fkeySem g') = d' :=
        sem_apply_of_mem (fun fc hfc => (hg' fc hfc).1) hp' hgd'
      have hd' : d' = d := by
        rw [← heval2, hk, heval']
      apply List.mem_map.mpr
      refine ⟨(g', d'), hgd', ?_⟩
      show (fkey g', d') = kc
      rw [← hkc, hfk, hd']
    constructor
    · intro hmem
      exact Multiset.mem_coe.mpr
        (key _ _ hg₁ hg₂ hp₁ hp₂ hsem (Multiset.mem_coe.mp hmem))
    · intro hmem
      exact Multiset.mem_coe.mpr
        (key _ _ hg₂ hg₁ hp₂ hp₁ hsem.symm (Multiset.mem_coe.mp hmem))

/-- Two trees are isomorphic when one is obtained from the other by
recursively permuting children at any level: the children of the first are
isomorphic, in order, to some permutation of the children of the second. -/
inductive Iso : PTree → PTree → Prop
  | node {cs mid ds : List PTree} :
      List.Forall₂ Iso cs mid → mid.Perm ds → Iso (.node cs) (.node ds)

theorem map_canon_eq_of_forall₂ :
    ∀ {cs mid : List PTree}, List.Forall₂ Iso cs mid →
      (∀ a ∈ cs, ∀ b, Iso a b → a.canon = b.canon) →
      cs.map PTree.canon = mid.map PTree.canon := by
  intro cs mid hf
  induction hf with
  | nil => intro _; rfl
  | @cons a b l₁ l₂ hab htail ih =>
    intro hptw
    rw [List.map_cons, List.map_cons, hptw a (List.mem_cons_self _ _) b hab,
      ih (fun x hx c hic => hptw x (List.mem_cons_of_mem _ hx) c hic)]

theorem exists_mid_of_perm_map :
    ∀ (cs ds : List PTree),
      (cs.map PTree.canon).Perm (ds.map PTree.canon) →
      (∀ c ∈ cs, ∀ d : PTree, c.canon = d.canon → Iso c d) →
      ∃ mid, List.Forall₂ Iso cs mid ∧ mid.Perm ds := by
  intro cs
  induction cs with
  | nil =>
    intro ds hperm _
    have hnil : ds.map PTree.canon = [] := hperm.symm.eq_nil
    have hds : ds = [] := List.map_eq_nil.mp hnil
    exact ⟨[], List.Forall₂.nil, by rw [hds]⟩
  | cons c cs ih =>
    intro ds hperm hptw
    have hmem : c.canon ∈ ds.map PTree.canon :=
      hperm.mem_iff.mp (List.mem_cons_self _ _)
    obtain ⟨d, hd, hdc⟩ := List.mem_map.mp hmem
    obtain ⟨ds₁, ds₂, rfl⟩ := List.append_of_mem hd
    have hmid : ((ds₁ ++ d :: ds₂).map PTree.canon).Perm
        (d.canon :: (ds₁ ++ ds₂).map PTree.canon) := by
      rw [List.map_append, List.map_cons, List.map_append]
      exact List.perm_middle
    have htail : (cs.map PTree.canon).Perm ((ds₁ ++ ds₂).map PTree.canon) := by
      have h2 := hperm.trans hmid
      rw [List.map_cons, ← hdc] at h2
      exact h2.cons_inv
    obtain ⟨mid', hf, hp⟩ := ih (ds₁ ++ ds₂) htail
      (fun x hx d' hxd => hptw x (List.mem_cons_of_mem _ hx) d' hxd)
    refine ⟨d :: mid',
      List.Forall₂.cons (hptw c (List.mem_cons_self _ _) d hdc.symm) hf, ?_⟩
    exact (hp.cons d).trans List.perm_middle.symm

/-- Isomorphism is exactly equality of canonical forms: the canonical form
is a pure function of the isomorphism class, and it separates the classes. -/
theorem Iso_iff_canon : ∀ p q : PTree, (Iso p q ↔ p.canon = q.canon) := by
  have main : ∀ n : ℕ, ∀ p q : PTree, p.nodes ≤ n →
      (Iso p q ↔ p.canon = q.canon) := by
    intro n
    induction n with
    | zero =>
      intro p q hp
      have := PTree.nodes_pos p
      omega
    | succ n ihn =>
      intro p q hp
      constructor
      · intro hiso
        cases hiso with
        | @node cs mid ds hf hperm =>
          show PTree.node (List.insertionSort ptLE (canonL cs))
            = PTree.node (List.insertionSort ptLE (canonL ds))
          congr 1
          apply sort_eq_of_perm
          rw [canonL_eq_map, canonL_eq_map]
          have hcs : cs.map PTree.canon = mid.map PTree.canon :=
            map_canon_eq_of_forall₂ hf (fun a ha b hab => (ihn a b (by
              have h1 := nodes_le_nodesL ha
              have h2 : (PTree.node cs).nodes = 1 + nodesL cs := rfl
              omega)).mp hab)
          rw [hcs]
          exact hperm.map _
      · intro hcanon
        cases p with
        | node cs =>
          cases q with
          | node ds =>
            have hsort : List.insertionSort ptLE (canonL cs)
                = List.insertionSort ptLE (canonL ds) := by
              have h2 : PTree.node (List.insertionSort ptLE (canonL cs))
                  = PTree.node (List.insertionSort ptLE (canonL ds)) := hcanon
              injection h2
            have hperm : (cs.map PTree.canon).Perm (ds.map PTree.canon) := by
              rw [← canonL_eq_map, ← canonL_eq_map]
              have h3 := (List.perm_insertionSort ptLE (canonL cs)).symm
              rw [hsort] at h3
              exact h3.trans (List.perm_insertionSort _ _)
            obtain ⟨mid, hf, hp2⟩ := exists_mid_of_perm_map cs ds hperm
              (fun x hx d hxd => (ihn x d (by
                have h1 := nodes_le_nodesL hx
                have h2 : (PTree.node cs).nodes = 1 + nodesL cs := rfl
                omega)).mpr hxd)
            exact Iso.node hf hp2
  intro p q
  exact main p.nodes p q (le_refl _)

theorem factorialL_eq_prod : ∀ cs : List PTree,
    factorialL cs = (cs.map PTree.factorial).prod := by
  intro cs
  induction cs with
  | nil => rfl
  | cons c cs ih => rw [factorialL, ih, List.map_cons, List.prod_cons]

theorem sigmaL_eq_prod : ∀ cs : List PTree,
    sigmaL cs = (cs.map PTree.sigma).prod := by
  intro cs
  induction cs with
  | nil => rfl
  | cons c cs ih => rw [sigmaL, ih, List.map_cons, List.prod_cons]

/-- The tree factorial is an isomorphism invariant. -/
theorem factorial_canon : ∀ p : PTree, p.canon.factorial = p.factorial := by
  have main : ∀ n : ℕ, ∀ p : PTree, p.nodes ≤ n →
      p.canon.factorial = p.factorial := by
    intro n
    induction n with
    | zero =>
      intro p hp
      have := PTree.nodes_pos p
      omega
    | succ n ihn =>
      intro p hp
      cases p with
      | node cs =>
        have h1 : (PTree.node cs).canon.factorial
            = (PTree.node (List.insertionSort ptLE (canonL cs))).nodes
              * factorialL (List.insertionSort ptLE (canonL cs)) := rfl
        have h2 : (PTree.node cs).factorial
            = (PTree.node cs).nodes * factorialL cs := rfl
        rw [h1, h2]
        have hnodes : (PTree.node (List.insertionSort ptLE (canonL cs))).nodes
            = (PTree.node cs).nodes := canon_nodes (PTree.node cs)
        rw [hnodes]
        congr 1
        rw [factorialL_eq_prod, factorialL_eq_prod]
        rw [((List.perm_insertionSort ptLE (canonL cs)).map PTree.factorial).prod_eq]
        rw [canonL_eq_map, List.map_map]
        apply congrArg List.prod
        apply List.map_congr_left
        intro a ha
        show a.canon.factorial = a.factorial
        exact ihn a (by
          have hb := nodes_le_nodesL ha
          have hc : (PTree.node cs).nodes = 1 + nodesL cs := rfl
          omega)
  intro p
  exact main p.nodes p (le_refl _)

theorem multFactor_perm {l l' : List PTree} (h : l.Perm l') :
    multFactor l = multFactor l' := by
  rw [multFactor, multFactor]
  rw [((h.dedup).map (fun d => Nat.factorial (l.count d))).prod_eq]
  apply congrArg List.prod
  apply List.map_congr_left
  intro d _
  rw [h.count_eq]

/-- The symmetry factor `σ` is an isomorphism invariant. -/
theorem sigma_canon : ∀ p : PTree, p.canon.sigma = p.sigma := by
  have main : ∀ n : ℕ, ∀ p : PTree, p.nodes ≤ n → p.canon.sigma = p.sigma := by
    intro n
    induction n with
    | zero =>
      intro p hp
      have := PTree.nodes_pos p
      omega
    | succ n ihn =>
      intro p hp
      cases p with
      | node cs =>
        have h1 : (PTree.node cs).canon.sigma
            = multFactor (canonL (List.insertionSort ptLE (canonL cs)))
              * sigmaL (List.insertionSort ptLE (canonL cs)) := rfl
        have h2 : (PTree.node cs).sigma = multFactor (canonL cs) * sigmaL cs := rfl
        rw [h1, h2]
        have hfix : canonL (List.insertionSort ptLE (canonL cs))
            = List.insertionSort ptLE (canonL cs) := by
          rw [canonL_eq_map]
          have hid : ∀ x ∈ List.insertionSort ptLE (canonL cs), x.canon = x := by
            intro x hx
            have hx2 : x ∈ canonL cs :=
              (List.perm_insertionSort ptLE (canonL cs)).mem_iff.mp hx
            rw [canonL_eq_map] at hx2
            obtain ⟨y, _, rfl⟩ := List.mem_map.mp hx2
            exact canon_idem y
          rw [List.map_congr_left (fun x hx => hid x hx)]
          exact List.map_id' _
        rw [hfix]
        refine congrArg₂ HMul.hMul ?_ ?_
        · exact multFactor_perm (List.perm_insertionSort ptLE (canonL cs))
        · rw [sigmaL_eq_prod, sigmaL_eq_prod]
          rw [((List.perm_insertionSort ptLE (canonL cs)).map PTree.sigma).prod_eq]
          rw [canonL_eq_map, List.map_map]
          apply congrArg List.prod
          apply List.map_congr_left
          intro a ha
          show a.canon.sigma = a.sigma
          exact ihn a (by
            have hb := nodes_le_nodesL ha
            have hc : (PTree.node cs).nodes = 1 + nodesL cs := rfl
            omega)
  intro p
  exact main p.nodes p (le_refl _)

/-- The antipode is an isomorphism invariant up to the code's `==` on
forest sums. -/
theorem antipode_canon {p q : PTree} (h : p.canon = q.canon) (red : Bool) :
    eqFS (antipodeT (some p) red) (antipodeT (some q) red) = true := by
  apply decide_eq_true
  apply skey_of_sem (WFS_antipodeT _ _) (WFS_antipodeT _ _)
  rw [sem_antipodeT_red, sem_antipodeT_red, semS_srl p, semS_srl q, h]

/-- C5: trees related by recursively permuting children at any level
(isomorphic trees) are exactly the trees with equal canonical forms, and for
isomorphic trees the sorted canonical representation, `==` (`_equals`),
hash, node count, tree factorial, symmetry factor `sigma` and the antipode
(up to `==` on forest sums) all coincide; conversely, two trees whose
sorted canonical representations coincide compare `==`-equal. -/
theorem C5_isomorphism_invariance :
    (∀ p q : PTree, Iso p q ↔ p.canon = q.canon)
    ∧ (∀ p q : PTree, Iso p q →
        sortedListRepr (some p) = sortedListRepr (some q)
        ∧ eqT (some p) (some q) = true
        ∧ hashTree (some p) = hashTree (some q)
        ∧ p.nodes = q.nodes
        ∧ p.factorial = q.factorial
        ∧ p.sigma = q.sigma
        ∧ ∀ red : Bool,
            eqFS (antipodeT (some p) red) (antipodeT (some q) red) = true)
    ∧ (∀ p q : PTree, sortedListRepr (some p) = sortedListRepr (some q) →
        eqT (some p) (some q) = true) := by
  refine ⟨Iso_iff_canon, ?_, ?_⟩
  · intro p q hiso
    have hc : p.canon = q.canon := (Iso_iff_canon p q).mp hiso
    have hsrl : sortedListRepr (some p) = sortedListRepr (some q) := by
      show some p.canon = some q.canon
      rw [hc]
    refine ⟨hsrl, decide_eq_true hsrl, ?_, ?_, ?_, ?_, ?_⟩
    · show (Sum.inl (sortedListRepr (some p)) : HashV)
        = Sum.inl (sortedListRepr (some q))
      rw [hsrl]
    · rw [← canon_nodes p, ← canon_nodes q, hc]
    · rw [← factorial_canon p, ← factorial_canon q, hc]
    · rw [← sigma_canon p, ← sigma_canon q, hc]
    · intro red
      exact antipode_canon hc red
  · intro p q hsrl
    exact decide_eq_true hsrl

theorem C5_isomorphism_invariance_witness :
    Iso (PTree.node [PTree.node [], PTree.node [PTree.node []]])
        (PTree.node [PTree.node [PTree.node []], PTree.node []])
    ∧ (PTree.node [PTree.node [], PTree.node [PTree.node []]]).factorial
        = (PTree.node [PTree.node [PTree.node []], PTree.node []]).factorial
    ∧ eqT (some (PTree.node [PTree.node [], PTree.node [PTree.node []]]))
        (some (PTree.node [PTree.node [PTree.node []], PTree.node []])) = true := by
  have hdot : Iso (PTree.node []) (PTree.node []) :=
    Iso.node List.Forall₂.nil (List.Perm.refl [])
  have hb : Iso (PTree.node [PTree.node []]) (PTree.node [PTree.node []]) :=
    Iso.node (List.Forall₂.cons hdot List.Forall₂.nil) (List.Perm.refl _)
  have hiso : Iso (PTree.node [PTree.node [], PTree.node [PTree.node []]])
      (PTree.node [PTree.node [PTree.node []], PTree.node []]) :=
    Iso.node (List.Forall₂.cons hdot (List.Forall₂.cons hb List.Forall₂.nil))
      (List.Perm.swap (PTree.node [PTree.node []]) (PTree.node []) [])
  have h := C5_isomorphism_invariance.2.1 _ _ hiso
  exact ⟨hiso, h.2.2.2.2.1, h.2.1⟩
